import Mathlib

/-!
Verification development for the peer-to-peer backup simulator (`storage.py`).

The simulator is embedded shallowly:

* Nodes live in an arena indexed by `Nat` (the index plays the role of the
  Python object reference); the mutable per-node record is `Node`.
* Transfer events (`BlockBackupComplete` / `BlockRestoreComplete`) live in a
  growing arena `transfers`; a node's `current_upload` / `current_download`
  hold the index of the in-flight transfer, exactly as the Python objects hold
  a reference to the `TransferComplete` event.
* The event heap is abstracted to a multiset of pending events: the random
  exponential delays drawn via `exp_rv` make any causality-respecting
  processing order realizable, so a step picks any pending event and runs its
  `process` body.  Virtual time and transfer durations are therefore not
  modelled; nothing in the state mutations depends on them.
* Python `dict` (insertion ordered, unique keys) becomes an association list
  with in-place update (`dictSet`).

Every `process` body below is a line-by-line translation of the corresponding
method in `storage.py`.
-/

namespace P2P

/-- Mutable per-node state plus its immutable configuration, mirroring the
fields of `Node.__init__` / `Node.__post_init__` in `storage.py`.  The name,
speeds and the timing parameters (`average_*`, `arrival_time`) only feed the
random delay computations, which are abstracted away. -/
structure Node where
  n : Nat
  k : Nat
  data_size : Nat
  storage_size : Nat
  online : Bool
  failed : Bool
  block_size : Nat
  free_space : Int
  local_blocks : List Bool
  backed_up_blocks : List (Option Nat)
  remote_blocks_held : List (Nat × Nat)
  current_upload : Option Nat
  current_download : Option Nat
  total_data_loss_events : Nat
  total_data_recovered : Nat
  total_backups_made : Nat
  total_restores_made : Nat
deriving DecidableEq, Repr

/-- Configuration parameters of a node (the ones that influence state). -/
structure NodeCfg where
  n : Nat
  k : Nat
  data_size : Nat
  storage_size : Nat
deriving DecidableEq, Repr

/-- Translation of `Node.__post_init__`: derived `block_size`, initial
`free_space`, all blocks local, nothing backed up, nothing held. -/
def Node.init (c : NodeCfg) : Node :=
  let bs : Nat := if 0 < c.k then c.data_size / c.k else 0
  { n := c.n
    k := c.k
    data_size := c.data_size
    storage_size := c.storage_size
    online := false
    failed := false
    block_size := bs
    free_space := (c.storage_size : Int) - (bs : Int) * (c.n : Int)
    local_blocks := List.replicate c.n true
    backed_up_blocks := List.replicate c.n none
    remote_blocks_held := []
    current_upload := none
    current_download := none
    total_data_loss_events := 0
    total_data_recovered := 0
    total_backups_made := 0
    total_restores_made := 0 }

/-- The data carried by a `TransferComplete` event: endpoints, block and the
`canceled` flag.  `restore = true` corresponds to `BlockRestoreComplete`,
`restore = false` to `BlockBackupComplete`. -/
structure Transfer where
  uploader : Nat
  downloader : Nat
  block_id : Nat
  restore : Bool
  canceled : Bool
deriving DecidableEq, Repr

/-- Default transfer used by `List.getD`; marked canceled so that an
out-of-range index behaves as a no-op event. -/
def dfltTransfer : Transfer :=
  { uploader := 0, downloader := 0, block_id := 0, restore := true, canceled := true }

/-- The closed set of event kinds of the simulator. -/
inductive Ev where
  | online (node : Nat)
  | offline (node : Nat)
  | fail (node : Nat)
  | recover (node : Nat)
  | transferComplete (tid : Nat)
deriving DecidableEq, Repr

/-- Global simulator state: the node arena, the transfer arena and the
multiset of scheduled, not yet processed events. -/
structure Sim where
  count : Nat
  nodes : Nat → Node
  transfers : List Transfer
  pending : List Ev

/-- Point update of one node in the arena. -/
def updNode (s : Sim) (i : Nat) (f : Node → Node) : Sim :=
  { s with nodes := fun j => if j = i then f (s.nodes j) else s.nodes j }

/-- Transfer arena read (`getD`; out of range yields the canceled dummy). -/
def getT (s : Sim) (tid : Nat) : Transfer :=
  s.transfers.getD tid dfltTransfer

/-- Python `d[key] = val` on an insertion-ordered dict: replace in place if
the key is present, otherwise append. -/
def dictSet : List (Nat × Nat) → Nat → Nat → List (Nat × Nat)
  | [], key, val => [(key, val)]
  | (key0, val0) :: rest, key, val =>
    if key0 = key then (key, val) :: rest else (key0, val0) :: dictSet rest key val

/-- Mark the transfer `tid` canceled in the arena. -/
def cancelT (l : List Transfer) (tid : Nat) : List Transfer :=
  l.set tid { l.getD tid dfltTransfer with canceled := true }

/-- Translation of `Backup.schedule_transfer`: create the completion event,
put it in the queue and mark both endpoints busy.  The transfer duration
(`block_size / speed`) only determines the scheduled time, which the
abstraction drops. -/
def schedule_transfer (s : Sim) (uploader downloader block_id : Nat)
    (restore : Bool) : Sim :=
  let tid := s.transfers.length
  let ev : Transfer :=
    { uploader := uploader, downloader := downloader, block_id := block_id
      restore := restore, canceled := false }
  let s1 : Sim :=
    { s with transfers := s.transfers ++ [ev]
             pending := s.pending ++ [Ev.transferComplete tid] }
  let s2 := updNode s1 downloader (fun nd => { nd with current_download := some tid })
  updNode s2 uploader (fun nd => { nd with current_upload := some tid })

/-- Helper for `Node.find_block_to_back_up`: scan `zip local backed` with the
running index. -/
def findBackupBlock : Nat → List Bool → List (Option Nat) → Option Nat
  | _, [], _ => none
  | _, _ :: _, [] => none
  | i, hl :: ls, p :: ps =>
    if hl = true ∧ p = none then some i else findBackupBlock (i + 1) ls ps

/-- Translation of `Node.find_block_to_back_up`: first block held locally and
not yet backed up. -/
def Node.find_block_to_back_up (nd : Node) : Option Nat :=
  findBackupBlock 0 nd.local_blocks nd.backed_up_blocks

/-- First loop of `Node.schedule_next_upload`: first `(peer, block_id)` of
`remote_blocks_held` whose owner is online, idle on download and missing the
block locally. -/
def uploadRestoreScan (s : Sim) : List (Nat × Nat) → Option (Nat × Nat)
  | [] => none
  | (p, b) :: rest =>
    if (s.nodes p).online = true ∧ (s.nodes p).current_download = none ∧
        (s.nodes p).local_blocks.getD b true = false
    then some (p, b) else uploadRestoreScan s rest

/-- Second loop of `Node.schedule_next_upload`: first peer (in `sim.nodes`
order) that is distinct, online, not already holding a block of `u`, idle on
download and with enough free space. -/
def uploadPeerScan (s : Sim) (u : Nat) (backed : List (Option Nat)) (bs : Nat) :
    List Nat → Option Nat
  | [] => none
  | p :: rest =>
    if p ≠ u ∧ (s.nodes p).online = true ∧ some p ∉ backed ∧
        (s.nodes p).current_download = none ∧ (bs : Int) ≤ (s.nodes p).free_space
    then some p else uploadPeerScan s u backed bs rest

/-- Translation of `Node.schedule_next_upload`. -/
def schedule_next_upload (s : Sim) (u : Nat) : Sim :=
  let nd := s.nodes u
  if nd.current_upload ≠ none then s else
  match uploadRestoreScan s nd.remote_blocks_held with
  | some (p, b) => schedule_transfer s u p b true
  | none =>
    match nd.find_block_to_back_up with
    | none => s
    | some bid =>
      match uploadPeerScan s u nd.backed_up_blocks nd.block_size (List.range s.count) with
      | none => s
      | some p => schedule_transfer s u p bid false

/-- First loop of `Node.schedule_next_download`: first index whose block is
missing locally but backed up on an online peer idle on upload. -/
def downloadRestoreScan (s : Sim) : Nat → List Bool → List (Option Nat) → Option (Nat × Nat)
  | _, [], _ => none
  | _, _ :: _, [] => none
  | i, hl :: ls, pk :: ps =>
    match pk with
    | some p =>
      if hl = false ∧ (s.nodes p).online = true ∧ (s.nodes p).current_upload = none
      then some (p, i) else downloadRestoreScan s (i + 1) ls ps
    | none => downloadRestoreScan s (i + 1) ls ps

/-- Second loop of `Node.schedule_next_download`: first distinct online peer
idle on upload, not an owner of a block we hold, fitting in our free space and
actually having a block to back up (the loop continues otherwise). -/
def downloadAcceptScan (s : Sim) (d : Nat) : List Nat → Option (Nat × Nat)
  | [] => none
  | p :: rest =>
    if p ≠ d ∧ (s.nodes p).online = true ∧ (s.nodes p).current_upload = none ∧
        List.lookup p (s.nodes d).remote_blocks_held = none ∧
        ((s.nodes p).block_size : Int) ≤ (s.nodes d).free_space
    then
      match (s.nodes p).find_block_to_back_up with
      | some bid => some (p, bid)
      | none => downloadAcceptScan s d rest
    else downloadAcceptScan s d rest

/-- Translation of `Node.schedule_next_download`. -/
def schedule_next_download (s : Sim) (d : Nat) : Sim :=
  let nd := s.nodes d
  if nd.current_download ≠ none then s else
  match downloadRestoreScan s 0 nd.local_blocks nd.backed_up_blocks with
  | some (p, i) => schedule_transfer s p d i true
  | none =>
    match downloadAcceptScan s d (List.range s.count) with
    | some (p, bid) => schedule_transfer s p d bid false
    | none => s

/-- Translation of `Disconnection.disconnect`: go offline, cancel the (at
most) two in-flight transfers and clear the slots at both endpoints. -/
def disconnect (s : Sim) (x : Nat) : Sim :=
  let cu := (s.nodes x).current_upload
  let cd := (s.nodes x).current_download
  let s1 := updNode s x (fun nd => { nd with online := false })
  let s2 :=
    match cu with
    | none => s1
    | some tid =>
      let t := getT s1 tid
      let sa : Sim := { s1 with transfers := cancelT s1.transfers tid }
      let sb := updNode sa t.downloader (fun nd => { nd with current_download := none })
      updNode sb x (fun nd => { nd with current_upload := none })
  match cd with
  | none => s2
  | some tid =>
    let t := getT s2 tid
    let sa : Sim := { s2 with transfers := cancelT s2.transfers tid }
    let sb := updNode sa t.uploader (fun nd => { nd with current_upload := none })
    updNode sb x (fun nd => { nd with current_download := none })

/-- The loop inside `Fail.process`: for each `(owner, block_id)` held for
others, drop the owner's reference and re-run its upload scheduler when it is
online and idle on upload. -/
def failLoop (s : Sim) : List (Nat × Nat) → Sim
  | [] => s
  | (o, b) :: rest =>
    let s1 := updNode s o
      (fun nd => { nd with backed_up_blocks := nd.backed_up_blocks.set b none })
    let s2 :=
      if (s1.nodes o).online = true ∧ (s1.nodes o).current_upload = none
      then schedule_next_upload s1 o else s1
    failLoop s2 rest

/-- Body of `Online.process` (also run by `Recover.process`): guard against
already-online or failed nodes, go online, try both schedulers, and queue the
next `Offline` (at a random time, abstracted). -/
def onlineBody (s : Sim) (x : Nat) : Sim :=
  if (s.nodes x).online = true ∨ (s.nodes x).failed = true then s else
  let s1 := updNode s x (fun nd => { nd with online := true })
  let s2 := schedule_next_upload s1 x
  let s3 := schedule_next_download s2 x
  { s3 with pending := s3.pending ++ [Ev.offline x] }

/-- Translation of every `process` method, dispatched on the event kind.

* `Online.process` / `Offline.process` / `Recover.process` as in the source;
* `Fail.process` keeps the duplicated local-wipe and loss-counter increment
  of the source verbatim;
* `TransferComplete.process` with `update_block_state` of the two subclasses
  inlined (the backup branch keeps the source's duplicated assignment of
  `backed_up_blocks[block_id]`). -/
def processEv (s : Sim) (e : Ev) : Sim :=
  match e with
  | .online x => onlineBody s x
  | .offline x =>
    if (s.nodes x).failed = true ∨ (s.nodes x).online = false then s else
    let s1 := disconnect s x
    { s1 with pending := s1.pending ++ [Ev.online x] }
  | .fail x =>
    let s1 := disconnect s x
    let s2 := updNode s1 x (fun nd =>
      { nd with failed := true
                total_data_loss_events := nd.total_data_loss_events + 1
                local_blocks := List.replicate nd.n false })
    let s3 := failLoop s2 (s2.nodes x).remote_blocks_held
    let s4 := updNode s3 x (fun nd =>
      { nd with remote_blocks_held := []
                free_space := (nd.storage_size : Int) - (nd.block_size : Int) * (nd.n : Int)
                local_blocks := List.replicate nd.n false
                total_data_loss_events := nd.total_data_loss_events + 1 })
    { s4 with pending := s4.pending ++ [Ev.recover x] }
  | .recover x =>
    let s1 := updNode s x (fun nd => { nd with failed := false })
    let s2 := onlineBody s1 x
    { s2 with pending := s2.pending ++ [Ev.fail x] }
  | .transferComplete tid =>
    let t := getT s tid
    if t.canceled = true then s else
    let s1 :=
      if t.restore = true then
        updNode s t.downloader (fun nd =>
          let lb := nd.local_blocks.set t.block_id true
          { nd with local_blocks := lb
                    total_restores_made := nd.total_restores_made + 1
                    total_data_recovered :=
                      if lb.count true = nd.k
                      then nd.total_data_recovered + 1 else nd.total_data_recovered })
      else
        let sa := updNode s t.downloader (fun nd =>
          { nd with free_space := nd.free_space - ((s.nodes t.uploader).block_size : Int)
                    remote_blocks_held := dictSet nd.remote_blocks_held t.uploader t.block_id })
        updNode sa t.uploader (fun nd =>
          { nd with backed_up_blocks :=
                      (nd.backed_up_blocks.set t.block_id (some t.downloader)).set
                        t.block_id (some t.downloader)
                    total_backups_made := nd.total_backups_made + 1 })
    let s2 := updNode s1 t.downloader (fun nd => { nd with current_download := none })
    let s3 := updNode s2 t.uploader (fun nd => { nd with current_upload := none })
    let s4 := schedule_next_upload s3 t.uploader
    schedule_next_download s4 t.downloader

/-- Default configuration for out-of-range arena reads. -/
def dfltCfg : NodeCfg := { n := 0, k := 0, data_size := 0, storage_size := 0 }

/-- Translation of `Backup.__init__`: build the node arena and pre-seed, per
node in order, its first `Online` and its first `Fail` event. -/
def initSim (cfgs : List NodeCfg) : Sim :=
  { count := cfgs.length
    nodes := fun i => Node.init (cfgs.getD i dfltCfg)
    transfers := []
    pending := (List.range cfgs.length).flatMap (fun i => [Ev.online i, Ev.fail i]) }

/-- Pop one occurrence of an event from the queue. -/
def popEv (s : Sim) (e : Ev) : Sim := { s with pending := s.pending.erase e }

/-- Process one scheduled event: pop it, then run its `process` body. -/
def stepSim (s : Sim) (e : Ev) : Sim := processEv (popEv s e) e

/-- One step of the simulation loop: some scheduled event is processed.  The
random delays make any causality-respecting order realizable, so the relation
quantifies over the pending events. -/
inductive Step : Sim → Sim → Prop where
  | mk : ∀ (s : Sim) (e : Ev), e ∈ s.pending → Step s (stepSim s e)

/-- States reachable from a given state by processing scheduled events. -/
def Reachable : Sim → Sim → Prop := Relation.ReflTransGen Step

/-- A configuration acceptable to `Node.__post_init__` (its assert
`free_space >= 0` at construction). -/
def NodeCfg.ok (c : NodeCfg) : Prop :=
  (if 0 < c.k then c.data_size / c.k else 0) * c.n ≤ c.storage_size

/-- Validity of at most one pending event kind target. -/
def evWf (s : Sim) : Ev → Prop
  | .online x => x < s.count
  | .offline x => x < s.count
  | .fail x => x < s.count
  | .recover x => x < s.count
  | .transferComplete tid => tid < s.transfers.length

/-- Total size (in bytes) of the remote blocks recorded in an ownership list:
each held block takes its owner's `block_size`. -/
def heldSize (s : Sim) (l : List (Nat × Nat)) : Int :=
  (l.map (fun p => ((s.nodes p.1).block_size : Int))).sum

/-- Node view without the transfer slots, used to state that an operation
only touches `current_upload` / `current_download`. -/
def Node.core (nd : Node) : Node :=
  { nd with current_upload := none, current_download := none }

/-- Summary helper: number of peers holding at least one block of `x`
(the `owners` count in `Backup.summary`). -/
def holdersCount (s : Sim) (x : Nat) : Nat :=
  ((List.range s.count).filter (fun other =>
    (List.lookup x (s.nodes other).remote_blocks_held).isSome)).length

/-- Translation of the `vulnerable_blocks` computation in `Backup.summary`:
for every node and every non-absent entry of its `backed_up_blocks`, the block
counts as vulnerable when exactly one peer holds a block of that owner. -/
def vulnerable_blocks (s : Sim) : Nat :=
  ((List.range s.count).map (fun x =>
    ((s.nodes x).backed_up_blocks.map (fun pk =>
      if pk ≠ none ∧ holdersCount s x = 1 then 1 else 0)).sum)).sum

/-! Basic lemmas about the state operations. -/

theorem updNode_nodes (s : Sim) (i : Nat) (f : Node → Node) (j : Nat) :
    (updNode s i f).nodes j = if j = i then f (s.nodes i) else s.nodes j := by
  simp only [updNode]
  by_cases h : j = i <;> simp [h]

theorem updNode_nodes_self (s : Sim) (i : Nat) (f : Node → Node) :
    (updNode s i f).nodes i = f (s.nodes i) := by
  simp [updNode_nodes]

theorem updNode_nodes_ne (s : Sim) (i : Nat) (f : Node → Node) (j : Nat) (h : j ≠ i) :
    (updNode s i f).nodes j = s.nodes j := by
  simp [updNode_nodes, h]

@[simp] theorem updNode_count (s : Sim) (i : Nat) (f : Node → Node) :
    (updNode s i f).count = s.count := rfl

@[simp] theorem updNode_transfers (s : Sim) (i : Nat) (f : Node → Node) :
    (updNode s i f).transfers = s.transfers := rfl

@[simp] theorem updNode_pending (s : Sim) (i : Nat) (f : Node → Node) :
    (updNode s i f).pending = s.pending := rfl

theorem core_eq_of_slots (nd : Node) (u d : Option Nat) :
    ({ nd with current_upload := u, current_download := d } : Node).core = nd.core := rfl

/-! Extraction of field equalities from `core` equality. -/

theorem Node.core_n {a b : Node} (h : a.core = b.core) : a.n = b.n := by
  have h2 := congrArg Node.n h
  exact h2

theorem Node.core_k {a b : Node} (h : a.core = b.core) : a.k = b.k := by
  have h2 := congrArg Node.k h
  exact h2

theorem Node.core_storage {a b : Node} (h : a.core = b.core) :
    a.storage_size = b.storage_size := by
  have h2 := congrArg Node.storage_size h
  exact h2

theorem Node.core_online {a b : Node} (h : a.core = b.core) : a.online = b.online := by
  have h2 := congrArg Node.online h
  exact h2

theorem Node.core_failed {a b : Node} (h : a.core = b.core) : a.failed = b.failed := by
  have h2 := congrArg Node.failed h
  exact h2

theorem Node.core_bs {a b : Node} (h : a.core = b.core) : a.block_size = b.block_size := by
  have h2 := congrArg Node.block_size h
  exact h2

theorem Node.core_fs {a b : Node} (h : a.core = b.core) : a.free_space = b.free_space := by
  have h2 := congrArg Node.free_space h
  exact h2

theorem Node.core_local {a b : Node} (h : a.core = b.core) :
    a.local_blocks = b.local_blocks := by
  have h2 := congrArg Node.local_blocks h
  exact h2

theorem Node.core_backed {a b : Node} (h : a.core = b.core) :
    a.backed_up_blocks = b.backed_up_blocks := by
  have h2 := congrArg Node.backed_up_blocks h
  exact h2

theorem Node.core_rbh {a b : Node} (h : a.core = b.core) :
    a.remote_blocks_held = b.remote_blocks_held := by
  have h2 := congrArg Node.remote_blocks_held h
  exact h2

theorem Node.core_loss {a b : Node} (h : a.core = b.core) :
    a.total_data_loss_events = b.total_data_loss_events := by
  have h2 := congrArg Node.total_data_loss_events h
  exact h2

theorem Node.core_recovered {a b : Node} (h : a.core = b.core) :
    a.total_data_recovered = b.total_data_recovered := by
  have h2 := congrArg Node.total_data_recovered h
  exact h2

theorem Node.core_backups {a b : Node} (h : a.core = b.core) :
    a.total_backups_made = b.total_backups_made := by
  have h2 := congrArg Node.total_backups_made h
  exact h2

theorem Node.core_restores {a b : Node} (h : a.core = b.core) :
    a.total_restores_made = b.total_restores_made := by
  have h2 := congrArg Node.total_restores_made h
  exact h2

/-! Lemmas about `dictSet` and `List.lookup`. -/

theorem dictSet_of_lookup_none (l : List (Nat × Nat)) (key val : Nat)
    (h : List.lookup key l = none) : dictSet l key val = l ++ [(key, val)] := by
  induction l with
  | nil => rfl
  | cons hd tl ih =>
    obtain ⟨k0, v0⟩ := hd
    simp only [List.lookup] at h
    by_cases hk : key = k0
    · simp [hk, beq_self_eq_true] at h
    · have hk2 : (key == k0) = false := beq_eq_false_iff_ne.mpr hk
      rw [hk2] at h
      simp only [dictSet]
      have : ¬ (k0 = key) := fun hc => hk hc.symm
      simp [this, ih h]

theorem lookup_append_right_none {β : Type} (l1 l2 : List (Nat × β)) (key : Nat)
    (h : List.lookup key l1 = none) :
    List.lookup key (l1 ++ l2) = List.lookup key l2 := by
  induction l1 with
  | nil => rfl
  | cons hd tl ih =>
    obtain ⟨k0, v0⟩ := hd
    simp only [List.lookup] at h ⊢
    cases hkk : (key == k0) with
    | true => rw [hkk] at h; simp at h
    | false => rw [hkk] at h; simp only [List.cons_append]; exact ih h

theorem lookup_eq_none_iff {β : Type} (l : List (Nat × β)) (key : Nat) :
    List.lookup key l = none ↔ ∀ p ∈ l, p.1 ≠ key := by
  induction l with
  | nil => simp
  | cons hd tl ih =>
    obtain ⟨k0, v0⟩ := hd
    simp only [List.lookup]
    by_cases hk : key = k0
    · subst hk
      simp only [beq_self_eq_true]
      constructor
      · intro h; cases h
      · intro h
        exact absurd rfl (h (key, v0) (List.mem_cons_self _ _))
    · have hk2 : (key == k0) = false := beq_eq_false_iff_ne.mpr hk
      rw [hk2]
      rw [ih]
      constructor
      · intro h p hp
        rcases List.mem_cons.mp hp with h1 | h2
        · subst h1; exact fun hc => hk hc.symm
        · exact h p h2
      · intro h p hp
        exact h p (List.mem_cons_of_mem _ hp)

theorem lookup_isSome_of_mem {β : Type} (l : List (Nat × β)) (key : Nat) (v : β)
    (h : (key, v) ∈ l) : (List.lookup key l).isSome = true := by
  induction l with
  | nil => cases h
  | cons hd tl ih =>
    obtain ⟨k0, v0⟩ := hd
    simp only [List.lookup]
    by_cases hk : key = k0
    · subst hk; simp
    · have hk2 : (key == k0) = false := beq_eq_false_iff_ne.mpr hk
      rw [hk2]
      rcases List.mem_cons.mp h with h1 | h2
      · cases h1; exact absurd rfl hk
      · exact ih h2

theorem mem_of_lookup_eq_some {β : Type} (l : List (Nat × β)) (key : Nat) (v : β)
    (h : List.lookup key l = some v) : (key, v) ∈ l := by
  induction l with
  | nil => cases h
  | cons hd tl ih =>
    obtain ⟨k0, v0⟩ := hd
    simp only [List.lookup] at h
    by_cases hk : key = k0
    · subst hk
      simp only [beq_self_eq_true] at h
      cases h
      exact List.mem_cons_self _ _
    · have hk2 : (key == k0) = false := beq_eq_false_iff_ne.mpr hk
      rw [hk2] at h
      exact List.mem_cons_of_mem _ (ih h)

theorem lookup_eq_some_of_nodup {β : Type} (l : List (Nat × β)) (key : Nat) (v : β)
    (hnd : (l.map Prod.fst).Nodup) (h : (key, v) ∈ l) :
    List.lookup key l = some v := by
  induction l with
  | nil => cases h
  | cons hd tl ih =>
    obtain ⟨k0, v0⟩ := hd
    simp only [List.map_cons, List.nodup_cons] at hnd
    simp only [List.lookup]
    rcases List.mem_cons.mp h with h1 | h2
    · cases h1
      simp
    · by_cases hk : key = k0
      · subst hk
        exact absurd (List.mem_map_of_mem Prod.fst h2) hnd.1
      · have hk2 : (key == k0) = false := beq_eq_false_iff_ne.mpr hk
        rw [hk2]
        exact ih hnd.2 h2

/-! Lemmas about `heldSize`. -/

theorem heldSize_append (s : Sim) (l1 l2 : List (Nat × Nat)) :
    heldSize s (l1 ++ l2) = heldSize s l1 + heldSize s l2 := by
  simp [heldSize]

theorem heldSize_congr (s1 s2 : Sim) (l : List (Nat × Nat))
    (h : ∀ x, (s1.nodes x).block_size = (s2.nodes x).block_size) :
    heldSize s1 l = heldSize s2 l := by
  simp only [heldSize]
  congr 1
  exact List.map_congr_left (fun p _ => by rw [h p.1])

theorem heldSize_cons (s : Sim) (p : Nat × Nat) (tl : List (Nat × Nat)) :
    heldSize s (p :: tl) = ((s.nodes p.1).block_size : Int) + heldSize s tl := by
  simp [heldSize]

theorem heldSize_nonneg (s : Sim) (l : List (Nat × Nat)) : 0 ≤ heldSize s l := by
  induction l with
  | nil => simp [heldSize]
  | cons hd tl ih =>
    rw [heldSize_cons]
    have : (0 : Int) ≤ ((s.nodes hd.1).block_size : Int) := Int.natCast_nonneg _
    omega

/-! Characterization of the scheduler scans. -/

theorem uploadRestoreScan_some (s : Sim) (l : List (Nat × Nat)) (p b : Nat)
    (h : uploadRestoreScan s l = some (p, b)) :
    (p, b) ∈ l ∧ (s.nodes p).online = true ∧ (s.nodes p).current_download = none ∧
      (s.nodes p).local_blocks.getD b true = false := by
  induction l with
  | nil => cases h
  | cons hd tl ih =>
    obtain ⟨p0, b0⟩ := hd
    simp only [uploadRestoreScan] at h
    split at h
    · rename_i hc
      cases h
      exact ⟨List.mem_cons_self _ _, hc.1, hc.2.1, hc.2.2⟩
    · have := ih h
      exact ⟨List.mem_cons_of_mem _ this.1, this.2⟩

theorem uploadPeerScan_some (s : Sim) (u : Nat) (backed : List (Option Nat))
    (bs : Nat) (l : List Nat) (p : Nat)
    (h : uploadPeerScan s u backed bs l = some p) :
    p ∈ l ∧ p ≠ u ∧ (s.nodes p).online = true ∧ some p ∉ backed ∧
      (s.nodes p).current_download = none ∧ (bs : Int) ≤ (s.nodes p).free_space := by
  induction l with
  | nil => cases h
  | cons hd tl ih =>
    simp only [uploadPeerScan] at h
    split at h
    · rename_i hc
      cases h
      exact ⟨List.mem_cons_self _ _, hc.1, hc.2.1, hc.2.2.1, hc.2.2.2.1, hc.2.2.2.2⟩
    · have := ih h
      exact ⟨List.mem_cons_of_mem _ this.1, this.2⟩

theorem findBackupBlock_some (ls : List Bool) :
    ∀ (i : Nat) (ps : List (Option Nat)) (bid : Nat),
      findBackupBlock i ls ps = some bid →
      ∃ j, bid = i + j ∧ j < ls.length ∧ j < ps.length ∧
        ls.getD j false = true ∧ ps.getD j none = none := by
  induction ls with
  | nil => intro i ps bid h; cases h
  | cons hl tl ih =>
    intro i ps bid h
    cases ps with
    | nil => cases h
    | cons p ptl =>
      simp only [findBackupBlock] at h
      split at h
      · rename_i hc
        cases h
        exact ⟨0, by omega, by simp, by simp, by simpa using hc.1, by simpa using hc.2⟩
      · obtain ⟨j, hj1, hj2, hj3, hj4, hj5⟩ := ih (i + 1) ptl bid h
        exact ⟨j + 1, by omega, by simpa using hj2, by simpa using hj3,
          by simpa using hj4, by simpa using hj5⟩

theorem find_block_to_back_up_some (nd : Node) (bid : Nat)
    (h : nd.find_block_to_back_up = some bid) :
    bid < nd.local_blocks.length ∧ bid < nd.backed_up_blocks.length ∧
      nd.local_blocks.getD bid false = true ∧
      nd.backed_up_blocks.getD bid none = none := by
  obtain ⟨j, hj1, hj2, hj3, hj4, hj5⟩ := findBackupBlock_some nd.local_blocks 0 _ _ h
  have : bid = j := by omega
  subst this
  exact ⟨hj2, hj3, hj4, hj5⟩

theorem downloadRestoreScan_some (s : Sim) (ls : List Bool) :
    ∀ (i : Nat) (ps : List (Option Nat)) (p idx : Nat),
      downloadRestoreScan s i ls ps = some (p, idx) →
      ∃ j, idx = i + j ∧ j < ls.length ∧ j < ps.length ∧
        ls.getD j true = false ∧ ps.getD j none = some p ∧
        (s.nodes p).online = true ∧ (s.nodes p).current_upload = none := by
  induction ls with
  | nil => intro i ps p idx h; cases h
  | cons hl tl ih =>
    intro i ps p idx h
    cases ps with
    | nil => cases h
    | cons pk ptl =>
      cases pk with
      | some q =>
        by_cases hc : hl = false ∧ (s.nodes q).online = true ∧
            (s.nodes q).current_upload = none
        · rw [downloadRestoreScan, if_pos hc] at h
          cases h
          exact ⟨0, by omega, by simp, by simp, by simpa using hc.1, by simp,
            hc.2.1, hc.2.2⟩
        · rw [downloadRestoreScan, if_neg hc] at h
          obtain ⟨j, hj1, hj2, hj3, hj4, hj5, hj6, hj7⟩ := ih (i + 1) ptl p idx h
          exact ⟨j + 1, by omega, by simpa using hj2, by simpa using hj3,
            by simpa using hj4, by simpa using hj5, hj6, hj7⟩
      | none =>
        rw [downloadRestoreScan] at h
        obtain ⟨j, hj1, hj2, hj3, hj4, hj5, hj6, hj7⟩ := ih (i + 1) ptl p idx h
        exact ⟨j + 1, by omega, by simpa using hj2, by simpa using hj3,
          by simpa using hj4, by simpa using hj5, hj6, hj7⟩

theorem downloadAcceptScan_some (s : Sim) (d : Nat) (l : List Nat) (p bid : Nat)
    (h : downloadAcceptScan s d l = some (p, bid)) :
    p ∈ l ∧ p ≠ d ∧ (s.nodes p).online = true ∧ (s.nodes p).current_upload = none ∧
      List.lookup p (s.nodes d).remote_blocks_held = none ∧
      ((s.nodes p).block_size : Int) ≤ (s.nodes d).free_space ∧
      (s.nodes p).find_block_to_back_up = some bid := by
  induction l with
  | nil => cases h
  | cons hd tl ih =>
    simp only [downloadAcceptScan] at h
    split at h
    · rename_i hc
      split at h
      · rename_i hfb
        cases h
        exact ⟨List.mem_cons_self _ _, hc.1, hc.2.1, hc.2.2.1, hc.2.2.2.1,
          hc.2.2.2.2, hfb⟩
      · have := ih h
        exact ⟨List.mem_cons_of_mem _ this.1, this.2⟩
    · have := ih h
      exact ⟨List.mem_cons_of_mem _ this.1, this.2⟩

/-! Structure of `schedule_transfer`. -/

theorem st_count (s : Sim) (u d b : Nat) (r : Bool) :
    (schedule_transfer s u d b r).count = s.count := rfl

theorem st_transfers (s : Sim) (u d b : Nat) (r : Bool) :
    (schedule_transfer s u d b r).transfers =
      s.transfers ++ [{ uploader := u, downloader := d, block_id := b
                        restore := r, canceled := false }] := rfl

theorem st_pending (s : Sim) (u d b : Nat) (r : Bool) :
    (schedule_transfer s u d b r).pending =
      s.pending ++ [Ev.transferComplete s.transfers.length] := rfl

theorem st_core (s : Sim) (u d b : Nat) (r : Bool) (j : Nat) :
    ((schedule_transfer s u d b r).nodes j).core = (s.nodes j).core := by
  simp only [schedule_transfer, updNode_nodes]
  by_cases hju : j = u
  · by_cases hud : u = d
    · subst hju; subst hud; simp [Node.core]
    · subst hju; simp [hud, Node.core]
  · by_cases hjd : j = d
    · have hdu : ¬ (d = u) := by rw [← hjd]; exact hju
      have hud : ¬ (u = d) := fun hc => hdu hc.symm
      simp [hju, hjd, hdu, hud, Node.core]
    · simp [hju, hjd]

theorem st_cu_self (s : Sim) (u d b : Nat) (r : Bool) :
    ((schedule_transfer s u d b r).nodes u).current_upload =
      some s.transfers.length := by
  simp [schedule_transfer, updNode_nodes]

theorem st_cd_self (s : Sim) (u d b : Nat) (r : Bool) :
    ((schedule_transfer s u d b r).nodes d).current_download =
      some s.transfers.length := by
  simp only [schedule_transfer, updNode_nodes]
  by_cases hdu : d = u <;> simp [hdu]

theorem st_cu_other (s : Sim) (u d b : Nat) (r : Bool) (j : Nat) (h : j ≠ u) :
    ((schedule_transfer s u d b r).nodes j).current_upload =
      (s.nodes j).current_upload := by
  simp only [schedule_transfer, updNode_nodes]
  by_cases hjd : j = d
  · have hdu : ¬ (d = u) := hjd ▸ h
    simp [hjd, hdu]
  · simp [h, hjd]

theorem st_cd_other (s : Sim) (u d b : Nat) (r : Bool) (j : Nat) (h : j ≠ d) :
    ((schedule_transfer s u d b r).nodes j).current_download =
      (s.nodes j).current_download := by
  simp only [schedule_transfer, updNode_nodes]
  by_cases hju : j = u
  · have hud : ¬ (u = d) := hju ▸ h
    simp [hju, hud]
  · simp [h, hju]

theorem st_getT_old (s : Sim) (u d b : Nat) (r : Bool) (tid : Nat)
    (h : tid < s.transfers.length) :
    getT (schedule_transfer s u d b r) tid = getT s tid := by
  simp only [getT, st_transfers]
  rw [List.getD_append _ _ _ _ h]

theorem st_getT_new (s : Sim) (u d b : Nat) (r : Bool) :
    getT (schedule_transfer s u d b r) s.transfers.length =
      { uploader := u, downloader := d, block_id := b, restore := r
        canceled := false } := by
  simp [getT, st_transfers, List.getD]

theorem st_nodes_other (s : Sim) (u d b : Nat) (r : Bool) (j : Nat)
    (hju : j ≠ u) (hjd : j ≠ d) :
    (schedule_transfer s u d b r).nodes j = s.nodes j := by
  simp [schedule_transfer, updNode_nodes, hju, hjd]

/-! Equation lemmas for `schedule_next_upload`, one per control path. -/

theorem snu_busy (s : Sim) (u : Nat) (h : (s.nodes u).current_upload ≠ none) :
    schedule_next_upload s u = s := by
  simp [schedule_next_upload, h]

theorem snu_restore (s : Sim) (u p b : Nat)
    (hcu : (s.nodes u).current_upload = none)
    (hscan : uploadRestoreScan s (s.nodes u).remote_blocks_held = some (p, b)) :
    schedule_next_upload s u = schedule_transfer s u p b true := by
  simp [schedule_next_upload, hcu, hscan]

theorem snu_noblock (s : Sim) (u : Nat)
    (hcu : (s.nodes u).current_upload = none)
    (hscan : uploadRestoreScan s (s.nodes u).remote_blocks_held = none)
    (hfb : (s.nodes u).find_block_to_back_up = none) :
    schedule_next_upload s u = s := by
  simp [schedule_next_upload, hcu, hscan, hfb]

theorem snu_backup (s : Sim) (u bid p : Nat)
    (hcu : (s.nodes u).current_upload = none)
    (hscan : uploadRestoreScan s (s.nodes u).remote_blocks_held = none)
    (hfb : (s.nodes u).find_block_to_back_up = some bid)
    (hpeer : uploadPeerScan s u (s.nodes u).backed_up_blocks (s.nodes u).block_size
      (List.range s.count) = some p) :
    schedule_next_upload s u = schedule_transfer s u p bid false := by
  simp [schedule_next_upload, hcu, hscan, hfb, hpeer]

theorem snu_nopeer (s : Sim) (u bid : Nat)
    (hcu : (s.nodes u).current_upload = none)
    (hscan : uploadRestoreScan s (s.nodes u).remote_blocks_held = none)
    (hfb : (s.nodes u).find_block_to_back_up = some bid)
    (hpeer : uploadPeerScan s u (s.nodes u).backed_up_blocks (s.nodes u).block_size
      (List.range s.count) = none) :
    schedule_next_upload s u = s := by
  simp [schedule_next_upload, hcu, hscan, hfb, hpeer]

/-- Full case analysis of `schedule_next_upload`, bundling the guards that
held on the taken path. -/
theorem schedule_next_upload_spec (s : Sim) (u : Nat) :
    schedule_next_upload s u = s ∨
    (∃ p b,
      (s.nodes u).current_upload = none ∧
      (p, b) ∈ (s.nodes u).remote_blocks_held ∧
      (s.nodes p).online = true ∧ (s.nodes p).current_download = none ∧
      (s.nodes p).local_blocks.getD b true = false ∧
      schedule_next_upload s u = schedule_transfer s u p b true) ∨
    (∃ p bid,
      (s.nodes u).current_upload = none ∧
      p < s.count ∧ p ≠ u ∧ (s.nodes p).online = true ∧
      some p ∉ (s.nodes u).backed_up_blocks ∧
      (s.nodes p).current_download = none ∧
      ((s.nodes u).block_size : Int) ≤ (s.nodes p).free_space ∧
      bid < (s.nodes u).local_blocks.length ∧
      bid < (s.nodes u).backed_up_blocks.length ∧
      (s.nodes u).local_blocks.getD bid false = true ∧
      (s.nodes u).backed_up_blocks.getD bid none = none ∧
      schedule_next_upload s u = schedule_transfer s u p bid false) := by
  by_cases hcu : (s.nodes u).current_upload = none
  · cases hscan : uploadRestoreScan s (s.nodes u).remote_blocks_held with
    | some pb =>
      obtain ⟨p, b⟩ := pb
      obtain ⟨hmem, hon, hcd, hloc⟩ := uploadRestoreScan_some s _ p b hscan
      exact Or.inr (Or.inl ⟨p, b, hcu, hmem, hon, hcd, hloc, snu_restore s u p b hcu hscan⟩)
    | none =>
      cases hfb : (s.nodes u).find_block_to_back_up with
      | none => exact Or.inl (snu_noblock s u hcu hscan hfb)
      | some bid =>
        cases hpeer : uploadPeerScan s u (s.nodes u).backed_up_blocks
            (s.nodes u).block_size (List.range s.count) with
        | none => exact Or.inl (snu_nopeer s u bid hcu hscan hfb hpeer)
        | some p =>
          obtain ⟨hrange, hne, hon, hnotin, hcd, hfs⟩ :=
            uploadPeerScan_some s u _ _ _ p hpeer
          obtain ⟨hb1, hb2, hb3, hb4⟩ := find_block_to_back_up_some _ bid hfb
          exact Or.inr (Or.inr ⟨p, bid, hcu, List.mem_range.mp hrange, hne, hon,
            hnotin, hcd, hfs, hb1, hb2, hb3, hb4,
            snu_backup s u bid p hcu hscan hfb hpeer⟩)
  · exact Or.inl (snu_busy s u hcu)

/-! Equation lemmas for `schedule_next_download`. -/

theorem snd_busy (s : Sim) (d : Nat) (h : (s.nodes d).current_download ≠ none) :
    schedule_next_download s d = s := by
  simp [schedule_next_download, h]

theorem snd_restore (s : Sim) (d p i : Nat)
    (hcd : (s.nodes d).current_download = none)
    (hscan : downloadRestoreScan s 0 (s.nodes d).local_blocks
      (s.nodes d).backed_up_blocks = some (p, i)) :
    schedule_next_download s d = schedule_transfer s p d i true := by
  simp [schedule_next_download, hcd, hscan]

theorem snd_accept (s : Sim) (d p bid : Nat)
    (hcd : (s.nodes d).current_download = none)
    (hscan : downloadRestoreScan s 0 (s.nodes d).local_blocks
      (s.nodes d).backed_up_blocks = none)
    (hacc : downloadAcceptScan s d (List.range s.count) = some (p, bid)) :
    schedule_next_download s d = schedule_transfer s p d bid false := by
  simp [schedule_next_download, hcd, hscan, hacc]

theorem snd_none (s : Sim) (d : Nat)
    (hcd : (s.nodes d).current_download = none)
    (hscan : downloadRestoreScan s 0 (s.nodes d).local_blocks
      (s.nodes d).backed_up_blocks = none)
    (hacc : downloadAcceptScan s d (List.range s.count) = none) :
    schedule_next_download s d = s := by
  simp [schedule_next_download, hcd, hscan, hacc]

/-- Full case analysis of `schedule_next_download`. -/
theorem schedule_next_download_spec (s : Sim) (d : Nat) :
    schedule_next_download s d = s ∨
    (∃ p i,
      (s.nodes d).current_download = none ∧
      i < (s.nodes d).local_blocks.length ∧
      i < (s.nodes d).backed_up_blocks.length ∧
      (s.nodes d).local_blocks.getD i true = false ∧
      (s.nodes d).backed_up_blocks.getD i none = some p ∧
      (s.nodes p).online = true ∧ (s.nodes p).current_upload = none ∧
      schedule_next_download s d = schedule_transfer s p d i true) ∨
    (∃ p bid,
      (s.nodes d).current_download = none ∧
      p < s.count ∧ p ≠ d ∧ (s.nodes p).online = true ∧
      (s.nodes p).current_upload = none ∧
      List.lookup p (s.nodes d).remote_blocks_held = none ∧
      ((s.nodes p).block_size : Int) ≤ (s.nodes d).free_space ∧
      bid < (s.nodes p).local_blocks.length ∧
      bid < (s.nodes p).backed_up_blocks.length ∧
      (s.nodes p).local_blocks.getD bid false = true ∧
      (s.nodes p).backed_up_blocks.getD bid none = none ∧
      schedule_next_download s d = schedule_transfer s p d bid false) := by
  by_cases hcd : (s.nodes d).current_download = none
  · cases hscan : downloadRestoreScan s 0 (s.nodes d).local_blocks
        (s.nodes d).backed_up_blocks with
    | some pi =>
      obtain ⟨p, i⟩ := pi
      obtain ⟨j, hj1, hj2, hj3, hj4, hj5, hj6, hj7⟩ :=
        downloadRestoreScan_some s _ 0 _ p i hscan
      have hij : i = j := by omega
      subst hij
      exact Or.inr (Or.inl ⟨p, i, hcd, hj2, hj3, hj4, hj5, hj6, hj7,
        snd_restore s d p i hcd hscan⟩)
    | none =>
      cases hacc : downloadAcceptScan s d (List.range s.count) with
      | none => exact Or.inl (snd_none s d hcd hscan hacc)
      | some pb =>
        obtain ⟨p, bid⟩ := pb
        obtain ⟨hrange, hne, hon, hcup, hlk, hfs, hfb⟩ :=
          downloadAcceptScan_some s d _ p bid hacc
        obtain ⟨hb1, hb2, hb3, hb4⟩ := find_block_to_back_up_some _ bid hfb
        exact Or.inr (Or.inr ⟨p, bid, hcd, List.mem_range.mp hrange, hne, hon,
          hcup, hlk, hfs, hb1, hb2, hb3, hb4, snd_accept s d p bid hcd hscan hacc⟩)
  · exact Or.inl (snd_busy s d hcd)

/-! Frame facts for the schedulers. -/

theorem snu_core (s : Sim) (u j : Nat) :
    ((schedule_next_upload s u).nodes j).core = (s.nodes j).core := by
  rcases schedule_next_upload_spec s u with h | ⟨p, b, _, _, _, _, _, h⟩ |
    ⟨p, b, _, _, _, _, _, _, _, _, _, _, _, h⟩
  · rw [h]
  · rw [h]; exact st_core s u p b true j
  · rw [h]; exact st_core s u p b false j

theorem snu_count (s : Sim) (u : Nat) :
    (schedule_next_upload s u).count = s.count := by
  rcases schedule_next_upload_spec s u with h | ⟨p, b, _, _, _, _, _, h⟩ |
    ⟨p, b, _, _, _, _, _, _, _, _, _, _, _, h⟩ <;> rw [h] <;> rfl

theorem snu_ext (s : Sim) (u : Nat) :
    ((schedule_next_upload s u).transfers = s.transfers ∧
      (schedule_next_upload s u).pending = s.pending) ∨
    (∃ t, (schedule_next_upload s u).transfers = s.transfers ++ [t] ∧
      (schedule_next_upload s u).pending =
        s.pending ++ [Ev.transferComplete s.transfers.length]) := by
  rcases schedule_next_upload_spec s u with h | ⟨p, b, _, _, _, _, _, h⟩ |
    ⟨p, b, _, _, _, _, _, _, _, _, _, _, _, h⟩ <;> rw [h]
  · exact Or.inl ⟨rfl, rfl⟩
  · exact Or.inr ⟨_, rfl, rfl⟩
  · exact Or.inr ⟨_, rfl, rfl⟩

theorem snu_offline_frame (s : Sim) (u j : Nat) (hju : j ≠ u)
    (hj : (s.nodes j).online = false) :
    (schedule_next_upload s u).nodes j = s.nodes j := by
  rcases schedule_next_upload_spec s u with h | ⟨p, b, _, _, hon, _, _, h⟩ |
    ⟨p, b, _, _, _, hon, _, _, _, _, _, _, _, h⟩
  · rw [h]
  · rw [h]
    refine st_nodes_other s u p b true j hju (fun hc => ?_)
    rw [hc] at hj; rw [hj] at hon; cases hon
  · rw [h]
    refine st_nodes_other s u p b false j hju (fun hc => ?_)
    rw [hc] at hj; rw [hj] at hon; cases hon

theorem snd_core (s : Sim) (d j : Nat) :
    ((schedule_next_download s d).nodes j).core = (s.nodes j).core := by
  rcases schedule_next_download_spec s d with h | ⟨p, b, _, _, _, _, _, _, _, h⟩ |
    ⟨p, b, _, _, _, _, _, _, _, _, _, _, _, h⟩
  · rw [h]
  · rw [h]; exact st_core s p d b true j
  · rw [h]; exact st_core s p d b false j

theorem snd_count (s : Sim) (d : Nat) :
    (schedule_next_download s d).count = s.count := by
  rcases schedule_next_download_spec s d with h | ⟨p, b, _, _, _, _, _, _, _, h⟩ |
    ⟨p, b, _, _, _, _, _, _, _, _, _, _, _, h⟩ <;> rw [h] <;> rfl

theorem snd_ext (s : Sim) (d : Nat) :
    ((schedule_next_download s d).transfers = s.transfers ∧
      (schedule_next_download s d).pending = s.pending) ∨
    (∃ t, (schedule_next_download s d).transfers = s.transfers ++ [t] ∧
      (schedule_next_download s d).pending =
        s.pending ++ [Ev.transferComplete s.transfers.length]) := by
  rcases schedule_next_download_spec s d with h | ⟨p, b, _, _, _, _, _, _, _, h⟩ |
    ⟨p, b, _, _, _, _, _, _, _, _, _, _, _, h⟩ <;> rw [h]
  · exact Or.inl ⟨rfl, rfl⟩
  · exact Or.inr ⟨_, rfl, rfl⟩
  · exact Or.inr ⟨_, rfl, rfl⟩

theorem snd_offline_frame (s : Sim) (d j : Nat) (hjd : j ≠ d)
    (hj : (s.nodes j).online = false) :
    (schedule_next_download s d).nodes j = s.nodes j := by
  rcases schedule_next_download_spec s d with h | ⟨p, b, _, _, _, _, _, hon, _, h⟩ |
    ⟨p, b, _, _, _, hon, _, _, _, _, _, _, _, h⟩
  · rw [h]
  · rw [h]
    refine st_nodes_other s p d b true j (fun hc => ?_) hjd
    rw [hc] at hj; rw [hj] at hon; cases hon
  · rw [h]
    refine st_nodes_other s p d b false j (fun hc => ?_) hjd
    rw [hc] at hj; rw [hj] at hon; cases hon

/-! Small list lemmas (getD / set / membership), proved by induction to stay
independent of library naming. -/

theorem getD_set_self {α : Type} (l : List α) (i : Nat) (v d : α)
    (h : i < l.length) : (l.set i v).getD i d = v := by
  induction l generalizing i with
  | nil => cases h
  | cons hd tl ih =>
    cases i with
    | zero => rfl
    | succ j => exact ih j (by simpa using h)

theorem getD_set_ne {α : Type} (l : List α) (i j : Nat) (v d : α)
    (h : j ≠ i) : (l.set i v).getD j d = l.getD j d := by
  induction l generalizing i j with
  | nil => rfl
  | cons hd tl ih =>
    cases i with
    | zero => cases j with
      | zero => exact absurd rfl h
      | succ j2 => rfl
    | succ i2 => cases j with
      | zero => rfl
      | succ j2 => exact ih i2 j2 (fun hc => h (by rw [hc]))

theorem mem_of_getD_some {α : Type} (l : List (Option α)) (i : Nat) (v : α)
    (h : l.getD i none = some v) : some v ∈ l := by
  induction l generalizing i with
  | nil => cases h
  | cons hd tl ih =>
    cases i with
    | zero => rw [show hd = some v from h]; exact List.mem_cons_self _ _
    | succ j => exact List.mem_cons_of_mem _ (ih j h)

theorem getD_oob {α : Type} (l : List α) (i : Nat) (d : α)
    (h : l.length ≤ i) : l.getD i d = d := by
  induction l generalizing i with
  | nil => rfl
  | cons hd tl ih =>
    cases i with
    | zero => simp at h
    | succ j => exact ih j (by simpa using h)

theorem set_oob {α : Type} (l : List α) (i : Nat) (v : α)
    (h : l.length ≤ i) : l.set i v = l := by
  induction l generalizing i with
  | nil => rfl
  | cons hd tl ih =>
    cases i with
    | zero => simp at h
    | succ j => simp only [List.set]; rw [ih j (by simpa using h)]

theorem lookup_dictSet_self (l : List (Nat × Nat)) (key val : Nat)
    (hfresh : List.lookup key l = none) :
    List.lookup key (dictSet l key val) = some val := by
  rw [dictSet_of_lookup_none l key val hfresh,
    lookup_append_right_none _ _ _ hfresh]
  simp [List.lookup]

theorem lookup_append_single_ne (l : List (Nat × Nat)) (key val key2 : Nat)
    (hne : key2 ≠ key) :
    List.lookup key2 (l ++ [(key, val)]) = List.lookup key2 l := by
  induction l with
  | nil =>
    have hb : (key2 == key) = false := beq_eq_false_iff_ne.mpr hne
    simp [List.lookup, hb]
  | cons hd tl ih =>
    obtain ⟨k0, v0⟩ := hd
    simp only [List.cons_append, List.lookup]
    cases hkk : (key2 == k0) <;> simp [ih]

theorem lookup_dictSet_ne (l : List (Nat × Nat)) (key val key2 : Nat)
    (hfresh : List.lookup key l = none) (hne : key2 ≠ key) :
    List.lookup key2 (dictSet l key val) = List.lookup key2 l := by
  rw [dictSet_of_lookup_none l key val hfresh]
  exact lookup_append_single_ne l key val key2 hne

theorem keys_fresh_of_lookup_none (l : List (Nat × Nat)) (key : Nat)
    (h : List.lookup key l = none) : key ∉ l.map Prod.fst := by
  intro hmem
  obtain ⟨p, hp, hpk⟩ := List.mem_map.mp hmem
  exact ((lookup_eq_none_iff l key).mp h p hp) hpk

/-! The inductive invariant of the simulator.

`CoreInv` collects the clauses that only depend on the node count and the
non-slot (`core`) part of each node; `SInv` adds the clauses about pending
events, the transfer arena and the in-flight slots.  The parameter `excl`
marks nodes whose inbound back-references (`rbhBacked`) are temporarily
stale; it is `fun x => False` everywhere except inside the processing of a
`Fail`, where it is `(· = failing node)`. -/
structure CoreInv (s : Sim) (excl : Nat → Prop) : Prop where
  wfLocalLen : ∀ X, X < s.count →
    (s.nodes X).local_blocks.length = (s.nodes X).n
  wfBackedLen : ∀ X, X < s.count →
    (s.nodes X).backed_up_blocks.length = (s.nodes X).n
  wfCap : ∀ X, X < s.count →
    ((s.nodes X).block_size : Int) * ((s.nodes X).n : Int) ≤
      ((s.nodes X).storage_size : Int)
  rbhNodup : ∀ X, X < s.count →
    (((s.nodes X).remote_blocks_held.map Prod.fst)).Nodup
  rbhWf : ∀ X, X < s.count → ∀ p ∈ (s.nodes X).remote_blocks_held,
    p.1 < s.count ∧ p.1 ≠ X ∧ p.2 < (s.nodes p.1).n
  rbhBacked : ∀ X, X < s.count → ¬ excl X →
    ∀ p ∈ (s.nodes X).remote_blocks_held,
      (s.nodes p.1).backed_up_blocks.getD p.2 none = some X
  backedWf : ∀ X, X < s.count → ∀ i P,
    (s.nodes X).backed_up_blocks.getD i none = some P →
      P < s.count ∧ P ≠ X ∧ List.lookup X (s.nodes P).remote_blocks_held = some i
  fsEq : ∀ X, X < s.count →
    (s.nodes X).free_space = ((s.nodes X).storage_size : Int) -
      ((s.nodes X).block_size : Int) * ((s.nodes X).n : Int) -
      heldSize s (s.nodes X).remote_blocks_held
  fsNonneg : ∀ X, X < s.count → 0 ≤ (s.nodes X).free_space
  failedOff : ∀ X, X < s.count →
    (s.nodes X).failed = true → (s.nodes X).online = false

structure SInv (s : Sim) (excl : Nat → Prop) extends CoreInv s excl : Prop where
  pendWf : ∀ e ∈ s.pending, evWf s e
  pendTc : ∀ tid, s.pending.count (Ev.transferComplete tid) ≤ 1
  transWf : ∀ t ∈ s.transfers,
    t.uploader < s.count ∧ t.downloader < s.count ∧ t.uploader ≠ t.downloader ∧
      (t.restore = true → t.block_id < (s.nodes t.downloader).n) ∧
      (t.restore = false → t.block_id < (s.nodes t.uploader).n)
  slotU : ∀ X, X < s.count → ∀ tid, (s.nodes X).current_upload = some tid →
    tid < s.transfers.length ∧ (getT s tid).uploader = X ∧
      (getT s tid).canceled = false ∧ Ev.transferComplete tid ∈ s.pending
  slotD : ∀ X, X < s.count → ∀ tid, (s.nodes X).current_download = some tid →
    tid < s.transfers.length ∧ (getT s tid).downloader = X ∧
      (getT s tid).canceled = false ∧ Ev.transferComplete tid ∈ s.pending
  liveLink : ∀ tid, Ev.transferComplete tid ∈ s.pending →
    (getT s tid).canceled = false →
    tid < s.transfers.length ∧
      (s.nodes (getT s tid).uploader).current_upload = some tid ∧
      (s.nodes (getT s tid).downloader).current_download = some tid
  inflight : ∀ tid, Ev.transferComplete tid ∈ s.pending →
    (getT s tid).canceled = false → (getT s tid).restore = false →
    (s.nodes (getT s tid).uploader).backed_up_blocks.getD
        (getT s tid).block_id none = none ∧
      List.lookup (getT s tid).uploader
        (s.nodes (getT s tid).downloader).remote_blocks_held = none ∧
      ((s.nodes (getT s tid).uploader).block_size : Int) ≤
        (s.nodes (getT s tid).downloader).free_space

/-- The invariant proper (no node has stale back-references). -/
def Inv (s : Sim) : Prop := SInv s (fun _ => False)

theorem coreInv_mono {s : Sim} {e1 e2 : Nat → Prop} (h : CoreInv s e1)
    (himp : ∀ x, e1 x → e2 x) : CoreInv s e2 where
  wfLocalLen := h.wfLocalLen
  wfBackedLen := h.wfBackedLen
  wfCap := h.wfCap
  rbhNodup := h.rbhNodup
  rbhWf := h.rbhWf
  rbhBacked := fun X hX hne p hp => h.rbhBacked X hX (fun hc => hne (himp X hc)) p hp
  backedWf := h.backedWf
  fsEq := h.fsEq
  fsNonneg := h.fsNonneg
  failedOff := h.failedOff

theorem sinv_mono {s : Sim} {e1 e2 : Nat → Prop} (h : SInv s e1)
    (himp : ∀ x, e1 x → e2 x) : SInv s e2 where
  toCoreInv := coreInv_mono h.toCoreInv himp
  pendWf := h.pendWf
  pendTc := h.pendTc
  transWf := h.transWf
  slotU := h.slotU
  slotD := h.slotD
  liveLink := h.liveLink
  inflight := h.inflight

/-- Transport of the core clauses along a state map that keeps the node count
and every node's `core`. -/
theorem coreInv_transport {s s2 : Sim} {excl : Nat → Prop} (h : CoreInv s excl)
    (hcount : s2.count = s.count)
    (hcore : ∀ j, (s2.nodes j).core = (s.nodes j).core) : CoreInv s2 excl where
  wfLocalLen := fun X hX => by
    rw [Node.core_local (hcore X), Node.core_n (hcore X)]
    exact h.wfLocalLen X (hcount ▸ hX)
  wfBackedLen := fun X hX => by
    rw [Node.core_backed (hcore X), Node.core_n (hcore X)]
    exact h.wfBackedLen X (hcount ▸ hX)
  wfCap := fun X hX => by
    rw [Node.core_bs (hcore X), Node.core_n (hcore X), Node.core_storage (hcore X)]
    exact h.wfCap X (hcount ▸ hX)
  rbhNodup := fun X hX => by
    rw [Node.core_rbh (hcore X)]
    exact h.rbhNodup X (hcount ▸ hX)
  rbhWf := fun X hX p hp => by
    rw [Node.core_rbh (hcore X)] at hp
    rw [hcount, Node.core_n (hcore p.1)]
    exact h.rbhWf X (hcount ▸ hX) p hp
  rbhBacked := fun X hX hne p hp => by
    rw [Node.core_rbh (hcore X)] at hp
    rw [Node.core_backed (hcore p.1)]
    exact h.rbhBacked X (hcount ▸ hX) hne p hp
  backedWf := fun X hX i P hget => by
    rw [Node.core_backed (hcore X)] at hget
    rw [hcount, Node.core_rbh (hcore P)]
    exact h.backedWf X (hcount ▸ hX) i P hget
  fsEq := fun X hX => by
    rw [Node.core_fs (hcore X), Node.core_storage (hcore X), Node.core_bs (hcore X),
      Node.core_n (hcore X), Node.core_rbh (hcore X),
      heldSize_congr s2 s _ (fun x => Node.core_bs (hcore x))]
    exact h.fsEq X (hcount ▸ hX)
  fsNonneg := fun X hX => by
    rw [Node.core_fs (hcore X)]
    exact h.fsNonneg X (hcount ▸ hX)
  failedOff := fun X hX => by
    rw [Node.core_failed (hcore X), Node.core_online (hcore X)]
    exact h.failedOff X (hcount ▸ hX)

theorem getT_mem (s : Sim) (tid : Nat) (h : tid < s.transfers.length) :
    getT s tid ∈ s.transfers := by
  rw [getT, List.getD_eq_getElem s.transfers dfltTransfer h]
  exact List.getElem_mem h

theorem not_mem_pending_len {s : Sim} (hpend : ∀ e ∈ s.pending, evWf s e) :
    Ev.transferComplete s.transfers.length ∉ s.pending := by
  intro hmem
  have := hpend _ hmem
  simp [evWf] at this

/-- `schedule_transfer` preserves the invariant, provided the guards checked
by the schedulers hold. -/
theorem st_sinv {s : Sim} {excl : Nat → Prop} (u d bid : Nat) (r : Bool)
    (h : SInv s excl)
    (hu : u < s.count) (hd : d < s.count) (hne : u ≠ d)
    (hcu : (s.nodes u).current_upload = none)
    (hcd : (s.nodes d).current_download = none)
    (hres : r = true → bid < (s.nodes d).n)
    (hbak : r = false → bid < (s.nodes u).n ∧
      (s.nodes u).backed_up_blocks.getD bid none = none ∧
      List.lookup u (s.nodes d).remote_blocks_held = none ∧
      ((s.nodes u).block_size : Int) ≤ (s.nodes d).free_space) :
    SInv (schedule_transfer s u d bid r) excl := by
  have hcount := st_count s u d bid r
  have hcore := st_core s u d bid r
  have hpend2 := st_pending s u d bid r
  have htr2 := st_transfers s u d bid r
  have hlen2 : (schedule_transfer s u d bid r).transfers.length =
      s.transfers.length + 1 := by
    rw [htr2]; simp
  have hGTnew := st_getT_new s u d bid r
  refine ⟨coreInv_transport h.toCoreInv hcount hcore, ?_, ?_, ?_, ?_, ?_, ?_, ?_⟩
  · -- pendWf
    intro e he
    rw [hpend2] at he
    rcases List.mem_append.mp he with hold | hnew
    · have := h.pendWf e hold
      cases e <;> simp only [evWf] at this ⊢ <;> omega
    · have : e = Ev.transferComplete s.transfers.length := by simpa using hnew
      subst this
      simp only [evWf]
      omega
  · -- pendTc
    intro tid
    rw [hpend2, List.count_append]
    by_cases htid : tid = s.transfers.length
    · subst htid
      have h0 : s.pending.count (Ev.transferComplete s.transfers.length) = 0 :=
        List.count_eq_zero.mpr (not_mem_pending_len h.pendWf)
      rw [h0]
      simp
    · have h1 : ([Ev.transferComplete s.transfers.length] :
          List Ev).count (Ev.transferComplete tid) = 0 := by
        apply List.count_eq_zero.mpr
        simp [htid]
      rw [h1]
      have := h.pendTc tid
      omega
  · -- transWf
    intro t ht
    rw [htr2] at ht
    rcases List.mem_append.mp ht with hold | hnew
    · have hw := h.transWf t hold
      refine ⟨by rw [hcount]; exact hw.1, by rw [hcount]; exact hw.2.1,
        hw.2.2.1, ?_, ?_⟩
      · intro hr
        rw [Node.core_n (hcore t.downloader)]
        exact hw.2.2.2.1 hr
      · intro hr
        rw [Node.core_n (hcore t.uploader)]
        exact hw.2.2.2.2 hr
    · have : t = { uploader := u, downloader := d, block_id := bid, restore := r
                   canceled := false } := by simpa using hnew
      subst this
      refine ⟨by rw [hcount]; exact hu, by rw [hcount]; exact hd, hne, ?_, ?_⟩
      · intro hr
        rw [Node.core_n (hcore d)]
        exact hres hr
      · intro hr
        rw [Node.core_n (hcore u)]
        exact (hbak hr).1
  · -- slotU
    intro X hX tid hslot
    by_cases hXu : X = u
    · subst hXu
      rw [st_cu_self] at hslot
      have htid : tid = s.transfers.length := (Option.some.inj hslot).symm
      subst htid
      rw [hGTnew]
      refine ⟨by omega, rfl, rfl, ?_⟩
      rw [hpend2]
      exact List.mem_append_right _ (List.mem_singleton.mpr rfl)
    · rw [st_cu_other s u d bid r X hXu] at hslot
      have hold := h.slotU X (hcount ▸ hX) tid hslot
      rw [st_getT_old s u d bid r tid hold.1]
      refine ⟨by omega, hold.2.1, hold.2.2.1, ?_⟩
      rw [hpend2]
      exact List.mem_append_left _ hold.2.2.2
  · -- slotD
    intro X hX tid hslot
    by_cases hXd : X = d
    · subst hXd
      rw [st_cd_self] at hslot
      have htid : tid = s.transfers.length := (Option.some.inj hslot).symm
      subst htid
      rw [hGTnew]
      refine ⟨by omega, rfl, rfl, ?_⟩
      rw [hpend2]
      exact List.mem_append_right _ (List.mem_singleton.mpr rfl)
    · rw [st_cd_other s u d bid r X hXd] at hslot
      have hold := h.slotD X (hcount ▸ hX) tid hslot
      rw [st_getT_old s u d bid r tid hold.1]
      refine ⟨by omega, hold.2.1, hold.2.2.1, ?_⟩
      rw [hpend2]
      exact List.mem_append_left _ hold.2.2.2
  · -- liveLink
    intro tid hmem hcanc
    rw [hpend2] at hmem
    rcases List.mem_append.mp hmem with hold | hnew
    · have hlt : tid < s.transfers.length := h.pendWf _ hold
      rw [st_getT_old s u d bid r tid hlt] at hcanc ⊢
      have hlive := h.liveLink tid hold hcanc
      have hupne : (getT s tid).uploader ≠ u := by
        intro hc
        rw [hc, hcu] at hlive
        cases hlive.2.1
      have hdwne : (getT s tid).downloader ≠ d := by
        intro hc
        rw [hc, hcd] at hlive
        cases hlive.2.2
      rw [st_cu_other s u d bid r _ hupne, st_cd_other s u d bid r _ hdwne]
      exact ⟨by omega, hlive.2.1, hlive.2.2⟩
    · have htid : tid = s.transfers.length := by simpa using hnew
      subst htid
      rw [hGTnew]
      exact ⟨by omega, st_cu_self s u d bid r, st_cd_self s u d bid r⟩
  · -- inflight
    intro tid hmem hcanc hrest
    rw [hpend2] at hmem
    rcases List.mem_append.mp hmem with hold | hnew
    · have hlt : tid < s.transfers.length := h.pendWf _ hold
      rw [st_getT_old s u d bid r tid hlt] at hcanc hrest ⊢
      have hinf := h.inflight tid hold hcanc hrest
      rw [Node.core_backed (hcore (getT s tid).uploader),
        Node.core_rbh (hcore (getT s tid).downloader),
        Node.core_bs (hcore (getT s tid).uploader),
        Node.core_fs (hcore (getT s tid).downloader)]
      exact hinf
    · have htid : tid = s.transfers.length := by simpa using hnew
      subst htid
      rw [hGTnew] at hrest ⊢
      have hb := hbak hrest
      rw [Node.core_backed (hcore u), Node.core_rbh (hcore d),
        Node.core_bs (hcore u), Node.core_fs (hcore d)]
      exact ⟨hb.2.1, hb.2.2.1, hb.2.2.2⟩

/-- `schedule_next_upload` preserves the invariant.  The nodes in `excl` must
be offline (they then cannot be chosen as transfer peers). -/
theorem snu_sinv {s : Sim} {excl : Nat → Prop} (u : Nat) (h : SInv s excl)
    (hu : u < s.count)
    (hexcl : ∀ X, excl X → (s.nodes X).online = false) :
    SInv (schedule_next_upload s u) excl := by
  rcases schedule_next_upload_spec s u with heq |
    ⟨p, b, hcu, hmem, hon, hcd, _, heq⟩ |
    ⟨p, bid, hcu, hp, hpne, hon, hnotin, hcd, hfs, hb1, hb2, hb3, hb4, heq⟩
  · rw [heq]; exact h
  · rw [heq]
    have hw := h.rbhWf u hu _ hmem
    refine st_sinv u p b true h hu hw.1 (Ne.symm hw.2.1) hcu hcd
      (fun _ => hw.2.2) (fun hc => by cases hc)
  · rw [heq]
    have hpu : List.lookup u (s.nodes p).remote_blocks_held = none := by
      cases hlk : List.lookup u (s.nodes p).remote_blocks_held with
      | none => rfl
      | some b2 =>
        exfalso
        have hmem2 : (u, b2) ∈ (s.nodes p).remote_blocks_held :=
          mem_of_lookup_eq_some _ _ _ hlk
        have hnexcl : ¬ excl p := fun hc => by
          rw [hexcl p hc] at hon; cases hon
        have := h.rbhBacked p hp hnexcl _ hmem2
        exact hnotin (mem_of_getD_some _ _ _ this)
    refine st_sinv u p bid false h hu hp (Ne.symm hpne) hcu hcd
      (fun hc => by cases hc)
      (fun _ => ⟨by rw [← h.wfLocalLen u hu]; exact hb1, hb4, hpu, hfs⟩)

/-- `schedule_next_download` preserves the invariant. -/
theorem snd_sinv {s : Sim} {excl : Nat → Prop} (d : Nat) (h : SInv s excl)
    (hd : d < s.count) :
    SInv (schedule_next_download s d) excl := by
  rcases schedule_next_download_spec s d with heq |
    ⟨p, i, hcd, hi1, hi2, hloc, hbk, hon, hcu, heq⟩ |
    ⟨p, bid, hcd, hp, hpne, hon, hcu, hlk, hfs, hb1, hb2, hb3, hb4, heq⟩
  · rw [heq]; exact h
  · rw [heq]
    have hw := h.backedWf d hd i p hbk
    refine st_sinv p d i true h hw.1 hd hw.2.1 hcu hcd
      (fun _ => by rw [← h.wfBackedLen d hd]; exact hi2) (fun hc => by cases hc)
  · rw [heq]
    refine st_sinv p d bid false h hp hd hpne hcu hcd
      (fun hc => by cases hc)
      (fun _ => ⟨by rw [← h.wfLocalLen p hp]; exact hb1, hb4, hlk, hfs⟩)

/-- A point update of one node preserves the invariant when it keeps every
field the invariant tracks (flags may change as long as a failed node stays
offline; `local_blocks` may change as long as its length is kept; counters
are free). -/
theorem benign_upd_sinv {s : Sim} {excl : Nat → Prop} (x : Nat) (f : Node → Node)
    (h : SInv s excl)
    (hb : (f (s.nodes x)).backed_up_blocks = (s.nodes x).backed_up_blocks)
    (hr : (f (s.nodes x)).remote_blocks_held = (s.nodes x).remote_blocks_held)
    (hlen : (f (s.nodes x)).local_blocks.length = (s.nodes x).local_blocks.length)
    (hn : (f (s.nodes x)).n = (s.nodes x).n)
    (hbs : (f (s.nodes x)).block_size = (s.nodes x).block_size)
    (hst : (f (s.nodes x)).storage_size = (s.nodes x).storage_size)
    (hfs : (f (s.nodes x)).free_space = (s.nodes x).free_space)
    (hcu : (f (s.nodes x)).current_upload = (s.nodes x).current_upload)
    (hcd : (f (s.nodes x)).current_download = (s.nodes x).current_download)
    (hfo : (f (s.nodes x)).failed = true → (f (s.nodes x)).online = false) :
    SInv (updNode s x f) excl := by
  have hbA : ∀ j, ((updNode s x f).nodes j).backed_up_blocks =
      (s.nodes j).backed_up_blocks := by
    intro j; rw [updNode_nodes]; split
    · rename_i hj; subst hj; exact hb
    · rfl
  have hrA : ∀ j, ((updNode s x f).nodes j).remote_blocks_held =
      (s.nodes j).remote_blocks_held := by
    intro j; rw [updNode_nodes]; split
    · rename_i hj; subst hj; exact hr
    · rfl
  have hlenA : ∀ j, ((updNode s x f).nodes j).local_blocks.length =
      (s.nodes j).local_blocks.length := by
    intro j; rw [updNode_nodes]; split
    · rename_i hj; subst hj; exact hlen
    · rfl
  have hnA : ∀ j, ((updNode s x f).nodes j).n = (s.nodes j).n := by
    intro j; rw [updNode_nodes]; split
    · rename_i hj; subst hj; exact hn
    · rfl
  have hbsA : ∀ j, ((updNode s x f).nodes j).block_size = (s.nodes j).block_size := by
    intro j; rw [updNode_nodes]; split
    · rename_i hj; subst hj; exact hbs
    · rfl
  have hstA : ∀ j, ((updNode s x f).nodes j).storage_size =
      (s.nodes j).storage_size := by
    intro j; rw [updNode_nodes]; split
    · rename_i hj; subst hj; exact hst
    · rfl
  have hfsA : ∀ j, ((updNode s x f).nodes j).free_space = (s.nodes j).free_space := by
    intro j; rw [updNode_nodes]; split
    · rename_i hj; subst hj; exact hfs
    · rfl
  have hcuA : ∀ j, ((updNode s x f).nodes j).current_upload =
      (s.nodes j).current_upload := by
    intro j; rw [updNode_nodes]; split
    · rename_i hj; subst hj; exact hcu
    · rfl
  have hcdA : ∀ j, ((updNode s x f).nodes j).current_download =
      (s.nodes j).current_download := by
    intro j; rw [updNode_nodes]; split
    · rename_i hj; subst hj; exact hcd
    · rfl
  have hheld : ∀ l, heldSize (updNode s x f) l = heldSize s l :=
    fun l => heldSize_congr _ _ l (fun j => hbsA j)
  refine ⟨⟨?_, ?_, ?_, ?_, ?_, ?_, ?_, ?_, ?_, ?_⟩, ?_, ?_, ?_, ?_, ?_, ?_, ?_⟩
  · intro X hX
    rw [hlenA X, hnA X]; exact h.wfLocalLen X hX
  · intro X hX
    rw [hbA X, hnA X]
    exact h.wfBackedLen X hX
  · intro X hX
    rw [hbsA X, hnA X, hstA X]; exact h.wfCap X hX
  · intro X hX
    rw [hrA X]; exact h.rbhNodup X hX
  · intro X hX p hp
    rw [hrA X] at hp
    rw [hnA p.1]
    exact h.rbhWf X hX p hp
  · intro X hX hne p hp
    rw [hrA X] at hp
    rw [hbA p.1]
    exact h.rbhBacked X hX hne p hp
  · intro X hX i P hget
    rw [hbA X] at hget
    rw [hrA P]
    exact h.backedWf X hX i P hget
  · intro X hX
    rw [hfsA X, hstA X, hbsA X, hnA X, hrA X, hheld]
    exact h.fsEq X hX
  · intro X hX
    rw [hfsA X]; exact h.fsNonneg X hX
  · intro X hX hfail
    rw [updNode_nodes] at hfail ⊢
    split at hfail
    · rename_i hj; rw [if_pos hj]; exact hfo hfail
    · rename_i hj; rw [if_neg hj]; exact h.failedOff X hX hfail
  · exact h.pendWf
  · exact h.pendTc
  · intro t ht
    have hw := h.transWf t ht
    rw [hnA t.downloader, hnA t.uploader]
    exact hw
  · intro X hX tid hslot
    rw [hcuA X] at hslot
    exact h.slotU X hX tid hslot
  · intro X hX tid hslot
    rw [hcdA X] at hslot
    exact h.slotD X hX tid hslot
  · intro tid hmem hcanc
    have hlive := h.liveLink tid hmem hcanc
    rw [hcuA, hcdA]
    exact hlive
  · intro tid hmem hcanc hrest
    have hinf := h.inflight tid hmem hcanc hrest
    rw [hbA, hrA, hbsA, hfsA]
    exact hinf

/-! Lemmas about `cancelT`. -/

theorem cancelT_length (l : List Transfer) (tid : Nat) :
    (cancelT l tid).length = l.length := List.length_set l tid _

theorem getD_cancelT_self (l : List Transfer) (tid : Nat) (h : tid < l.length) :
    (cancelT l tid).getD tid dfltTransfer =
      { l.getD tid dfltTransfer with canceled := true } :=
  getD_set_self l tid _ _ h

theorem getD_cancelT_ne (l : List Transfer) (tid tid2 : Nat) (h : tid2 ≠ tid) :
    (cancelT l tid).getD tid2 dfltTransfer = l.getD tid2 dfltTransfer :=
  getD_set_ne l tid tid2 _ _ h

theorem mem_cancelT (l : List Transfer) (tid : Nat) (t : Transfer)
    (ht : t ∈ cancelT l tid) :
    ∃ t0 ∈ l, t.uploader = t0.uploader ∧ t.downloader = t0.downloader ∧
      t.block_id = t0.block_id ∧ t.restore = t0.restore := by
  induction l generalizing tid with
  | nil => cases ht
  | cons hd tl ih =>
    cases tid with
    | zero =>
      rcases List.mem_cons.mp ht with h1 | h2
      · exact ⟨hd, List.mem_cons_self _ _, by rw [h1]; rfl, by rw [h1]; rfl,
          by rw [h1]; rfl, by rw [h1]; rfl⟩
      · exact ⟨t, List.mem_cons_of_mem _ h2, rfl, rfl, rfl, rfl⟩
    | succ tid2 =>
      rcases List.mem_cons.mp ht with h1 | h2
      · exact ⟨hd, List.mem_cons_self _ _, by rw [h1], by rw [h1], by rw [h1],
          by rw [h1]⟩
      · obtain ⟨t0, ht0, he⟩ := ih tid2 h2
        exact ⟨t0, List.mem_cons_of_mem _ ht0, he⟩

/-- Canceling the in-flight upload of `x` (the `current_upload is not None`
branch of `Disconnection.disconnect`) preserves the invariant. -/
theorem cancelUp_sinv {s : Sim} {excl : Nat → Prop} (x tid : Nat)
    (h : SInv s excl) (hx : x < s.count)
    (hcu : (s.nodes x).current_upload = some tid) :
    SInv (updNode (updNode { s with transfers := cancelT s.transfers tid }
        (getT s tid).downloader (fun nd => { nd with current_download := none }))
        x (fun nd => { nd with current_upload := none })) excl ∧
    ((updNode (updNode { s with transfers := cancelT s.transfers tid }
        (getT s tid).downloader (fun nd => { nd with current_download := none }))
        x (fun nd => { nd with current_upload := none })).nodes x).current_download
      = (s.nodes x).current_download ∧
    ((updNode (updNode { s with transfers := cancelT s.transfers tid }
        (getT s tid).downloader (fun nd => { nd with current_download := none }))
        x (fun nd => { nd with current_upload := none })).nodes x).current_upload
      = none := by
  obtain ⟨hlt, hup, hcanc0, hmemP⟩ := h.slotU x hx tid hcu
  have htw := h.transWf _ (getT_mem s tid hlt)
  have hxD : x ≠ (getT s tid).downloader := by
    rw [← hup]; exact htw.2.2.1
  have hD : (getT s tid).downloader < s.count := htw.2.1
  have hcdD : (s.nodes (getT s tid).downloader).current_download = some tid :=
    (h.liveLink tid hmemP hcanc0).2.2
  set D := (getT s tid).downloader with hDdef
  set sE := updNode (updNode { s with transfers := cancelT s.transfers tid }
    D (fun nd => { nd with current_download := none }))
    x (fun nd => { nd with current_upload := none }) with hsE
  have hnodesEx : sE.nodes x =
      { (if x = D then { s.nodes D with current_download := none }
         else s.nodes x) with current_upload := none } := by
    rw [hsE, updNode_nodes_self, updNode_nodes]
  have hnodesED : ∀ j, j ≠ x → j = D →
      sE.nodes j = { s.nodes D with current_download := none } := by
    intro j hjx hjD
    rw [hsE, updNode_nodes_ne _ _ _ _ hjx, updNode_nodes]
    rw [if_pos hjD]
  have hnodesEo : ∀ j, j ≠ x → j ≠ D → sE.nodes j = s.nodes j := by
    intro j hjx hjD
    rw [hsE, updNode_nodes_ne _ _ _ _ hjx, updNode_nodes, if_neg hjD]
  have hcoreE : ∀ j, (sE.nodes j).core = (s.nodes j).core := by
    intro j
    by_cases hjx : j = x
    · subst hjx; rw [hnodesEx, if_neg hxD]; rfl
    · by_cases hjD : j = D
      · rw [hnodesED j hjx hjD]; subst hjD; rfl
      · rw [hnodesEo j hjx hjD]
  have hcuE : ∀ j, j ≠ x →
      (sE.nodes j).current_upload = (s.nodes j).current_upload := by
    intro j hj
    by_cases hjD : j = D
    · rw [hnodesED j hj hjD]; subst hjD; rfl
    · rw [hnodesEo j hj hjD]
  have hcuEx : (sE.nodes x).current_upload = none := by
    rw [hnodesEx]
  have hcdE : ∀ j, j ≠ D →
      (sE.nodes j).current_download = (s.nodes j).current_download := by
    intro j hj
    by_cases hjx : j = x
    · subst hjx; rw [hnodesEx, if_neg hxD]
    · rw [hnodesEo j hjx hj]
  have hcdED : (sE.nodes D).current_download = none := by
    rw [hnodesED D (Ne.symm hxD) rfl]
  have hcountE : sE.count = s.count := rfl
  have hpendE : sE.pending = s.pending := rfl
  have htrE : sE.transfers = cancelT s.transfers tid := rfl
  have hlenE : sE.transfers.length = s.transfers.length := by
    rw [htrE, cancelT_length]
  have hgtE : ∀ tid2, tid2 ≠ tid → getT sE tid2 = getT s tid2 := by
    intro tid2 hne
    rw [getT, htrE, getD_cancelT_ne _ _ _ hne]; rfl
  have hgtEc : (getT sE tid).canceled = true := by
    rw [getT, htrE, getD_cancelT_self _ _ hlt]
  refine ⟨⟨coreInv_transport h.toCoreInv hcountE hcoreE, ?_, ?_, ?_, ?_, ?_, ?_, ?_⟩,
    hcdE x hxD, hcuEx⟩
  · intro e he
    rw [hpendE] at he
    have := h.pendWf e he
    cases e <;> simp only [evWf] at this ⊢ <;> omega
  · intro tid2
    rw [hpendE]
    exact h.pendTc tid2
  · intro t ht
    rw [htrE] at ht
    obtain ⟨t0, ht0, he1, he2, he3, he4⟩ := mem_cancelT _ _ _ ht
    have hw := h.transWf t0 ht0
    rw [he1, he2, he3, he4, hcountE]
    rw [Node.core_n (hcoreE t0.downloader), Node.core_n (hcoreE t0.uploader)]
    exact hw
  · intro X hX tid2 hslot
    by_cases hXx : X = x
    · subst hXx; rw [hcuEx] at hslot; cases hslot
    · rw [hcuE X hXx] at hslot
      have hold := h.slotU X hX tid2 hslot
      have hne2 : tid2 ≠ tid := by
        intro hc; subst hc
        exact hXx (hold.2.1.symm.trans hup)
      rw [hgtE tid2 hne2]
      exact ⟨by omega, hold.2.1, hold.2.2.1, hold.2.2.2⟩
  · intro X hX tid2 hslot
    by_cases hXD : X = D
    · subst hXD; rw [hcdED] at hslot; cases hslot
    · rw [hcdE X hXD] at hslot
      have hold := h.slotD X hX tid2 hslot
      have hne2 : tid2 ≠ tid := by
        intro hc; subst hc
        exact hXD hold.2.1.symm
      rw [hgtE tid2 hne2]
      exact ⟨by omega, hold.2.1, hold.2.2.1, hold.2.2.2⟩
  · intro tid2 hmem hcanc
    rw [hpendE] at hmem
    have hne2 : tid2 ≠ tid := by
      intro hc; subst hc
      rw [hgtEc] at hcanc; cases hcanc
    rw [hgtE tid2 hne2] at hcanc ⊢
    have hlive := h.liveLink tid2 hmem hcanc
    have hux : (getT s tid2).uploader ≠ x := by
      intro hc
      rw [hc, hcu] at hlive
      exact hne2 (Option.some.inj hlive.2.1).symm
    have hdD : (getT s tid2).downloader ≠ D := by
      intro hc
      rw [hc, hcdD] at hlive
      exact hne2 (Option.some.inj hlive.2.2).symm
    rw [hcuE _ hux, hcdE _ hdD]
    exact ⟨by omega, hlive.2.1, hlive.2.2⟩
  · intro tid2 hmem hcanc hrest
    rw [hpendE] at hmem
    have hne2 : tid2 ≠ tid := by
      intro hc; subst hc
      rw [hgtEc] at hcanc; cases hcanc
    rw [hgtE tid2 hne2] at hcanc hrest ⊢
    have hinf := h.inflight tid2 hmem hcanc hrest
    rw [Node.core_backed (hcoreE (getT s tid2).uploader),
      Node.core_rbh (hcoreE (getT s tid2).downloader),
      Node.core_bs (hcoreE (getT s tid2).uploader),
      Node.core_fs (hcoreE (getT s tid2).downloader)]
    exact hinf

/-- Canceling the in-flight download of `x` (the `current_download is not
None` branch of `Disconnection.disconnect`) preserves the invariant. -/
theorem cancelDown_sinv {s : Sim} {excl : Nat → Prop} (x tid : Nat)
    (h : SInv s excl) (hx : x < s.count)
    (hcd : (s.nodes x).current_download = some tid) :
    SInv (updNode (updNode { s with transfers := cancelT s.transfers tid }
        (getT s tid).uploader (fun nd => { nd with current_upload := none }))
        x (fun nd => { nd with current_download := none })) excl ∧
    ((updNode (updNode { s with transfers := cancelT s.transfers tid }
        (getT s tid).uploader (fun nd => { nd with current_upload := none }))
        x (fun nd => { nd with current_download := none })).nodes x).current_download
      = none ∧
    (((updNode (updNode { s with transfers := cancelT s.transfers tid }
        (getT s tid).uploader (fun nd => { nd with current_upload := none }))
        x (fun nd => { nd with current_download := none })).nodes x).current_upload
        = (s.nodes x).current_upload ∨
      ((updNode (updNode { s with transfers := cancelT s.transfers tid }
        (getT s tid).uploader (fun nd => { nd with current_upload := none }))
        x (fun nd => { nd with current_download := none })).nodes x).current_upload
        = none) := by
  obtain ⟨hlt, hdw, hcanc0, hmemP⟩ := h.slotD x hx tid hcd
  have htw := h.transWf _ (getT_mem s tid hlt)
  have hxU : x ≠ (getT s tid).uploader := by
    rw [← hdw]; exact (Ne.symm htw.2.2.1)
  have hU : (getT s tid).uploader < s.count := htw.1
  have hcuU : (s.nodes (getT s tid).uploader).current_upload = some tid :=
    (h.liveLink tid hmemP hcanc0).2.1
  set U := (getT s tid).uploader with hUdef
  set sE := updNode (updNode { s with transfers := cancelT s.transfers tid }
    U (fun nd => { nd with current_upload := none }))
    x (fun nd => { nd with current_download := none }) with hsE
  have hnodesEx : sE.nodes x =
      { (if x = U then { s.nodes U with current_upload := none }
         else s.nodes x) with current_download := none } := by
    rw [hsE, updNode_nodes_self, updNode_nodes]
  have hnodesEU : ∀ j, j ≠ x → j = U →
      sE.nodes j = { s.nodes U with current_upload := none } := by
    intro j hjx hjU
    rw [hsE, updNode_nodes_ne _ _ _ _ hjx, updNode_nodes]
    rw [if_pos hjU]
  have hnodesEo : ∀ j, j ≠ x → j ≠ U → sE.nodes j = s.nodes j := by
    intro j hjx hjU
    rw [hsE, updNode_nodes_ne _ _ _ _ hjx, updNode_nodes, if_neg hjU]
  have hcoreE : ∀ j, (sE.nodes j).core = (s.nodes j).core := by
    intro j
    by_cases hjx : j = x
    · subst hjx; rw [hnodesEx, if_neg hxU]; rfl
    · by_cases hjU : j = U
      · rw [hnodesEU j hjx hjU]; subst hjU; rfl
      · rw [hnodesEo j hjx hjU]
  have hcdE : ∀ j, j ≠ x →
      (sE.nodes j).current_download = (s.nodes j).current_download := by
    intro j hj
    by_cases hjU : j = U
    · rw [hnodesEU j hj hjU]; subst hjU; rfl
    · rw [hnodesEo j hj hjU]
  have hcdEx : (sE.nodes x).current_download = none := by
    rw [hnodesEx]
  have hcuE : ∀ j, j ≠ U →
      (sE.nodes j).current_upload = (s.nodes j).current_upload := by
    intro j hj
    by_cases hjx : j = x
    · subst hjx; rw [hnodesEx, if_neg hxU]
    · rw [hnodesEo j hjx hj]
  have hcuEU : (sE.nodes U).current_upload = none := by
    rw [hnodesEU U (Ne.symm hxU) rfl]
  have hcountE : sE.count = s.count := rfl
  have hpendE : sE.pending = s.pending := rfl
  have htrE : sE.transfers = cancelT s.transfers tid := rfl
  have hlenE : sE.transfers.length = s.transfers.length := by
    rw [htrE, cancelT_length]
  have hgtE : ∀ tid2, tid2 ≠ tid → getT sE tid2 = getT s tid2 := by
    intro tid2 hne
    rw [getT, htrE, getD_cancelT_ne _ _ _ hne]; rfl
  have hgtEc : (getT sE tid).canceled = true := by
    rw [getT, htrE, getD_cancelT_self _ _ hlt]
  have hcuSplit : (sE.nodes x).current_upload = (s.nodes x).current_upload ∨
      (sE.nodes x).current_upload = none := by
    by_cases hxU2 : x = U
    · right; rw [hxU2, hcuEU]
    · left; exact hcuE x hxU2
  refine ⟨⟨coreInv_transport h.toCoreInv hcountE hcoreE, ?_, ?_, ?_, ?_, ?_, ?_, ?_⟩,
    hcdEx, hcuSplit⟩
  · intro e he
    rw [hpendE] at he
    have := h.pendWf e he
    cases e <;> simp only [evWf] at this ⊢ <;> omega
  · intro tid2
    rw [hpendE]
    exact h.pendTc tid2
  · intro t ht
    rw [htrE] at ht
    obtain ⟨t0, ht0, he1, he2, he3, he4⟩ := mem_cancelT _ _ _ ht
    have hw := h.transWf t0 ht0
    rw [he1, he2, he3, he4, hcountE]
    rw [Node.core_n (hcoreE t0.downloader), Node.core_n (hcoreE t0.uploader)]
    exact hw
  · intro X hX tid2 hslot
    by_cases hXU : X = U
    · subst hXU; rw [hcuEU] at hslot; cases hslot
    · rw [hcuE X hXU] at hslot
      have hold := h.slotU X hX tid2 hslot
      have hne2 : tid2 ≠ tid := by
        intro hc; subst hc
        exact hXU hold.2.1.symm
      rw [hgtE tid2 hne2]
      exact ⟨by omega, hold.2.1, hold.2.2.1, hold.2.2.2⟩
  · intro X hX tid2 hslot
    by_cases hXx : X = x
    · subst hXx; rw [hcdEx] at hslot; cases hslot
    · rw [hcdE X hXx] at hslot
      have hold := h.slotD X hX tid2 hslot
      have hne2 : tid2 ≠ tid := by
        intro hc; subst hc
        exact hXx (hold.2.1.symm.trans hdw)
      rw [hgtE tid2 hne2]
      exact ⟨by omega, hold.2.1, hold.2.2.1, hold.2.2.2⟩
  · intro tid2 hmem hcanc
    rw [hpendE] at hmem
    have hne2 : tid2 ≠ tid := by
      intro hc; subst hc
      rw [hgtEc] at hcanc; cases hcanc
    rw [hgtE tid2 hne2] at hcanc ⊢
    have hlive := h.liveLink tid2 hmem hcanc
    have hdx : (getT s tid2).downloader ≠ x := by
      intro hc
      rw [hc, hcd] at hlive
      exact hne2 (Option.some.inj hlive.2.2).symm
    have huU : (getT s tid2).uploader ≠ U := by
      intro hc
      rw [hc, hcuU] at hlive
      exact hne2 (Option.some.inj hlive.2.1).symm
    rw [hcuE _ huU, hcdE _ hdx]
    exact ⟨by omega, hlive.2.1, hlive.2.2⟩
  · intro tid2 hmem hcanc hrest
    rw [hpendE] at hmem
    have hne2 : tid2 ≠ tid := by
      intro hc; subst hc
      rw [hgtEc] at hcanc; cases hcanc
    rw [hgtE tid2 hne2] at hcanc hrest ⊢
    have hinf := h.inflight tid2 hmem hcanc hrest
    rw [Node.core_backed (hcoreE (getT s tid2).uploader),
      Node.core_rbh (hcoreE (getT s tid2).downloader),
      Node.core_bs (hcoreE (getT s tid2).uploader),
      Node.core_fs (hcoreE (getT s tid2).downloader)]
    exact hinf

theorem updNode_core_pres (S : Sim) (i : Nat) (f : Node → Node)
    (hf : ∀ nd, (f nd).core = nd.core) (j : Nat) :
    ((updNode S i f).nodes j).core = (S.nodes j).core := by
  rw [updNode_nodes]; split
  · rename_i hj; rw [hf]; subst hj; rfl
  · rfl

theorem core_pres_chain (S : Sim) (T : List Transfer) (i : Nat) (f : Node → Node)
    (hf : ∀ nd, (f nd).core = nd.core) (j : Nat) :
    ((updNode { S with transfers := T, pending := S.pending } i f).nodes j).core
      = (S.nodes j).core := by
  rw [updNode_nodes]; split
  · rename_i hj; rw [hf]; subst hj; rfl
  · rfl

/-- `disconnect` only turns the node offline and clears transfer slots: every
node's `core` is that of the state where `x` was just set offline. -/
theorem disconnect_core (s : Sim) (x : Nat) (j : Nat) :
    ((disconnect s x).nodes j).core =
      ((updNode s x (fun nd => { nd with online := false })).nodes j).core := by
  simp only [disconnect]
  cases hcu : (s.nodes x).current_upload with
  | none =>
    cases hcd : (s.nodes x).current_download with
    | none => rfl
    | some tid2 =>
      refine (updNode_core_pres _ x
        (fun nd => { nd with current_download := none }) (fun nd => rfl) j).trans ?_
      refine (updNode_core_pres _ _
        (fun nd => { nd with current_upload := none }) (fun nd => rfl) j).trans ?_
      rfl
  | some tid =>
    cases hcd : (s.nodes x).current_download with
    | none =>
      refine (updNode_core_pres _ x
        (fun nd => { nd with current_upload := none }) (fun nd => rfl) j).trans ?_
      refine (updNode_core_pres _ _
        (fun nd => { nd with current_download := none }) (fun nd => rfl) j).trans ?_
      rfl
    | some tid2 =>
      refine (updNode_core_pres _ x
        (fun nd => { nd with current_download := none }) (fun nd => rfl) j).trans ?_
      refine (updNode_core_pres _ _
        (fun nd => { nd with current_upload := none }) (fun nd => rfl) j).trans ?_
      refine (updNode_core_pres _ x
        (fun nd => { nd with current_upload := none }) (fun nd => rfl) j).trans ?_
      refine (updNode_core_pres _ _
        (fun nd => { nd with current_download := none }) (fun nd => rfl) j).trans ?_
      rfl

theorem disconnect_count (s : Sim) (x : Nat) : (disconnect s x).count = s.count := by
  simp only [disconnect]
  cases hcu : (s.nodes x).current_upload <;>
    cases hcd : (s.nodes x).current_download <;> rfl

theorem disconnect_pending (s : Sim) (x : Nat) :
    (disconnect s x).pending = s.pending := by
  simp only [disconnect]
  cases hcu : (s.nodes x).current_upload <;>
    cases hcd : (s.nodes x).current_download <;> rfl

theorem disconnect_online (s : Sim) (x : Nat) :
    ((disconnect s x).nodes x).online = false := by
  have := Node.core_online (disconnect_core s x x)
  rw [this, updNode_nodes_self]

/-- `disconnect` preserves the invariant. -/
theorem disconnect_sinv {s : Sim} {excl : Nat → Prop} (x : Nat)
    (h : SInv s excl) (hx : x < s.count) : SInv (disconnect s x) excl := by
  have h1 : SInv (updNode s x (fun nd => { nd with online := false })) excl :=
    benign_upd_sinv x _ h rfl rfl rfl rfl rfl rfl rfl rfl rfl (fun _ => rfl)
  simp only [disconnect]
  cases hcu : (s.nodes x).current_upload with
  | none =>
    cases hcd : (s.nodes x).current_download with
    | none => exact h1
    | some tid2 =>
      have hcd1 : ((updNode s x (fun nd => { nd with online := false })).nodes x
          ).current_download = some tid2 := by
        rw [updNode_nodes_self]; exact hcd
      exact (cancelDown_sinv x tid2 h1 hx hcd1).1
  | some tid =>
    have hcu1 : ((updNode s x (fun nd => { nd with online := false })).nodes x
        ).current_upload = some tid := by
      rw [updNode_nodes_self]; exact hcu
    obtain ⟨h2, hframe, hcux⟩ := cancelUp_sinv x tid h1 hx hcu1
    cases hcd : (s.nodes x).current_download with
    | none => exact h2
    | some tid2 =>
      have hmid : ((updNode s x (fun nd => { nd with online := false })).nodes x
          ).current_download = some tid2 := by
        rw [updNode_nodes_self]; exact hcd
      have hcd2 := hframe.trans hmid
      exact (cancelDown_sinv x tid2 h2 hx hcd2).1

/-- Scheduling one more node event (never a transfer completion) preserves
the invariant. -/
theorem append_nodeEv_sinv {s : Sim} {excl : Nat → Prop} (e : Ev)
    (h : SInv s excl) (hwf : evWf s e)
    (hntc : ∀ tid, e ≠ Ev.transferComplete tid) :
    SInv { s with pending := s.pending ++ [e] } excl := by
  refine ⟨coreInv_transport h.toCoreInv rfl (fun j => rfl), ?_, ?_, ?_, ?_, ?_,
    ?_, ?_⟩
  · intro e2 he2
    rcases List.mem_append.mp he2 with hold | hnew
    · exact h.pendWf e2 hold
    · rw [show e2 = e from by simpa using hnew]
      exact hwf
  · intro tid
    rw [show ({ s with pending := s.pending ++ [e] } : Sim).pending =
      s.pending ++ [e] from rfl, List.count_append]
    have h0 : ([e].count (Ev.transferComplete tid)) = 0 := by
      apply List.count_eq_zero.mpr
      intro hc
      have he : Ev.transferComplete tid = e := by simpa using hc
      exact hntc tid he.symm
    rw [h0]
    have := h.pendTc tid
    omega
  · exact h.transWf
  · intro X hX tid hslot
    have hold := h.slotU X hX tid hslot
    exact ⟨hold.1, hold.2.1, hold.2.2.1, List.mem_append_left _ hold.2.2.2⟩
  · intro X hX tid hslot
    have hold := h.slotD X hX tid hslot
    exact ⟨hold.1, hold.2.1, hold.2.2.1, List.mem_append_left _ hold.2.2.2⟩
  · intro tid hmem hcanc
    rcases List.mem_append.mp hmem with hold | hnew
    · exact h.liveLink tid hold hcanc
    · have he : Ev.transferComplete tid = e := by simpa using hnew
      exact absurd he.symm (hntc tid)
  · intro tid hmem hcanc hrest
    rcases List.mem_append.mp hmem with hold | hnew
    · exact h.inflight tid hold hcanc hrest
    · have he : Ev.transferComplete tid = e := by simpa using hnew
      exact absurd he.symm (hntc tid)

/-- Popping a node event (never a transfer completion) preserves the
invariant. -/
theorem popEv_nontc_sinv {s : Sim} {excl : Nat → Prop} (e : Ev)
    (h : SInv s excl) (hntc : ∀ tid, e ≠ Ev.transferComplete tid) :
    SInv (popEv s e) excl := by
  have hsub : ∀ e2, e2 ∈ (popEv s e).pending → e2 ∈ s.pending :=
    fun e2 he2 => List.mem_of_mem_erase he2
  refine ⟨coreInv_transport h.toCoreInv rfl (fun j => rfl), ?_, ?_, ?_, ?_, ?_,
    ?_, ?_⟩
  · intro e2 he2
    exact h.pendWf e2 (hsub e2 he2)
  · intro tid
    have hle : ((popEv s e).pending.count (Ev.transferComplete tid)) ≤
        s.pending.count (Ev.transferComplete tid) :=
      List.Sublist.count_le (List.erase_sublist e s.pending) _
    have := h.pendTc tid
    omega
  · exact h.transWf
  · intro X hX tid hslot
    have hold := h.slotU X hX tid hslot
    refine ⟨hold.1, hold.2.1, hold.2.2.1, ?_⟩
    exact (List.mem_erase_of_ne (fun hc => hntc tid hc.symm)).mpr hold.2.2.2
  · intro X hX tid hslot
    have hold := h.slotD X hX tid hslot
    refine ⟨hold.1, hold.2.1, hold.2.2.1, ?_⟩
    exact (List.mem_erase_of_ne (fun hc => hntc tid hc.symm)).mpr hold.2.2.2
  · intro tid hmem hcanc
    exact h.liveLink tid (hsub _ hmem) hcanc
  · intro tid hmem hcanc hrest
    exact h.inflight tid (hsub _ hmem) hcanc hrest

theorem onlineBody_count (s : Sim) (x : Nat) : (onlineBody s x).count = s.count := by
  rw [onlineBody]
  split
  · rfl
  · show (schedule_next_download (schedule_next_upload _ x) x).count = s.count
    rw [snd_count, snu_count]
    rfl

/-- The body of `Online.process` preserves the invariant. -/
theorem onlineBody_inv {s : Sim} (x : Nat) (h : Inv s) (hx : x < s.count) :
    Inv (onlineBody s x) := by
  rw [onlineBody]
  by_cases hg : (s.nodes x).online = true ∨ (s.nodes x).failed = true
  · rw [if_pos hg]; exact h
  · rw [if_neg hg]
    have hfail : (s.nodes x).failed = false := by
      cases hf : (s.nodes x).failed
      · rfl
      · exact absurd (Or.inr hf) hg
    have h1 : Inv (updNode s x (fun nd => { nd with online := true })) :=
      benign_upd_sinv x _ h rfl rfl rfl rfl rfl rfl rfl rfl rfl
        (fun hf2 => absurd (show (s.nodes x).failed = true from hf2)
          (by rw [hfail]; exact Bool.false_ne_true))
    have h2 := snu_sinv x h1 hx (fun X hX => False.elim hX)
    have hx2 : x < (schedule_next_upload
        (updNode s x (fun nd => { nd with online := true })) x).count := by
      rw [snu_count]; exact hx
    have h3 := snd_sinv x h2 hx2
    refine append_nodeEv_sinv _ h3 ?_ (fun tid => by simp)
    show x < _
    rw [snd_count, snu_count]
    exact hx

/-- `Offline.process` preserves the invariant. -/
theorem offline_inv {s : Sim} (x : Nat) (h : Inv s) (hx : x < s.count) :
    Inv (processEv s (Ev.offline x)) := by
  show Inv (if _ then _ else _)
  by_cases hg : (s.nodes x).failed = true ∨ (s.nodes x).online = false
  · rw [if_pos hg]; exact h
  · rw [if_neg hg]
    have h1 : Inv (disconnect s x) := disconnect_sinv x h hx
    refine append_nodeEv_sinv _ h1 ?_ (fun tid => by simp)
    show x < _
    rw [disconnect_count]
    exact hx

/-- `Recover.process` preserves the invariant. -/
theorem recover_inv {s : Sim} (x : Nat) (h : Inv s) (hx : x < s.count) :
    Inv (processEv s (Ev.recover x)) := by
  have h1 : Inv (updNode s x (fun nd => { nd with failed := false })) :=
    benign_upd_sinv x _ h rfl rfl rfl rfl rfl rfl rfl rfl rfl
      (fun hf2 => absurd hf2 Bool.false_ne_true)
  have h2 : Inv (onlineBody
      (updNode s x (fun nd => { nd with failed := false })) x) :=
    onlineBody_inv x h1 hx
  refine append_nodeEv_sinv _ h2 ?_ (fun tid => by simp)
  show x < _
  rw [onlineBody_count]
  exact hx

/-- After `disconnect`, the node's transfer slots are both clear. -/
theorem disconnect_slots {s : Sim} {excl : Nat → Prop} (x : Nat)
    (h : SInv s excl) (hx : x < s.count) :
    ((disconnect s x).nodes x).current_upload = none ∧
    ((disconnect s x).nodes x).current_download = none := by
  have h1 : SInv (updNode s x (fun nd => { nd with online := false })) excl :=
    benign_upd_sinv x _ h rfl rfl rfl rfl rfl rfl rfl rfl rfl (fun _ => rfl)
  simp only [disconnect]
  cases hcu : (s.nodes x).current_upload with
  | none =>
    cases hcd : (s.nodes x).current_download with
    | none =>
      constructor
      · rw [updNode_nodes_self]; exact hcu
      · rw [updNode_nodes_self]; exact hcd
    | some tid2 =>
      have hcd1 : ((updNode s x (fun nd => { nd with online := false })).nodes x
          ).current_download = some tid2 := by
        rw [updNode_nodes_self]; exact hcd
      obtain ⟨_, hcdx, hcusplit⟩ := cancelDown_sinv x tid2 h1 hx hcd1
      refine ⟨?_, hcdx⟩
      rcases hcusplit with hp | hn
      · rw [hp, updNode_nodes_self]; exact hcu
      · exact hn
  | some tid =>
    have hcu1 : ((updNode s x (fun nd => { nd with online := false })).nodes x
        ).current_upload = some tid := by
      rw [updNode_nodes_self]; exact hcu
    obtain ⟨h2, hframe, hcux⟩ := cancelUp_sinv x tid h1 hx hcu1
    cases hcd : (s.nodes x).current_download with
    | none =>
      refine ⟨hcux, ?_⟩
      rw [hframe, updNode_nodes_self]; exact hcd
    | some tid2 =>
      have hmid : ((updNode s x (fun nd => { nd with online := false })).nodes x
          ).current_download = some tid2 := by
        rw [updNode_nodes_self]; exact hcd
      have hcd2 := hframe.trans hmid
      obtain ⟨h3, hcdx, hcusplit⟩ := cancelDown_sinv x tid2 h2 hx hcd2
      refine ⟨?_, hcdx⟩
      rcases hcusplit with hp | hn
      · rw [hp]; exact hcux
      · exact hn

/-- Dropping one backed-up-block reference whose holder is the (excluded)
failing node preserves the weakened invariant. -/
theorem clearBacked_sinv {s : Sim} {B : Nat} (o b : Nat)
    (h : SInv s (fun y => y = B)) (ho : o < s.count)
    (hval : (s.nodes o).backed_up_blocks.getD b none = some B) :
    SInv (updNode s o (fun nd =>
      { nd with backed_up_blocks := nd.backed_up_blocks.set b none }))
      (fun y => y = B) := by
  set f : Node → Node := (fun nd =>
    { nd with backed_up_blocks := nd.backed_up_blocks.set b none }) with hf
  have hbA : ∀ j, ((updNode s o f).nodes j).backed_up_blocks =
      if j = o then (s.nodes o).backed_up_blocks.set b none
      else (s.nodes j).backed_up_blocks := by
    intro j; rw [updNode_nodes]; split
    · rename_i hj; subst hj; rfl
    · rfl
  have hbGet : ∀ j i, ((updNode s o f).nodes j).backed_up_blocks.getD i none =
      if j = o ∧ i = b ∧ b < (s.nodes o).backed_up_blocks.length then none
      else (s.nodes j).backed_up_blocks.getD i none := by
    intro j i
    by_cases hcond : j = o ∧ i = b ∧ b < (s.nodes o).backed_up_blocks.length
    · rw [if_pos hcond, hbA j, if_pos hcond.1]
      obtain ⟨hj, hib, hblen⟩ := hcond
      subst hj; subst hib
      exact getD_set_self _ _ _ _ hblen
    · rw [if_neg hcond, hbA j]
      by_cases hj : j = o
      · rw [if_pos hj]
        subst hj
        by_cases hib : i = b
        · subst hib
          have hblen : ¬ i < (s.nodes j).backed_up_blocks.length :=
            fun hc => hcond ⟨rfl, rfl, hc⟩
          rw [set_oob _ _ _ (by omega)]
        · exact getD_set_ne _ _ _ _ _ hib
      · rw [if_neg hj]
  have hcoreKeep : ∀ j, j ≠ o → (updNode s o f).nodes j = s.nodes j :=
    fun j hj => updNode_nodes_ne s o f j hj
  have hnA : ∀ j, ((updNode s o f).nodes j).n = (s.nodes j).n := by
    intro j; rw [updNode_nodes]; split
    · rename_i hj; subst hj; rfl
    · rfl
  have hrA : ∀ j, ((updNode s o f).nodes j).remote_blocks_held =
      (s.nodes j).remote_blocks_held := by
    intro j; rw [updNode_nodes]; split
    · rename_i hj; subst hj; rfl
    · rfl
  have hbsA : ∀ j, ((updNode s o f).nodes j).block_size = (s.nodes j).block_size := by
    intro j; rw [updNode_nodes]; split
    · rename_i hj; subst hj; rfl
    · rfl
  have hfsA : ∀ j, ((updNode s o f).nodes j).free_space = (s.nodes j).free_space := by
    intro j; rw [updNode_nodes]; split
    · rename_i hj; subst hj; rfl
    · rfl
  have hcuA : ∀ j, ((updNode s o f).nodes j).current_upload =
      (s.nodes j).current_upload := by
    intro j; rw [updNode_nodes]; split
    · rename_i hj; subst hj; rfl
    · rfl
  have hcdA : ∀ j, ((updNode s o f).nodes j).current_download =
      (s.nodes j).current_download := by
    intro j; rw [updNode_nodes]; split
    · rename_i hj; subst hj; rfl
    · rfl
  have hlocA : ∀ j, ((updNode s o f).nodes j).local_blocks =
      (s.nodes j).local_blocks := by
    intro j; rw [updNode_nodes]; split
    · rename_i hj; subst hj; rfl
    · rfl
  have hstA : ∀ j, ((updNode s o f).nodes j).storage_size =
      (s.nodes j).storage_size := by
    intro j; rw [updNode_nodes]; split
    · rename_i hj; subst hj; rfl
    · rfl
  have hflA : ∀ j, ((updNode s o f).nodes j).failed = (s.nodes j).failed := by
    intro j; rw [updNode_nodes]; split
    · rename_i hj; subst hj; rfl
    · rfl
  have honA : ∀ j, ((updNode s o f).nodes j).online = (s.nodes j).online := by
    intro j; rw [updNode_nodes]; split
    · rename_i hj; subst hj; rfl
    · rfl
  have hheld : ∀ l, heldSize (updNode s o f) l = heldSize s l :=
    fun l => heldSize_congr _ _ l (fun j => hbsA j)
  refine ⟨⟨?_, ?_, ?_, ?_, ?_, ?_, ?_, ?_, ?_, ?_⟩, ?_, ?_, ?_, ?_, ?_, ?_, ?_⟩
  · intro X hX
    rw [hlocA X, hnA X]; exact h.wfLocalLen X hX
  · intro X hX
    rw [hbA X, hnA X]
    split
    · rw [List.length_set]
      rename_i hj; subst hj
      exact h.wfBackedLen X hX
    · exact h.wfBackedLen X hX
  · intro X hX
    rw [hbsA X, hnA X, hstA X]; exact h.wfCap X hX
  · intro X hX
    rw [hrA X]; exact h.rbhNodup X hX
  · intro X hX p hp
    rw [hrA X] at hp
    rw [hnA p.1]
    exact h.rbhWf X hX p hp
  · intro X hX hne p hp
    rw [hrA X] at hp
    rw [hbGet p.1 p.2]
    split
    · rename_i hc
      exfalso
      have hold := h.rbhBacked X hX hne p hp
      rw [hc.1, hc.2.1] at hold
      rw [hval] at hold
      exact hne (Option.some.inj hold).symm
    · exact h.rbhBacked X hX hne p hp
  · intro X hX i P hget
    rw [hbGet X i] at hget
    split at hget
    · cases hget
    · have hold := h.backedWf X hX i P hget
      rw [hrA P]
      exact hold
  · intro X hX
    rw [hfsA X, hstA X, hbsA X, hnA X, hrA X, hheld]
    exact h.fsEq X hX
  · intro X hX
    rw [hfsA X]; exact h.fsNonneg X hX
  · intro X hX hfail
    rw [hflA X] at hfail
    rw [honA X]
    exact h.failedOff X hX hfail
  · exact h.pendWf
  · exact h.pendTc
  · intro t ht
    have hw := h.transWf t ht
    rw [hnA t.downloader, hnA t.uploader]
    exact hw
  · intro X hX tid hslot
    rw [hcuA X] at hslot
    exact h.slotU X hX tid hslot
  · intro X hX tid hslot
    rw [hcdA X] at hslot
    exact h.slotD X hX tid hslot
  · intro tid hmem hcanc
    have hlive := h.liveLink tid hmem hcanc
    rw [hcuA, hcdA]
    exact hlive
  · intro tid hmem hcanc hrest
    have hinf := h.inflight tid hmem hcanc hrest
    rw [hbGet, hrA, hbsA, hfsA]
    refine ⟨?_, hinf.2.1, hinf.2.2⟩
    split
    · rfl
    · exact hinf.1

/-- The loop of `Fail.process` preserves the weakened invariant, leaves the
failing node untouched, and never introduces a backed-up-block reference. -/
theorem failLoop_sinv {B : Nat} (todo : List (Nat × Nat)) :
    ∀ (s : Sim), SInv s (fun y => y = B) → B < s.count →
      (s.nodes B).online = false →
      (∀ p ∈ todo, p.1 < s.count ∧ p.1 ≠ B ∧
        (s.nodes p.1).backed_up_blocks.getD p.2 none = some B) →
      (todo.map Prod.fst).Nodup →
      SInv (failLoop s todo) (fun y => y = B) ∧
      (failLoop s todo).count = s.count ∧
      (failLoop s todo).nodes B = s.nodes B ∧
      (∀ X i P,
        ((failLoop s todo).nodes X).backed_up_blocks.getD i none = some P →
        (s.nodes X).backed_up_blocks.getD i none = some P) ∧
      (∀ p ∈ todo,
        ((failLoop s todo).nodes p.1).backed_up_blocks.getD p.2 none = none) := by
  induction todo with
  | nil =>
    intro s h hB hon hcond hnd
    exact ⟨h, rfl, rfl, fun X i P hp => hp,
      fun p hp => absurd hp (List.not_mem_nil p)⟩
  | cons hd rest ih =>
    intro s h hB hon hcond hnd
    obtain ⟨o, b⟩ := hd
    obtain ⟨ho, hoB, hval⟩ := hcond (o, b) (List.mem_cons_self _ _)
    have hBo : B ≠ o := fun hc => hoB hc.symm
    have hndr : o ∉ rest.map Prod.fst ∧ (rest.map Prod.fst).Nodup :=
      List.nodup_cons.mp hnd
    have h1 : SInv (updNode s o (fun nd =>
        { nd with backed_up_blocks := nd.backed_up_blocks.set b none }))
        (fun y => y = B) := clearBacked_sinv o b h ho hval
    have hn1B : (updNode s o (fun nd =>
        { nd with backed_up_blocks := nd.backed_up_blocks.set b none })).nodes B
        = s.nodes B := updNode_nodes_ne s o _ B hBo
    have hs1mono : ∀ X i P, ((updNode s o (fun nd =>
        { nd with backed_up_blocks := nd.backed_up_blocks.set b none })).nodes X
        ).backed_up_blocks.getD i none = some P →
        (s.nodes X).backed_up_blocks.getD i none = some P := by
      intro X i P hp
      rw [updNode_nodes] at hp
      by_cases hX : X = o
      · rw [if_pos hX] at hp
        subst hX
        by_cases hib : i = b
        · subst hib
          by_cases hlen : i < (s.nodes X).backed_up_blocks.length
          · rw [show ({ s.nodes X with backed_up_blocks :=
                (s.nodes X).backed_up_blocks.set i none } : Node).backed_up_blocks
                = (s.nodes X).backed_up_blocks.set i none from rfl,
              getD_set_self _ _ _ _ hlen] at hp
            cases hp
          · rw [show ({ s.nodes X with backed_up_blocks :=
                (s.nodes X).backed_up_blocks.set i none } : Node).backed_up_blocks
                = (s.nodes X).backed_up_blocks.set i none from rfl,
              set_oob _ _ _ (by omega)] at hp
            exact hp
        · rw [show ({ s.nodes X with backed_up_blocks :=
              (s.nodes X).backed_up_blocks.set b none } : Node).backed_up_blocks
              = (s.nodes X).backed_up_blocks.set b none from rfl,
            getD_set_ne _ _ _ _ _ hib] at hp
          exact hp
      · rw [if_neg hX] at hp
        exact hp
    set s1 := updNode s o (fun nd =>
      { nd with backed_up_blocks := nd.backed_up_blocks.set b none }) with hs1
    have heq : failLoop s ((o, b) :: rest) = failLoop
        (if (s1.nodes o).online = true ∧ (s1.nodes o).current_upload = none
         then schedule_next_upload s1 o else s1) rest := rfl
    set s2 := (if (s1.nodes o).online = true ∧ (s1.nodes o).current_upload = none
      then schedule_next_upload s1 o else s1) with hs2
    have hon1B : (s1.nodes B).online = false := by rw [hn1B]; exact hon
    have h2 : SInv s2 (fun y => y = B) := by
      rw [hs2]; split
      · exact snu_sinv o h1 ho (fun X hX => by rw [hX, hn1B]; exact hon)
      · exact h1
    have hcnt2 : s2.count = s.count := by
      rw [hs2]; split
      · rw [snu_count]; rfl
      · rfl
    have hn2B : s2.nodes B = s1.nodes B := by
      rw [hs2]; split
      · exact snu_offline_frame s1 o B hBo hon1B
      · rfl
    have hbacked2 : ∀ j, (s2.nodes j).backed_up_blocks =
        (s1.nodes j).backed_up_blocks := by
      intro j
      rw [hs2]; split
      · exact Node.core_backed (snu_core s1 o j)
      · rfl
    have hon2B : (s2.nodes B).online = false := by rw [hn2B]; exact hon1B
    have hcond2 : ∀ p ∈ rest, p.1 < s2.count ∧ p.1 ≠ B ∧
        (s2.nodes p.1).backed_up_blocks.getD p.2 none = some B := by
      intro p hp
      obtain ⟨hp1, hp2, hp3⟩ := hcond p (List.mem_cons_of_mem _ hp)
      refine ⟨by rw [hcnt2]; exact hp1, hp2, ?_⟩
      rw [hbacked2 p.1]
      have hpo : p.1 ≠ o := by
        intro hc
        exact hndr.1 (hc ▸ List.mem_map_of_mem Prod.fst hp)
      rw [hs1, updNode_nodes_ne s o _ p.1 hpo]
      exact hp3
    obtain ⟨hI, hcnt, hnodeB, hmono, hnone⟩ :=
      ih s2 h2 (by rw [hcnt2]; exact hB) hon2B hcond2 hndr.2
    rw [heq]
    refine ⟨hI, by rw [hcnt, hcnt2], by rw [hnodeB, hn2B, hn1B], ?_, ?_⟩
    · intro X i P hp
      have h2p := hmono X i P hp
      rw [hbacked2 X] at h2p
      exact hs1mono X i P h2p
    · intro p hp
      rcases List.mem_cons.mp hp with h1p | h2p
      · subst h1p
        cases hcase : ((failLoop s2 rest).nodes o).backed_up_blocks.getD b none with
        | none => rfl
        | some P =>
          exfalso
          have h2p := hmono o b P hcase
          rw [hbacked2 o] at h2p
          rw [hs1, updNode_nodes_self] at h2p
          by_cases hlen : b < (s.nodes o).backed_up_blocks.length
          · rw [show ({ s.nodes o with backed_up_blocks :=
                (s.nodes o).backed_up_blocks.set b none } : Node).backed_up_blocks
                = (s.nodes o).backed_up_blocks.set b none from rfl,
              getD_set_self _ _ _ _ hlen] at h2p
            cases h2p
          · rw [show ({ s.nodes o with backed_up_blocks :=
                (s.nodes o).backed_up_blocks.set b none } : Node).backed_up_blocks
                = (s.nodes o).backed_up_blocks.set b none from rfl,
              set_oob _ _ _ (by omega), getD_oob _ _ _ (by omega)] at h2p
            cases h2p
      · exact hnone p h2p

/-- The final state reset of `Fail.process` (clear `remote_blocks_held`,
reset `free_space`, wipe the local blocks again and count the loss again)
restores the full invariant, provided nobody references the failing node any
more. -/
theorem failReset_sinv {s : Sim} {B : Nat}
    (h : SInv s (fun y => y = B)) (hB : B < s.count)
    (honline : (s.nodes B).online = false)
    (hcu : (s.nodes B).current_upload = none)
    (hcd : (s.nodes B).current_download = none)
    (hnodang : ∀ X, X < s.count → ∀ i,
      (s.nodes X).backed_up_blocks.getD i none ≠ some B) :
    Inv (updNode s B (fun nd =>
      { nd with remote_blocks_held := []
                free_space := (nd.storage_size : Int) -
                  (nd.block_size : Int) * (nd.n : Int)
                local_blocks := List.replicate nd.n false
                total_data_loss_events := nd.total_data_loss_events + 1 })) := by
  set f : Node → Node := (fun nd =>
    { nd with remote_blocks_held := ([] : List (Nat × Nat))
              free_space := (nd.storage_size : Int) -
                (nd.block_size : Int) * (nd.n : Int)
              local_blocks := List.replicate nd.n false
              total_data_loss_events := nd.total_data_loss_events + 1 }) with hf
  have hnodes : ∀ j, j ≠ B → (updNode s B f).nodes j = s.nodes j :=
    fun j hj => updNode_nodes_ne s B f j hj
  have hself := updNode_nodes_self s B f
  have hbA : ∀ j, ((updNode s B f).nodes j).backed_up_blocks =
      (s.nodes j).backed_up_blocks := by
    intro j; by_cases hj : j = B
    · subst hj; rw [hself]
    · rw [hnodes j hj]
  have hnA : ∀ j, ((updNode s B f).nodes j).n = (s.nodes j).n := by
    intro j; by_cases hj : j = B
    · subst hj; rw [hself]
    · rw [hnodes j hj]
  have hbsA : ∀ j, ((updNode s B f).nodes j).block_size =
      (s.nodes j).block_size := by
    intro j; by_cases hj : j = B
    · subst hj; rw [hself]
    · rw [hnodes j hj]
  have hstA : ∀ j, ((updNode s B f).nodes j).storage_size =
      (s.nodes j).storage_size := by
    intro j; by_cases hj : j = B
    · subst hj; rw [hself]
    · rw [hnodes j hj]
  have hcuA : ∀ j, ((updNode s B f).nodes j).current_upload =
      (s.nodes j).current_upload := by
    intro j; by_cases hj : j = B
    · subst hj; rw [hself]
    · rw [hnodes j hj]
  have hcdA : ∀ j, ((updNode s B f).nodes j).current_download =
      (s.nodes j).current_download := by
    intro j; by_cases hj : j = B
    · subst hj; rw [hself]
    · rw [hnodes j hj]
  have hflA : ∀ j, ((updNode s B f).nodes j).failed = (s.nodes j).failed := by
    intro j; by_cases hj : j = B
    · subst hj; rw [hself]
    · rw [hnodes j hj]
  have honA : ∀ j, ((updNode s B f).nodes j).online = (s.nodes j).online := by
    intro j; by_cases hj : j = B
    · subst hj; rw [hself]
    · rw [hnodes j hj]
  have hrB : ((updNode s B f).nodes B).remote_blocks_held = [] := by rw [hself]
  have hrA : ∀ j, j ≠ B → ((updNode s B f).nodes j).remote_blocks_held =
      (s.nodes j).remote_blocks_held := by
    intro j hj; rw [hnodes j hj]
  have hheld : ∀ l, heldSize (updNode s B f) l = heldSize s l :=
    fun l => heldSize_congr _ _ l (fun j => hbsA j)
  have hupNoB : ∀ tid, Ev.transferComplete tid ∈ s.pending →
      (getT s tid).canceled = false →
      (getT s tid).uploader ≠ B ∧ (getT s tid).downloader ≠ B := by
    intro tid hmem hcanc
    have hlive := h.liveLink tid hmem hcanc
    constructor
    · intro hc; rw [hc, hcu] at hlive; cases hlive.2.1
    · intro hc; rw [hc, hcd] at hlive; cases hlive.2.2
  refine ⟨⟨?_, ?_, ?_, ?_, ?_, ?_, ?_, ?_, ?_, ?_⟩, ?_, ?_, ?_, ?_, ?_, ?_, ?_⟩
  · intro X hX
    by_cases hj : X = B
    · subst hj; rw [hself]
      exact List.length_replicate _ _
    · rw [hnodes X hj]; exact h.wfLocalLen X hX
  · intro X hX
    rw [hbA X, hnA X]; exact h.wfBackedLen X hX
  · intro X hX
    rw [hbsA X, hnA X, hstA X]; exact h.wfCap X hX
  · intro X hX
    by_cases hj : X = B
    · subst hj; rw [hrB]; exact List.nodup_nil
    · rw [hrA X hj]; exact h.rbhNodup X hX
  · intro X hX p hp
    by_cases hj : X = B
    · subst hj; rw [hrB] at hp; cases hp
    · rw [hrA X hj] at hp
      rw [hnA p.1]
      exact h.rbhWf X hX p hp
  · intro X hX hne p hp
    by_cases hj : X = B
    · subst hj; rw [hrB] at hp; cases hp
    · rw [hrA X hj] at hp
      rw [hbA p.1]
      exact h.rbhBacked X hX hj p hp
  · intro X hX i P hget
    rw [hbA X] at hget
    have hold := h.backedWf X hX i P hget
    by_cases hPB : P = B
    · exact absurd (hPB ▸ hget) (hnodang X hX i)
    · rw [hrA P hPB]
      exact hold
  · intro X hX
    by_cases hj : X = B
    · subst hj; rw [hself]
      show ((s.nodes X).storage_size : Int) -
          ((s.nodes X).block_size : Int) * ((s.nodes X).n : Int) =
        ((s.nodes X).storage_size : Int) -
          ((s.nodes X).block_size : Int) * ((s.nodes X).n : Int) -
          heldSize (updNode s X f) []
      rw [show heldSize (updNode s X f) [] = 0 from rfl]
      ring
    · rw [hnodes X hj, hheld]
      exact h.fsEq X hX
  · intro X hX
    by_cases hj : X = B
    · subst hj; rw [hself]
      show (0 : Int) ≤ (s.nodes X).storage_size -
        (s.nodes X).block_size * (s.nodes X).n
      have := h.wfCap X hX
      omega
    · rw [hnodes X hj]; exact h.fsNonneg X hX
  · intro X hX hfail
    rw [hflA X] at hfail
    rw [honA X]
    exact h.failedOff X hX hfail
  · exact h.pendWf
  · exact h.pendTc
  · intro t ht
    have hw := h.transWf t ht
    rw [hnA t.downloader, hnA t.uploader]
    exact hw
  · intro X hX tid hslot
    rw [hcuA X] at hslot
    exact h.slotU X hX tid hslot
  · intro X hX tid hslot
    rw [hcdA X] at hslot
    exact h.slotD X hX tid hslot
  · intro tid hmem hcanc
    have hlive := h.liveLink tid hmem hcanc
    rw [hcuA, hcdA]
    exact hlive
  · intro tid hmem hcanc hrest
    have hinf := h.inflight tid hmem hcanc hrest
    obtain ⟨hu, hd⟩ := hupNoB tid hmem hcanc
    have hfsA : ∀ j, j ≠ B → ((updNode s B f).nodes j).free_space =
        (s.nodes j).free_space := by
      intro j hj; rw [hnodes j hj]
    rw [show getT (updNode s B f) tid = getT s tid from rfl]
    rw [hbA, hrA _ hd, hbsA, hfsA _ hd]
    exact hinf

/-- `Fail.process` preserves the invariant. -/
theorem fail_inv {s : Sim} (x : Nat) (h : Inv s) (hx : x < s.count) :
    Inv (processEv s (Ev.fail x)) := by
  have h1 : Inv (disconnect s x) := disconnect_sinv x h hx
  have hx1 : x < (disconnect s x).count := by rw [disconnect_count]; exact hx
  obtain ⟨hcu1, hcd1⟩ := disconnect_slots x h hx
  have hon1 := disconnect_online s x
  have hlen1 := h1.wfLocalLen x hx1
  have h2 : Inv (updNode (disconnect s x) x (fun nd =>
      { nd with failed := true
                total_data_loss_events := nd.total_data_loss_events + 1
                local_blocks := List.replicate nd.n false })) := by
    refine benign_upd_sinv x _ h1 rfl rfl ?_ rfl rfl rfl rfl rfl rfl
      (fun _ => hon1)
    show (List.replicate ((disconnect s x).nodes x).n false).length = _
    rw [List.length_replicate]
    exact hlen1.symm
  set sB := updNode (disconnect s x) x (fun nd =>
    { nd with failed := true
              total_data_loss_events := nd.total_data_loss_events + 1
              local_blocks := List.replicate nd.n false }) with hsB
  have hx2 : x < sB.count := hx1
  have hon2 : (sB.nodes x).online = false := by
    rw [hsB, updNode_nodes_self]
    exact hon1
  have hcu2 : (sB.nodes x).current_upload = none := by
    rw [hsB, updNode_nodes_self]
    exact hcu1
  have hcd2 : (sB.nodes x).current_download = none := by
    rw [hsB, updNode_nodes_self]
    exact hcd1
  have h2w : SInv sB (fun y => y = x) :=
    sinv_mono h2 (fun y hy => False.elim hy)
  have hcond : ∀ p ∈ (sB.nodes x).remote_blocks_held,
      p.1 < sB.count ∧ p.1 ≠ x ∧
      (sB.nodes p.1).backed_up_blocks.getD p.2 none = some x := by
    intro p hp
    obtain ⟨hp1, hp2, _⟩ := h2.rbhWf x hx2 p hp
    exact ⟨hp1, hp2, h2.rbhBacked x hx2 (fun hff => hff) p hp⟩
  obtain ⟨h3, hcnt3, hnB3, hmono3, hnone3⟩ :=
    failLoop_sinv (sB.nodes x).remote_blocks_held sB h2w hx2 hon2 hcond
      (h2.rbhNodup x hx2)
  set sC := failLoop sB (sB.nodes x).remote_blocks_held with hsC
  have hx3 : x < sC.count := by rw [hcnt3]; exact hx2
  have hon3 : (sC.nodes x).online = false := by rw [hnB3]; exact hon2
  have hcu3 : (sC.nodes x).current_upload = none := by rw [hnB3]; exact hcu2
  have hcd3 : (sC.nodes x).current_download = none := by rw [hnB3]; exact hcd2
  have hnodang3 : ∀ X, X < sC.count → ∀ i,
      (sC.nodes X).backed_up_blocks.getD i none ≠ some x := by
    intro X hX i hsome
    have h2some := hmono3 X i x hsome
    have hXB : X < sB.count := by rw [← hcnt3]; exact hX
    have hw := h2.backedWf X hXB i x h2some
    have hmem : (X, i) ∈ (sB.nodes x).remote_blocks_held :=
      mem_of_lookup_eq_some _ _ _ hw.2.2
    have := hnone3 (X, i) hmem
    rw [hsC] at this
    rw [this] at hsome
    cases hsome
  have h4 : Inv (updNode sC x (fun nd =>
      { nd with remote_blocks_held := []
                free_space := (nd.storage_size : Int) -
                  (nd.block_size : Int) * (nd.n : Int)
                local_blocks := List.replicate nd.n false
                total_data_loss_events := nd.total_data_loss_events + 1 })) :=
    failReset_sinv h3 hx3 hon3 hcu3 hcd3 hnodang3
  refine append_nodeEv_sinv (Ev.recover x) h4 ?_ (fun tid => by simp)
  show x < _
  rw [updNode_count, hcnt3]
  exact hx2

/-- Popping a canceled transfer completion preserves the invariant. -/
theorem popEv_canceledTc_inv {s : Sim} (tid : Nat) (h : Inv s)
    (hcanc : (getT s tid).canceled = true) :
    Inv (popEv s (Ev.transferComplete tid)) := by
  have hsub : ∀ e2, e2 ∈ (popEv s (Ev.transferComplete tid)).pending →
      e2 ∈ s.pending := fun e2 he2 => List.mem_of_mem_erase he2
  have hkeep : ∀ tid2, (getT s tid2).canceled = false →
      Ev.transferComplete tid2 ∈ s.pending →
      Ev.transferComplete tid2 ∈ (popEv s (Ev.transferComplete tid)).pending := by
    intro tid2 hc2 hm2
    have hne : Ev.transferComplete tid2 ≠ Ev.transferComplete tid := by
      intro hc
      have : tid2 = tid := by cases hc; rfl
      rw [this, hcanc] at hc2
      cases hc2
    exact (List.mem_erase_of_ne hne).mpr hm2
  refine ⟨coreInv_transport h.toCoreInv rfl (fun j => rfl), ?_, ?_, ?_, ?_, ?_,
    ?_, ?_⟩
  · intro e2 he2
    exact h.pendWf e2 (hsub e2 he2)
  · intro tid2
    have hle : ((popEv s (Ev.transferComplete tid)).pending.count
        (Ev.transferComplete tid2)) ≤
        s.pending.count (Ev.transferComplete tid2) :=
      List.Sublist.count_le
        (List.erase_sublist (Ev.transferComplete tid) s.pending)
        (Ev.transferComplete tid2)
    have := h.pendTc tid2
    omega
  · exact h.transWf
  · intro X hX tid2 hslot
    have hold := h.slotU X hX tid2 hslot
    exact ⟨hold.1, hold.2.1, hold.2.2.1, hkeep tid2 hold.2.2.1 hold.2.2.2⟩
  · intro X hX tid2 hslot
    have hold := h.slotD X hX tid2 hslot
    exact ⟨hold.1, hold.2.1, hold.2.2.1, hkeep tid2 hold.2.2.1 hold.2.2.2⟩
  · intro tid2 hmem hcanc2
    exact h.liveLink tid2 (hsub _ hmem) hcanc2
  · intro tid2 hmem hcanc2 hrest2
    exact h.inflight tid2 (hsub _ hmem) hcanc2 hrest2

/-- The popped completion event is no longer scheduled (it occurs at most
once in the queue). -/
theorem popped_tc_not_mem {s : Sim} (tid : Nat) (h : Inv s) :
    Ev.transferComplete tid ∉ (popEv s (Ev.transferComplete tid)).pending := by
  intro hmem
  have hcount := h.pendTc tid
  have herase := List.count_erase_self (Ev.transferComplete tid) s.pending
  have hpos : 0 < ((popEv s (Ev.transferComplete tid)).pending.count
      (Ev.transferComplete tid)) := List.count_pos_iff.mpr hmem
  rw [show (popEv s (Ev.transferComplete tid)).pending =
    s.pending.erase (Ev.transferComplete tid) from rfl] at hpos
  omega

/-- State update of a non-canceled `BlockRestoreComplete` (including clearing
both slots) re-establishes the invariant on the popped queue. -/
theorem tcRestore_sinv {s : Sim} (tid : Nat) (h : Inv s)
    (hmem : Ev.transferComplete tid ∈ s.pending)
    (hcanc : (getT s tid).canceled = false)
    (hrest : (getT s tid).restore = true) :
    Inv (updNode (updNode (updNode (popEv s (Ev.transferComplete tid))
        (getT s tid).downloader (fun nd =>
          let lb := nd.local_blocks.set (getT s tid).block_id true
          { nd with local_blocks := lb
                    total_restores_made := nd.total_restores_made + 1
                    total_data_recovered :=
                      if lb.count true = nd.k
                      then nd.total_data_recovered + 1
                      else nd.total_data_recovered }))
        (getT s tid).downloader (fun nd => { nd with current_download := none }))
        (getT s tid).uploader (fun nd => { nd with current_upload := none })) := by
  obtain ⟨hlt, hcuU, hcdD⟩ := h.liveLink tid hmem hcanc
  have htw := h.transWf _ (getT_mem s tid hlt)
  have hUD : (getT s tid).uploader ≠ (getT s tid).downloader := htw.2.2.1
  set U := (getT s tid).uploader with hUdef
  set D := (getT s tid).downloader with hDdef
  set fres : Node → Node := (fun nd =>
    let lb := nd.local_blocks.set (getT s tid).block_id true
    { nd with local_blocks := lb
              total_restores_made := nd.total_restores_made + 1
              total_data_recovered :=
                if lb.count true = nd.k
                then nd.total_data_recovered + 1
                else nd.total_data_recovered }) with hfres
  set sE := updNode (updNode (updNode (popEv s (Ev.transferComplete tid))
    D fres) D (fun nd => { nd with current_download := none }))
    U (fun nd => { nd with current_upload := none }) with hsE
  have hnot0 := popped_tc_not_mem tid h
  have hnodesU : sE.nodes U = { s.nodes U with current_upload := none } := by
    rw [hsE, updNode_nodes_self, updNode_nodes_ne _ _ _ _ hUD,
      updNode_nodes_ne _ _ _ _ hUD]
    rfl
  have hnodesD : sE.nodes D =
      { fres (s.nodes D) with current_download := none } := by
    rw [hsE, updNode_nodes_ne _ _ _ _ (Ne.symm hUD), updNode_nodes_self,
      updNode_nodes_self]
    rfl
  have hnodesO : ∀ j, j ≠ U → j ≠ D → sE.nodes j = s.nodes j := by
    intro j hjU hjD
    rw [hsE, updNode_nodes_ne _ _ _ _ hjU, updNode_nodes_ne _ _ _ _ hjD,
      updNode_nodes_ne _ _ _ _ hjD]
    rfl
  have hbA : ∀ j, (sE.nodes j).backed_up_blocks = (s.nodes j).backed_up_blocks := by
    intro j
    by_cases hjU : j = U
    · subst hjU; rw [hnodesU]
    · by_cases hjD : j = D
      · subst hjD; rw [hnodesD]
      · rw [hnodesO j hjU hjD]
  have hrA : ∀ j, (sE.nodes j).remote_blocks_held =
      (s.nodes j).remote_blocks_held := by
    intro j
    by_cases hjU : j = U
    · subst hjU; rw [hnodesU]
    · by_cases hjD : j = D
      · subst hjD; rw [hnodesD]
      · rw [hnodesO j hjU hjD]
  have hnA : ∀ j, (sE.nodes j).n = (s.nodes j).n := by
    intro j
    by_cases hjU : j = U
    · subst hjU; rw [hnodesU]
    · by_cases hjD : j = D
      · subst hjD; rw [hnodesD]
      · rw [hnodesO j hjU hjD]
  have hbsA : ∀ j, (sE.nodes j).block_size = (s.nodes j).block_size := by
    intro j
    by_cases hjU : j = U
    · subst hjU; rw [hnodesU]
    · by_cases hjD : j = D
      · subst hjD; rw [hnodesD]
      · rw [hnodesO j hjU hjD]
  have hstA : ∀ j, (sE.nodes j).storage_size = (s.nodes j).storage_size := by
    intro j
    by_cases hjU : j = U
    · subst hjU; rw [hnodesU]
    · by_cases hjD : j = D
      · subst hjD; rw [hnodesD]
      · rw [hnodesO j hjU hjD]
  have hfsA : ∀ j, (sE.nodes j).free_space = (s.nodes j).free_space := by
    intro j
    by_cases hjU : j = U
    · subst hjU; rw [hnodesU]
    · by_cases hjD : j = D
      · subst hjD; rw [hnodesD]
      · rw [hnodesO j hjU hjD]
  have hflA : ∀ j, (sE.nodes j).failed = (s.nodes j).failed := by
    intro j
    by_cases hjU : j = U
    · subst hjU; rw [hnodesU]
    · by_cases hjD : j = D
      · subst hjD; rw [hnodesD]
      · rw [hnodesO j hjU hjD]
  have honA : ∀ j, (sE.nodes j).online = (s.nodes j).online := by
    intro j
    by_cases hjU : j = U
    · subst hjU; rw [hnodesU]
    · by_cases hjD : j = D
      · subst hjD; rw [hnodesD]
      · rw [hnodesO j hjU hjD]
  have hlenA : ∀ j, (sE.nodes j).local_blocks.length =
      (s.nodes j).local_blocks.length := by
    intro j
    by_cases hjU : j = U
    · subst hjU; rw [hnodesU]
    · by_cases hjD : j = D
      · subst hjD
        rw [hnodesD]
        show ((s.nodes D).local_blocks.set (getT s tid).block_id true).length = _
        rw [List.length_set]
      · rw [hnodesO j hjU hjD]
  have hcuE : ∀ j, j ≠ U →
      (sE.nodes j).current_upload = (s.nodes j).current_upload := by
    intro j hjU
    by_cases hjD : j = D
    · subst hjD; rw [hnodesD]
    · rw [hnodesO j hjU hjD]
  have hcuEU : (sE.nodes U).current_upload = none := by rw [hnodesU]
  have hcdE : ∀ j, j ≠ D →
      (sE.nodes j).current_download = (s.nodes j).current_download := by
    intro j hjD
    by_cases hjU : j = U
    · subst hjU; rw [hnodesU]
    · rw [hnodesO j hjU hjD]
  have hcdED : (sE.nodes D).current_download = none := by rw [hnodesD]
  have hheld : ∀ l, heldSize sE l = heldSize s l :=
    fun l => heldSize_congr _ _ l (fun j => hbsA j)
  have hcountE : sE.count = s.count := rfl
  have hpendE : sE.pending = s.pending.erase (Ev.transferComplete tid) := rfl
  have htrE : sE.transfers = s.transfers := rfl
  have hsub : ∀ e2, e2 ∈ sE.pending → e2 ∈ s.pending := by
    rw [hpendE]; exact fun e2 he2 => List.mem_of_mem_erase he2
  have hne_of_mem : ∀ tid2, Ev.transferComplete tid2 ∈ sE.pending →
      tid2 ≠ tid := by
    intro tid2 hm hc
    subst hc
    exact hnot0 hm
  refine ⟨⟨?_, ?_, ?_, ?_, ?_, ?_, ?_, ?_, ?_, ?_⟩, ?_, ?_, ?_, ?_, ?_, ?_, ?_⟩
  · intro X hX
    rw [hlenA X, hnA X]; exact h.wfLocalLen X hX
  · intro X hX
    rw [hbA X, hnA X]; exact h.wfBackedLen X hX
  · intro X hX
    rw [hbsA X, hnA X, hstA X]; exact h.wfCap X hX
  · intro X hX
    rw [hrA X]; exact h.rbhNodup X hX
  · intro X hX p hp
    rw [hrA X] at hp
    rw [hnA p.1]
    exact h.rbhWf X hX p hp
  · intro X hX hne p hp
    rw [hrA X] at hp
    rw [hbA p.1]
    exact h.rbhBacked X hX hne p hp
  · intro X hX i P hget
    rw [hbA X] at hget
    have hold := h.backedWf X hX i P hget
    rw [hrA P]
    exact hold
  · intro X hX
    rw [hfsA X, hstA X, hbsA X, hnA X, hrA X, hheld]
    exact h.fsEq X hX
  · intro X hX
    rw [hfsA X]; exact h.fsNonneg X hX
  · intro X hX hfail
    rw [hflA X] at hfail
    rw [honA X]
    exact h.failedOff X hX hfail
  · intro e he
    have := h.pendWf e (hsub e he)
    cases e <;> simp only [evWf, hcountE, htrE] at this ⊢ <;> omega
  · intro tid2
    rw [hpendE]
    have hle := List.Sublist.count_le
      (List.erase_sublist (Ev.transferComplete tid) s.pending)
      (Ev.transferComplete tid2)
    have := h.pendTc tid2
    omega
  · intro t ht
    rw [htrE] at ht
    have hw := h.transWf t ht
    rw [hnA t.downloader, hnA t.uploader]
    exact hw
  · intro X hX tid2 hslot
    by_cases hXU : X = U
    · subst hXU; rw [hcuEU] at hslot; cases hslot
    · rw [hcuE X hXU] at hslot
      have hold := h.slotU X hX tid2 hslot
      have hne2 : tid2 ≠ tid := by
        intro hc; subst hc
        exact hXU (hold.2.1.symm.trans rfl)
      refine ⟨hold.1, hold.2.1, hold.2.2.1, ?_⟩
      rw [hpendE]
      exact (List.mem_erase_of_ne (by simp [hne2])).mpr hold.2.2.2
  · intro X hX tid2 hslot
    by_cases hXD : X = D
    · subst hXD; rw [hcdED] at hslot; cases hslot
    · rw [hcdE X hXD] at hslot
      have hold := h.slotD X hX tid2 hslot
      have hne2 : tid2 ≠ tid := by
        intro hc; subst hc
        exact hXD (hold.2.1.symm.trans rfl)
      refine ⟨hold.1, hold.2.1, hold.2.2.1, ?_⟩
      rw [hpendE]
      exact (List.mem_erase_of_ne (by simp [hne2])).mpr hold.2.2.2
  · intro tid2 hm2 hc2
    have hne2 := hne_of_mem tid2 hm2
    have hlive := h.liveLink tid2 (hsub _ hm2) hc2
    have hupne : (getT s tid2).uploader ≠ U := by
      intro hc
      rw [hc, hcuU] at hlive
      exact hne2 (Option.some.inj hlive.2.1).symm
    have hdwne : (getT s tid2).downloader ≠ D := by
      intro hc
      rw [hc, hcdD] at hlive
      exact hne2 (Option.some.inj hlive.2.2).symm
    rw [show getT sE tid2 = getT s tid2 from rfl]
    rw [hcuE _ hupne, hcdE _ hdwne]
    exact ⟨hlive.1, hlive.2.1, hlive.2.2⟩
  · intro tid2 hm2 hc2 hr2
    have hinf := h.inflight tid2 (hsub _ hm2) hc2 hr2
    rw [show getT sE tid2 = getT s tid2 from rfl] at hc2 hr2 ⊢
    rw [hbA, hrA, hbsA, hfsA]
    exact hinf

/-- State update of a non-canceled `BlockBackupComplete` (space accounting,
the two cross references, and clearing both slots) re-establishes the
invariant on the popped queue. -/
theorem tcBackup_sinv {s : Sim} (tid : Nat) (h : Inv s)
    (hmem : Ev.transferComplete tid ∈ s.pending)
    (hcanc : (getT s tid).canceled = false)
    (hrest : (getT s tid).restore = false) :
    Inv (updNode (updNode (updNode (updNode (popEv s (Ev.transferComplete tid))
        (getT s tid).downloader (fun nd =>
          { nd with
              free_space := nd.free_space -
                (((popEv s (Ev.transferComplete tid)).nodes
                  (getT s tid).uploader).block_size : Int),
              remote_blocks_held := dictSet nd.remote_blocks_held
                (getT s tid).uploader (getT s tid).block_id }))
        (getT s tid).uploader (fun nd =>
          { nd with
              backed_up_blocks :=
                (nd.backed_up_blocks.set (getT s tid).block_id
                  (some (getT s tid).downloader)).set (getT s tid).block_id
                  (some (getT s tid).downloader),
              total_backups_made := nd.total_backups_made + 1 }))
        (getT s tid).downloader (fun nd => { nd with current_download := none }))
        (getT s tid).uploader (fun nd => { nd with current_upload := none })) := by
  obtain ⟨hlt, hcuU, hcdD⟩ := h.liveLink tid hmem hcanc
  obtain ⟨hbnone, hlknone, hfsD⟩ := h.inflight tid hmem hcanc hrest
  have htw := h.transWf _ (getT_mem s tid hlt)
  have hUD : (getT s tid).uploader ≠ (getT s tid).downloader := htw.2.2.1
  have hU : (getT s tid).uploader < s.count := htw.1
  have hD : (getT s tid).downloader < s.count := htw.2.1
  have hbidU : (getT s tid).block_id < (s.nodes (getT s tid).uploader).n :=
    htw.2.2.2.2 hrest
  set U := (getT s tid).uploader with hUdef
  set D := (getT s tid).downloader with hDdef
  set bid := (getT s tid).block_id with hbiddef
  have hbidlen : bid < (s.nodes U).backed_up_blocks.length := by
    rw [h.wfBackedLen U hU]; exact hbidU
  set fD : Node → Node := (fun nd =>
    { nd with
        free_space := nd.free_space -
          (((popEv s (Ev.transferComplete tid)).nodes U).block_size : Int),
        remote_blocks_held := dictSet nd.remote_blocks_held U bid }) with hfD
  set fU : Node → Node := (fun nd =>
    { nd with
        backed_up_blocks :=
          (nd.backed_up_blocks.set bid (some D)).set bid (some D),
        total_backups_made := nd.total_backups_made + 1 }) with hfU
  set sE := updNode (updNode (updNode (updNode (popEv s (Ev.transferComplete tid))
    D fD) U fU) D (fun nd => { nd with current_download := none }))
    U (fun nd => { nd with current_upload := none }) with hsE
  have hnot0 := popped_tc_not_mem tid h
  have hnodesU : sE.nodes U = { s.nodes U with
      backed_up_blocks :=
        ((s.nodes U).backed_up_blocks.set bid (some D)).set bid (some D)
      total_backups_made := (s.nodes U).total_backups_made + 1
      current_upload := none } := by
    rw [hsE, updNode_nodes_self, updNode_nodes_ne _ _ _ _ hUD,
      updNode_nodes_self, updNode_nodes_ne _ _ _ _ hUD]
    rfl
  have hnodesD : sE.nodes D = { s.nodes D with
      free_space := (s.nodes D).free_space - ((s.nodes U).block_size : Int)
      remote_blocks_held := dictSet (s.nodes D).remote_blocks_held U bid
      current_download := none } := by
    rw [hsE, updNode_nodes_ne _ _ _ _ (Ne.symm hUD), updNode_nodes_self,
      updNode_nodes_ne _ _ _ _ (Ne.symm hUD), updNode_nodes_self]
    rfl
  have hnodesO : ∀ j, j ≠ U → j ≠ D → sE.nodes j = s.nodes j := by
    intro j hjU hjD
    rw [hsE, updNode_nodes_ne _ _ _ _ hjU, updNode_nodes_ne _ _ _ _ hjD,
      updNode_nodes_ne _ _ _ _ hjU, updNode_nodes_ne _ _ _ _ hjD]
    rfl
  have hdictapp : dictSet (s.nodes D).remote_blocks_held U bid =
      (s.nodes D).remote_blocks_held ++ [(U, bid)] :=
    dictSet_of_lookup_none _ _ _ hlknone
  have hbE : ∀ i, (sE.nodes U).backed_up_blocks.getD i none =
      if i = bid then some D else (s.nodes U).backed_up_blocks.getD i none := by
    intro i
    rw [hnodesU]
    show (((s.nodes U).backed_up_blocks.set bid (some D)).set bid
      (some D)).getD i none = _
    by_cases hib : i = bid
    · subst hib
      rw [if_pos rfl]
      rw [getD_set_self _ _ _ _ (by rw [List.length_set]; exact hbidlen)]
    · rw [if_neg hib, getD_set_ne _ _ _ _ _ hib, getD_set_ne _ _ _ _ _ hib]
  have hbO : ∀ j, j ≠ U →
      (sE.nodes j).backed_up_blocks = (s.nodes j).backed_up_blocks := by
    intro j hjU
    by_cases hjD : j = D
    · subst hjD; rw [hnodesD]
    · rw [hnodesO j hjU hjD]
  have hrO : ∀ j, j ≠ D →
      (sE.nodes j).remote_blocks_held = (s.nodes j).remote_blocks_held := by
    intro j hjD
    by_cases hjU : j = U
    · subst hjU; rw [hnodesU]
    · rw [hnodesO j hjU hjD]
  have hrD : (sE.nodes D).remote_blocks_held =
      (s.nodes D).remote_blocks_held ++ [(U, bid)] := by
    rw [hnodesD]
    show dictSet (s.nodes D).remote_blocks_held U bid = _
    exact hdictapp
  have hnA : ∀ j, (sE.nodes j).n = (s.nodes j).n := by
    intro j
    by_cases hjU : j = U
    · subst hjU; rw [hnodesU]
    · by_cases hjD : j = D
      · subst hjD; rw [hnodesD]
      · rw [hnodesO j hjU hjD]
  have hbsA : ∀ j, (sE.nodes j).block_size = (s.nodes j).block_size := by
    intro j
    by_cases hjU : j = U
    · subst hjU; rw [hnodesU]
    · by_cases hjD : j = D
      · subst hjD; rw [hnodesD]
      · rw [hnodesO j hjU hjD]
  have hstA : ∀ j, (sE.nodes j).storage_size = (s.nodes j).storage_size := by
    intro j
    by_cases hjU : j = U
    · subst hjU; rw [hnodesU]
    · by_cases hjD : j = D
      · subst hjD; rw [hnodesD]
      · rw [hnodesO j hjU hjD]
  have hkA : ∀ j, (sE.nodes j).local_blocks = (s.nodes j).local_blocks := by
    intro j
    by_cases hjU : j = U
    · subst hjU; rw [hnodesU]
    · by_cases hjD : j = D
      · subst hjD; rw [hnodesD]
      · rw [hnodesO j hjU hjD]
  have hflA : ∀ j, (sE.nodes j).failed = (s.nodes j).failed := by
    intro j
    by_cases hjU : j = U
    · subst hjU; rw [hnodesU]
    · by_cases hjD : j = D
      · subst hjD; rw [hnodesD]
      · rw [hnodesO j hjU hjD]
  have honA : ∀ j, (sE.nodes j).online = (s.nodes j).online := by
    intro j
    by_cases hjU : j = U
    · subst hjU; rw [hnodesU]
    · by_cases hjD : j = D
      · subst hjD; rw [hnodesD]
      · rw [hnodesO j hjU hjD]
  have hfsO : ∀ j, j ≠ D → (sE.nodes j).free_space = (s.nodes j).free_space := by
    intro j hjD
    by_cases hjU : j = U
    · subst hjU; rw [hnodesU]
    · rw [hnodesO j hjU hjD]
  have hfsE : (sE.nodes D).free_space =
      (s.nodes D).free_space - ((s.nodes U).block_size : Int) := by
    rw [hnodesD]
  have hcuE : ∀ j, j ≠ U →
      (sE.nodes j).current_upload = (s.nodes j).current_upload := by
    intro j hjU
    by_cases hjD : j = D
    · subst hjD; rw [hnodesD]
    · rw [hnodesO j hjU hjD]
  have hcuEU : (sE.nodes U).current_upload = none := by rw [hnodesU]
  have hcdE : ∀ j, j ≠ D →
      (sE.nodes j).current_download = (s.nodes j).current_download := by
    intro j hjD
    by_cases hjU : j = U
    · subst hjU; rw [hnodesU]
    · rw [hnodesO j hjU hjD]
  have hcdED : (sE.nodes D).current_download = none := by rw [hnodesD]
  have hheld : ∀ l, heldSize sE l = heldSize s l :=
    fun l => heldSize_congr _ _ l (fun j => hbsA j)
  have hcountE : sE.count = s.count := rfl
  have hpendE : sE.pending = s.pending.erase (Ev.transferComplete tid) := rfl
  have htrE : sE.transfers = s.transfers := rfl
  have hsub : ∀ e2, e2 ∈ sE.pending → e2 ∈ s.pending := by
    rw [hpendE]; exact fun e2 he2 => List.mem_of_mem_erase he2
  have hne_of_mem : ∀ tid2, Ev.transferComplete tid2 ∈ sE.pending →
      tid2 ≠ tid := by
    intro tid2 hm hc
    subst hc
    exact hnot0 hm
  have hkeysD : U ∉ (s.nodes D).remote_blocks_held.map Prod.fst :=
    keys_fresh_of_lookup_none _ _ hlknone
  have hnoBackedD : ∀ i, (s.nodes U).backed_up_blocks.getD i none ≠ some D := by
    intro i hc
    have := (h.backedWf U hU i D hc).2.2
    rw [hlknone] at this
    cases this
  refine ⟨⟨?_, ?_, ?_, ?_, ?_, ?_, ?_, ?_, ?_, ?_⟩, ?_, ?_, ?_, ?_, ?_, ?_, ?_⟩
  · intro X hX
    rw [hkA X, hnA X]; exact h.wfLocalLen X hX
  · intro X hX
    by_cases hXU : X = U
    · subst hXU
      rw [hnodesU]
      show (((s.nodes U).backed_up_blocks.set bid (some D)).set bid
        (some D)).length = (s.nodes U).n
      rw [List.length_set, List.length_set]
      exact h.wfBackedLen U hU
    · rw [hbO X hXU, hnA X]; exact h.wfBackedLen X hX
  · intro X hX
    rw [hbsA X, hnA X, hstA X]; exact h.wfCap X hX
  · intro X hX
    by_cases hXD : X = D
    · subst hXD
      rw [hrD, List.map_append]
      rw [List.nodup_append]
      refine ⟨h.rbhNodup D hD, List.nodup_singleton U, ?_⟩
      intro a ha hb
      have : a = U := by simpa using hb
      subst this
      exact hkeysD ha
    · rw [hrO X hXD]; exact h.rbhNodup X hX
  · intro X hX p hp
    by_cases hXD : X = D
    · subst hXD
      rw [hrD] at hp
      rcases List.mem_append.mp hp with hold | hnew
      · rw [hnA p.1]
        exact h.rbhWf D hD p hold
      · have hp2 : p = (U, bid) := by simpa using hnew
        subst hp2
        show U < sE.count ∧ U ≠ D ∧ bid < (sE.nodes U).n
        rw [hnA U]
        exact ⟨hU, hUD, hbidU⟩
    · rw [hrO X hXD] at hp
      rw [hnA p.1]
      exact h.rbhWf X hX p hp
  · intro X hX hne p hp
    by_cases hXD : X = D
    · subst hXD
      rw [hrD] at hp
      rcases List.mem_append.mp hp with hold | hnew
      · have hval := h.rbhBacked D hD (fun hf => hf) p hold
        by_cases hpU : p.1 = U
        · rw [hpU] at hval ⊢
          rw [hbE p.2]
          by_cases hpb : p.2 = bid
          · exfalso
            rw [hpb] at hval
            rw [hbnone] at hval
            cases hval
          · rw [if_neg hpb]
            exact hval
        · rw [hbO p.1 hpU]
          exact hval
      · have hp2 : p = (U, bid) := by simpa using hnew
        subst hp2
        show (sE.nodes U).backed_up_blocks.getD bid none = some D
        rw [hbE bid, if_pos rfl]
    · rw [hrO X hXD] at hp
      have hval := h.rbhBacked X hX (fun hf => hf) p hp
      by_cases hpU : p.1 = U
      · rw [hpU] at hval ⊢
        rw [hbE p.2]
        by_cases hpb : p.2 = bid
        · exfalso
          rw [hpb, hbnone] at hval
          cases hval
        · rw [if_neg hpb]
          exact hval
      · rw [hbO p.1 hpU]
        exact hval
  · intro X hX i P hget
    by_cases hXU : X = U
    · subst hXU
      rw [hbE i] at hget
      by_cases hib : i = bid
      · rw [if_pos hib] at hget
        have hPD : P = D := (Option.some.inj hget).symm
        subst hPD
        subst hib
        refine ⟨hD, Ne.symm hUD, ?_⟩
        rw [hrD, lookup_append_right_none _ _ _ hlknone]
        simp [List.lookup]
      · rw [if_neg hib] at hget
        have hold := h.backedWf U hU i P hget
        by_cases hPD : P = D
        · exfalso
          exact hnoBackedD i (hPD ▸ hget)
        · rw [hrO P hPD]
          exact hold
    · rw [hbO X hXU] at hget
      have hold := h.backedWf X hX i P hget
      by_cases hPD : P = D
      · subst hPD
        refine ⟨hold.1, hold.2.1, ?_⟩
        rw [hrD, lookup_append_single_ne _ _ _ _ hXU]
        exact hold.2.2
      · rw [hrO P hPD]
        exact hold
  · intro X hX
    by_cases hXD : X = D
    · subst hXD
      have hone : heldSize sE [(U, bid)] = ((s.nodes U).block_size : Int) := by
        rw [heldSize_cons]
        show ((sE.nodes U).block_size : Int) + heldSize sE [] = _
        rw [hbsA U, show heldSize sE [] = 0 from rfl]
        ring
      rw [hfsE, hstA D, hbsA D, hnA D, hrD, heldSize_append, hone, hheld]
      have hold := h.fsEq D hD
      omega
    · rw [hfsO X hXD, hstA X, hbsA X, hnA X, hrO X hXD, hheld]
      exact h.fsEq X hX
  · intro X hX
    by_cases hXD : X = D
    · subst hXD
      rw [hfsE]
      omega
    · rw [hfsO X hXD]; exact h.fsNonneg X hX
  · intro X hX hfail
    rw [hflA X] at hfail
    rw [honA X]
    exact h.failedOff X hX hfail
  · intro e he
    have := h.pendWf e (hsub e he)
    cases e <;> simp only [evWf, hcountE, htrE] at this ⊢ <;> omega
  · intro tid2
    rw [hpendE]
    have hle := List.Sublist.count_le
      (List.erase_sublist (Ev.transferComplete tid) s.pending)
      (Ev.transferComplete tid2)
    have := h.pendTc tid2
    omega
  · intro t ht
    rw [htrE] at ht
    have hw := h.transWf t ht
    rw [hnA t.downloader, hnA t.uploader]
    exact hw
  · intro X hX tid2 hslot
    by_cases hXU : X = U
    · subst hXU; rw [hcuEU] at hslot; cases hslot
    · rw [hcuE X hXU] at hslot
      have hold := h.slotU X hX tid2 hslot
      have hne2 : tid2 ≠ tid := by
        intro hc; subst hc
        exact hXU (hold.2.1.symm.trans rfl)
      refine ⟨hold.1, hold.2.1, hold.2.2.1, ?_⟩
      rw [hpendE]
      exact (List.mem_erase_of_ne (by simp [hne2])).mpr hold.2.2.2
  · intro X hX tid2 hslot
    by_cases hXD : X = D
    · subst hXD; rw [hcdED] at hslot; cases hslot
    · rw [hcdE X hXD] at hslot
      have hold := h.slotD X hX tid2 hslot
      have hne2 : tid2 ≠ tid := by
        intro hc; subst hc
        exact hXD (hold.2.1.symm.trans rfl)
      refine ⟨hold.1, hold.2.1, hold.2.2.1, ?_⟩
      rw [hpendE]
      exact (List.mem_erase_of_ne (by simp [hne2])).mpr hold.2.2.2
  · intro tid2 hm2 hc2
    have hne2 := hne_of_mem tid2 hm2
    have hlive := h.liveLink tid2 (hsub _ hm2) hc2
    have hupne : (getT s tid2).uploader ≠ U := by
      intro hc
      rw [hc, hcuU] at hlive
      exact hne2 (Option.some.inj hlive.2.1).symm
    have hdwne : (getT s tid2).downloader ≠ D := by
      intro hc
      rw [hc, hcdD] at hlive
      exact hne2 (Option.some.inj hlive.2.2).symm
    rw [show getT sE tid2 = getT s tid2 from rfl]
    rw [hcuE _ hupne, hcdE _ hdwne]
    exact ⟨hlive.1, hlive.2.1, hlive.2.2⟩
  · intro tid2 hm2 hc2 hr2
    have hne2 := hne_of_mem tid2 hm2
    have hlive := h.liveLink tid2 (hsub _ hm2) hc2
    have hinf2 := h.inflight tid2 (hsub _ hm2) hc2 hr2
    have hupne : (getT s tid2).uploader ≠ U := by
      intro hc
      rw [hc, hcuU] at hlive
      exact hne2 (Option.some.inj hlive.2.1).symm
    have hdwne : (getT s tid2).downloader ≠ D := by
      intro hc
      rw [hc, hcdD] at hlive
      exact hne2 (Option.some.inj hlive.2.2).symm
    rw [show getT sE tid2 = getT s tid2 from rfl] at hc2 hr2 ⊢
    rw [hbO _ hupne, hrO _ hdwne, hbsA, hfsO _ hdwne]
    exact hinf2

/-- `TransferComplete.process` on a canceled transfer returns the state
unchanged. -/
theorem processEv_tc_canceled (s : Sim) (tid : Nat)
    (hc : (getT s tid).canceled = true) :
    processEv s (Ev.transferComplete tid) = s := by
  simp only [processEv]
  rw [if_pos hc]

/-- Unfolding of `TransferComplete.process` for a live restore transfer. -/
theorem processEv_tc_restore (s : Sim) (tid : Nat)
    (hc : (getT s tid).canceled = false)
    (hr : (getT s tid).restore = true) :
    processEv s (Ev.transferComplete tid) =
      schedule_next_download (schedule_next_upload
        (updNode (updNode (updNode s
          (getT s tid).downloader (fun nd =>
            let lb := nd.local_blocks.set (getT s tid).block_id true
            { nd with local_blocks := lb
                      total_restores_made := nd.total_restores_made + 1
                      total_data_recovered :=
                        if lb.count true = nd.k
                        then nd.total_data_recovered + 1
                        else nd.total_data_recovered }))
          (getT s tid).downloader (fun nd => { nd with current_download := none }))
          (getT s tid).uploader (fun nd => { nd with current_upload := none }))
        (getT s tid).uploader) (getT s tid).downloader := by
  simp only [processEv]
  rw [if_neg (by rw [hc]; exact Bool.false_ne_true), if_pos hr]

/-- Unfolding of `TransferComplete.process` for a live backup transfer. -/
theorem processEv_tc_backup (s : Sim) (tid : Nat)
    (hc : (getT s tid).canceled = false)
    (hr : (getT s tid).restore = false) :
    processEv s (Ev.transferComplete tid) =
      schedule_next_download (schedule_next_upload
        (updNode (updNode (updNode (updNode s
          (getT s tid).downloader (fun nd =>
            { nd with
                free_space := nd.free_space -
                  ((s.nodes (getT s tid).uploader).block_size : Int)
                remote_blocks_held := dictSet nd.remote_blocks_held
                  (getT s tid).uploader (getT s tid).block_id }))
          (getT s tid).uploader (fun nd =>
            { nd with
                backed_up_blocks :=
                  (nd.backed_up_blocks.set (getT s tid).block_id
                    (some (getT s tid).downloader)).set (getT s tid).block_id
                    (some (getT s tid).downloader)
                total_backups_made := nd.total_backups_made + 1 }))
          (getT s tid).downloader (fun nd => { nd with current_download := none }))
          (getT s tid).uploader (fun nd => { nd with current_upload := none }))
        (getT s tid).uploader) (getT s tid).downloader := by
  simp only [processEv]
  rw [if_neg (by rw [hc]; exact Bool.false_ne_true),
    if_neg (by rw [hr]; exact Bool.false_ne_true)]

/-- `TransferComplete.process` (with the pop of its own event) preserves the
invariant, in all three cases: canceled, restore and backup. -/
theorem tc_inv {s : Sim} (tid : Nat) (h : Inv s)
    (hmem : Ev.transferComplete tid ∈ s.pending) :
    Inv (stepSim s (Ev.transferComplete tid)) := by
  show Inv (processEv (popEv s (Ev.transferComplete tid))
    (Ev.transferComplete tid))
  by_cases hcanc : (getT s tid).canceled = true
  · rw [processEv_tc_canceled (popEv s (Ev.transferComplete tid)) tid hcanc]
    exact popEv_canceledTc_inv tid h hcanc
  · have hcanc2 : (getT s tid).canceled = false := by
      cases hb : (getT s tid).canceled
      · rfl
      · exact absurd hb hcanc
    have hlt := (h.liveLink tid hmem hcanc2).1
    have htw := h.transWf _ (getT_mem s tid hlt)
    cases hrest : (getT s tid).restore with
    | true =>
      rw [processEv_tc_restore (popEv s (Ev.transferComplete tid)) tid
        hcanc2 hrest]
      have h3 := tcRestore_sinv tid h hmem hcanc2 hrest
      refine snd_sinv _ (snu_sinv _ h3 htw.1 (fun X hX => False.elim hX)) ?_
      rw [snu_count]
      exact htw.2.1
    | false =>
      rw [processEv_tc_backup (popEv s (Ev.transferComplete tid)) tid
        hcanc2 hrest]
      have h3 := tcBackup_sinv tid h hmem hcanc2 hrest
      refine snd_sinv _ (snu_sinv _ h3 htw.1 (fun X hX => False.elim hX)) ?_
      rw [snu_count]
      exact htw.2.1

/-- One simulation step preserves the invariant. -/
theorem step_inv {s s2 : Sim} (h : Inv s) (hstep : Step s s2) : Inv s2 := by
  cases hstep with
  | mk e hmem =>
    have hwf := h.pendWf e hmem
    cases e with
    | online x =>
      have h0 : Inv (popEv s (Ev.online x)) :=
        popEv_nontc_sinv _ h (fun tid hc => by cases hc)
      exact onlineBody_inv x h0 hwf
    | offline x =>
      have h0 : Inv (popEv s (Ev.offline x)) :=
        popEv_nontc_sinv _ h (fun tid hc => by cases hc)
      exact offline_inv x h0 hwf
    | fail x =>
      have h0 : Inv (popEv s (Ev.fail x)) :=
        popEv_nontc_sinv _ h (fun tid hc => by cases hc)
      exact fail_inv x h0 hwf
    | recover x =>
      have h0 : Inv (popEv s (Ev.recover x)) :=
        popEv_nontc_sinv _ h (fun tid hc => by cases hc)
      exact recover_inv x h0 hwf
    | transferComplete tid => exact tc_inv tid h hmem

/-- `getD` into a replicated list gives back the default element. -/
theorem getD_replicate {α : Type} (n i : Nat) (d : α) :
    (List.replicate n d).getD i d = d := by
  induction n generalizing i with
  | zero => rfl
  | succ m ih =>
    cases i with
    | zero => rfl
    | succ j => exact ih j

/-- The initial queue holds only `Online` and `Fail` events. -/
theorem initSim_no_tc (cfgs : List NodeCfg) (tid : Nat) :
    Ev.transferComplete tid ∉ (initSim cfgs).pending := by
  intro hmem
  rw [show (initSim cfgs).pending = (List.range cfgs.length).flatMap
    (fun i => [Ev.online i, Ev.fail i]) from rfl] at hmem
  obtain ⟨i, hi, hmem2⟩ := List.mem_flatMap.mp hmem
  simp at hmem2

/-- `Backup.__init__` establishes the invariant, given that every
configuration passes the constructor's `free_space >= 0` assert. -/
theorem inv_init {cfgs : List NodeCfg} (hok : ∀ c ∈ cfgs, NodeCfg.ok c) :
    Inv (initSim cfgs) := by
  have hcfg : ∀ X, X < cfgs.length → cfgs.getD X dfltCfg ∈ cfgs := by
    intro X hX
    rw [List.getD_eq_getElem _ _ hX]
    exact List.getElem_mem _
  refine ⟨⟨?_, ?_, ?_, ?_, ?_, ?_, ?_, ?_, ?_, ?_⟩, ?_, ?_, ?_, ?_, ?_, ?_, ?_⟩
  · intro X hX
    show (List.replicate (cfgs.getD X dfltCfg).n true).length =
      (cfgs.getD X dfltCfg).n
    simp
  · intro X hX
    show (List.replicate (cfgs.getD X dfltCfg).n
      (none : Option Nat)).length = (cfgs.getD X dfltCfg).n
    simp
  · intro X hX
    have hk : (Node.init (cfgs.getD X dfltCfg)).block_size *
        (Node.init (cfgs.getD X dfltCfg)).n ≤
        (Node.init (cfgs.getD X dfltCfg)).storage_size := hok _ (hcfg X hX)
    show ((Node.init (cfgs.getD X dfltCfg)).block_size : Int) *
        ((Node.init (cfgs.getD X dfltCfg)).n : Int) ≤
      ((Node.init (cfgs.getD X dfltCfg)).storage_size : Int)
    rw [← Nat.cast_mul]
    exact_mod_cast hk
  · intro X hX
    exact List.nodup_nil
  · intro X hX p hp
    exact absurd hp (List.not_mem_nil p)
  · intro X hX hne p hp
    exact absurd hp (List.not_mem_nil p)
  · intro X hX i P hget
    have h2 : (List.replicate (cfgs.getD X dfltCfg).n
        (none : Option Nat)).getD i none = some P := hget
    rw [getD_replicate] at h2
    cases h2
  · intro X hX
    show (Node.init (cfgs.getD X dfltCfg)).free_space =
      ((Node.init (cfgs.getD X dfltCfg)).storage_size : Int) -
      ((Node.init (cfgs.getD X dfltCfg)).block_size : Int) *
        ((Node.init (cfgs.getD X dfltCfg)).n : Int) -
      heldSize (initSim cfgs) (Node.init (cfgs.getD X dfltCfg)).remote_blocks_held
    rw [show (Node.init (cfgs.getD X dfltCfg)).remote_blocks_held = [] from rfl,
      show heldSize (initSim cfgs) [] = 0 from rfl,
      show (Node.init (cfgs.getD X dfltCfg)).free_space =
        ((Node.init (cfgs.getD X dfltCfg)).storage_size : Int) -
        ((Node.init (cfgs.getD X dfltCfg)).block_size : Int) *
          ((Node.init (cfgs.getD X dfltCfg)).n : Int) from rfl]
    ring
  · intro X hX
    have hk : (Node.init (cfgs.getD X dfltCfg)).block_size *
        (Node.init (cfgs.getD X dfltCfg)).n ≤
        (Node.init (cfgs.getD X dfltCfg)).storage_size := hok _ (hcfg X hX)
    show (0 : Int) ≤ ((Node.init (cfgs.getD X dfltCfg)).storage_size : Int) -
      ((Node.init (cfgs.getD X dfltCfg)).block_size : Int) *
        ((Node.init (cfgs.getD X dfltCfg)).n : Int)
    rw [← Nat.cast_mul]
    have hk2 : (((Node.init (cfgs.getD X dfltCfg)).block_size *
        (Node.init (cfgs.getD X dfltCfg)).n : Nat) : Int) ≤
        ((Node.init (cfgs.getD X dfltCfg)).storage_size : Int) := by
      exact_mod_cast hk
    omega
  · intro X hX hf
    have h2 : false = true := hf
    cases h2
  · intro e he
    rw [show (initSim cfgs).pending = (List.range cfgs.length).flatMap
      (fun i => [Ev.online i, Ev.fail i]) from rfl] at he
    obtain ⟨i, hi, he2⟩ := List.mem_flatMap.mp he
    have hi2 : i < cfgs.length := List.mem_range.mp hi
    rcases List.mem_cons.mp he2 with h1 | h2
    · subst h1
      exact hi2
    · have h3 : e = Ev.fail i := by simpa using h2
      subst h3
      exact hi2
  · intro tid
    have h0 : (initSim cfgs).pending.count (Ev.transferComplete tid) = 0 :=
      List.count_eq_zero.mpr (initSim_no_tc cfgs tid)
    omega
  · intro t ht
    exact absurd ht (List.not_mem_nil t)
  · intro X hX tid hslot
    have h2 : (none : Option Nat) = some tid := hslot
    cases h2
  · intro X hX tid hslot
    have h2 : (none : Option Nat) = some tid := hslot
    cases h2
  · intro tid hmem hc
    exact absurd hmem (initSim_no_tc cfgs tid)
  · intro tid hmem hc hr
    exact absurd hmem (initSim_no_tc cfgs tid)

/-- Every state reachable from a well-formed initial state satisfies the
invariant. -/
theorem inv_reachable {cfgs : List NodeCfg} {s : Sim}
    (hok : ∀ c ∈ cfgs, NodeCfg.ok c) (hr : Reachable (initSim cfgs) s) :
    Inv s := by
  induction hr with
  | refl => exact inv_init hok
  | tail hr2 hstep ih => exact step_inv ih hstep

/-! A concrete three-node run used to instantiate the theorems: node 0 owns
two blocks (`n = k = 2`, two unit-size blocks), nodes 1 and 2 are pure storage
peers (`n = 0`, one unit of storage each).  Processing the two `Online` events
and the two scheduled backups leaves node 0 fully backed up, one block on each
peer. -/

instance (c : NodeCfg) : Decidable (NodeCfg.ok c) := by
  unfold NodeCfg.ok
  infer_instance

def cfgA : NodeCfg := { n := 2, k := 2, data_size := 2, storage_size := 2 }

def cfgP : NodeCfg := { n := 0, k := 1, data_size := 0, storage_size := 1 }

def traceCfgs : List NodeCfg := [cfgA, cfgP, cfgP]

theorem traceCfgs_ok : ∀ c ∈ traceCfgs, NodeCfg.ok c := by decide

def exS : Sim :=
  stepSim (stepSim (stepSim (stepSim (stepSim (initSim traceCfgs)
    (Ev.online 0)) (Ev.online 1)) (Ev.online 2))
    (Ev.transferComplete 0)) (Ev.transferComplete 1)

theorem reachable_exS : Reachable (initSim traceCfgs) exS :=
  Relation.ReflTransGen.tail
    (Relation.ReflTransGen.tail
      (Relation.ReflTransGen.tail
        (Relation.ReflTransGen.tail
          (Relation.ReflTransGen.tail Relation.ReflTransGen.refl
            (Step.mk _ (Ev.online 0) (by decide)))
          (Step.mk _ (Ev.online 1) (by decide)))
        (Step.mk _ (Ev.online 2) (by decide)))
      (Step.mk _ (Ev.transferComplete 0) (by decide)))
    (Step.mk _ (Ev.transferComplete 1) (by decide))

/-- `exS` after node 0 fails and then recovers (the seeded `Fail` and the
`Recover` it schedules). -/
def exFR : Sim := stepSim (stepSim exS (Ev.fail 0)) (Ev.recover 0)

theorem reachable_exFR : Reachable (initSim traceCfgs) exFR :=
  Relation.ReflTransGen.tail
    (Relation.ReflTransGen.tail reachable_exS
      (Step.mk _ (Ev.fail 0) (by decide)))
    (Step.mk _ (Ev.recover 0) (by decide))

/-! Definitions for checking the summary's vulnerable-blocks figure. -/

/-- Number of remote copies of the specific block `(x, i)`: peers whose
`remote_blocks_held` maps owner `x` to block index `i`. -/
def blockCopies (s : Sim) (x i : Nat) : Nat :=
  ((List.range s.count).filter (fun p =>
    List.lookup x (s.nodes p).remote_blocks_held = some i)).length

/-- The claim's reading of the figure: number of (owner, block index) pairs
whose entry is present and of which exactly one remote copy exists. -/
def vulnerableClaimCount (s : Sim) : Nat :=
  ((List.range s.count).map (fun x =>
    ((List.range (s.nodes x).backed_up_blocks.length).map (fun i =>
      if (s.nodes x).backed_up_blocks.getD i none ≠ none ∧ blockCopies s x i = 1
      then 1 else 0)).sum)).sum

/-- What the code computes, spelled per (owner, block index) pair: the entry
is present and exactly one peer holds at least one block of that owner. -/
def amendedVulnCount (s : Sim) : Nat :=
  ((List.range s.count).map (fun x =>
    ((List.range (s.nodes x).backed_up_blocks.length).map (fun i =>
      if (s.nodes x).backed_up_blocks.getD i none ≠ none ∧ holdersCount s x = 1
      then 1 else 0)).sum)).sum

/-- Summing a function of the elements equals summing it over the indices. -/
theorem sum_map_eq_sum_range {α : Type} (f : α → Nat) (d : α) (l : List α) :
    (l.map f).sum =
      ((List.range l.length).map (fun i => f (l.getD i d))).sum := by
  induction l with
  | nil => rfl
  | cons a t ih =>
    show f a + (t.map f).sum = _
    rw [show (a :: t).length = t.length + 1 from rfl, List.range_succ_eq_map,
      List.map_cons, List.map_map]
    show _ = f a + _
    rw [ih]
    rfl

/-- The per-pair spelling agrees with the code's computation. -/
theorem vulnerable_blocks_eq_amended (s : Sim) :
    vulnerable_blocks s = amendedVulnCount s := by
  rw [vulnerable_blocks, amendedVulnCount]
  congr 1
  refine List.map_congr_left (fun x _ => ?_)
  exact sum_map_eq_sum_range _ none _

/-- A three-node state in which every node has its two blocks backed up on
exactly one distinct peer (node x on node x+1 cyclically). -/
def tnNode (peer holder : Nat) : Node :=
  { n := 2
    k := 2
    data_size := 2
    storage_size := 4
    online := true
    failed := false
    block_size := 1
    free_space := 0
    local_blocks := [true, true]
    backed_up_blocks := [some peer, some peer]
    remote_blocks_held := [(holder, 0), (holder, 1)]
    current_upload := none
    current_download := none
    total_data_loss_events := 0
    total_data_recovered := 0
    total_backups_made := 2
    total_restores_made := 0 }

def threeNodeState : Sim :=
  { count := 3
    nodes := fun i =>
      if i = 0 then tnNode 1 2
      else if i = 1 then tnNode 2 0
      else if i = 2 then tnNode 0 1
      else Node.init dfltCfg
    transfers := []
    pending := [] }

/-- State effect of `Fail.process` on the failing node and on the owners of
the blocks it held: local blocks wiped, held map emptied, free space reset,
own `backed_up_blocks` untouched, flags set, the owners' references cleared
and the matching `Recover` queued. -/
theorem fail_effect {s : Sim} (x : Nat) (h : Inv s) (hx : x < s.count) :
    ((processEv s (Ev.fail x)).nodes x).local_blocks =
      List.replicate (s.nodes x).n false ∧
    ((processEv s (Ev.fail x)).nodes x).remote_blocks_held = [] ∧
    ((processEv s (Ev.fail x)).nodes x).free_space =
      ((s.nodes x).storage_size : Int) -
        ((s.nodes x).block_size : Int) * ((s.nodes x).n : Int) ∧
    ((processEv s (Ev.fail x)).nodes x).backed_up_blocks =
      (s.nodes x).backed_up_blocks ∧
    ((processEv s (Ev.fail x)).nodes x).failed = true ∧
    ((processEv s (Ev.fail x)).nodes x).online = false ∧
    Ev.recover x ∈ (processEv s (Ev.fail x)).pending ∧
    (∀ p ∈ (s.nodes x).remote_blocks_held,
      ((processEv s (Ev.fail x)).nodes p.1).backed_up_blocks.getD p.2 none =
        none) := by
  have h1 : Inv (disconnect s x) := disconnect_sinv x h hx
  have hx1 : x < (disconnect s x).count := by rw [disconnect_count]; exact hx
  obtain ⟨hcu1, hcd1⟩ := disconnect_slots x h hx
  have hon1 := disconnect_online s x
  have hcoreD := disconnect_core s x x
  have hnD : ((disconnect s x).nodes x).n = (s.nodes x).n := by
    rw [Node.core_n hcoreD, updNode_nodes_self]
  have hstD : ((disconnect s x).nodes x).storage_size =
      (s.nodes x).storage_size := by
    rw [Node.core_storage hcoreD, updNode_nodes_self]
  have hbsD : ((disconnect s x).nodes x).block_size = (s.nodes x).block_size := by
    rw [Node.core_bs hcoreD, updNode_nodes_self]
  have hbkD : ((disconnect s x).nodes x).backed_up_blocks =
      (s.nodes x).backed_up_blocks := by
    rw [Node.core_backed hcoreD, updNode_nodes_self]
  have hrbD : ((disconnect s x).nodes x).remote_blocks_held =
      (s.nodes x).remote_blocks_held := by
    rw [Node.core_rbh hcoreD, updNode_nodes_self]
  have hlen1 := h1.wfLocalLen x hx1
  have h2 : Inv (updNode (disconnect s x) x (fun nd =>
      { nd with failed := true
                total_data_loss_events := nd.total_data_loss_events + 1
                local_blocks := List.replicate nd.n false })) := by
    refine benign_upd_sinv x _ h1 rfl rfl ?_ rfl rfl rfl rfl rfl rfl
      (fun _ => hon1)
    show (List.replicate ((disconnect s x).nodes x).n false).length = _
    rw [List.length_replicate]
    exact hlen1.symm
  set sB := updNode (disconnect s x) x (fun nd =>
    { nd with failed := true
              total_data_loss_events := nd.total_data_loss_events + 1
              local_blocks := List.replicate nd.n false }) with hsB
  have hx2 : x < sB.count := hx1
  have hon2 : (sB.nodes x).online = false := by
    rw [hsB, updNode_nodes_self]
    exact hon1
  have hnB : (sB.nodes x).n = (s.nodes x).n := by
    rw [hsB, updNode_nodes_self]
    exact hnD
  have hstB : (sB.nodes x).storage_size = (s.nodes x).storage_size := by
    rw [hsB, updNode_nodes_self]
    exact hstD
  have hbsB : (sB.nodes x).block_size = (s.nodes x).block_size := by
    rw [hsB, updNode_nodes_self]
    exact hbsD
  have hbkB : (sB.nodes x).backed_up_blocks = (s.nodes x).backed_up_blocks := by
    rw [hsB, updNode_nodes_self]
    exact hbkD
  have hrbB : (sB.nodes x).remote_blocks_held =
      (s.nodes x).remote_blocks_held := by
    rw [hsB, updNode_nodes_self]
    exact hrbD
  have h2w : SInv sB (fun y => y = x) :=
    sinv_mono h2 (fun y hy => False.elim hy)
  have hcond : ∀ p ∈ (sB.nodes x).remote_blocks_held,
      p.1 < sB.count ∧ p.1 ≠ x ∧
      (sB.nodes p.1).backed_up_blocks.getD p.2 none = some x := by
    intro p hp
    obtain ⟨hp1, hp2, _⟩ := h2.rbhWf x hx2 p hp
    exact ⟨hp1, hp2, h2.rbhBacked x hx2 (fun hff => hff) p hp⟩
  obtain ⟨h3, hcnt3, hnB3, hmono3, hnone3⟩ :=
    failLoop_sinv (sB.nodes x).remote_blocks_held sB h2w hx2 hon2 hcond
      (h2.rbhNodup x hx2)
  set sC := failLoop sB (sB.nodes x).remote_blocks_held with hsC
  have hnodes_x : (processEv s (Ev.fail x)).nodes x =
      { sC.nodes x with
          remote_blocks_held := []
          free_space := ((sC.nodes x).storage_size : Int) -
            ((sC.nodes x).block_size : Int) * ((sC.nodes x).n : Int)
          local_blocks := List.replicate (sC.nodes x).n false
          total_data_loss_events :=
            (sC.nodes x).total_data_loss_events + 1 } := by
    show (updNode sC x (fun nd =>
      { nd with remote_blocks_held := []
                free_space := (nd.storage_size : Int) -
                  (nd.block_size : Int) * (nd.n : Int)
                local_blocks := List.replicate nd.n false
                total_data_loss_events :=
                  nd.total_data_loss_events + 1 })).nodes x = _
    rw [updNode_nodes_self]
  have hCx : sC.nodes x = sB.nodes x := hnB3
  refine ⟨?_, ?_, ?_, ?_, ?_, ?_, ?_, ?_⟩
  · rw [hnodes_x]
    show List.replicate (sC.nodes x).n false = _
    rw [hCx, hnB]
  · rw [hnodes_x]
  · rw [hnodes_x]
    show ((sC.nodes x).storage_size : Int) -
      ((sC.nodes x).block_size : Int) * ((sC.nodes x).n : Int) = _
    rw [hCx, hnB, hstB, hbsB]
  · rw [hnodes_x]
    show (sC.nodes x).backed_up_blocks = _
    rw [hCx, hbkB]
  · rw [hnodes_x]
    show (sC.nodes x).failed = true
    rw [hCx, hsB, updNode_nodes_self]
  · rw [hnodes_x]
    show (sC.nodes x).online = false
    rw [hCx]
    exact hon2
  · show Ev.recover x ∈ (updNode sC x (fun nd =>
      { nd with remote_blocks_held := []
                free_space := (nd.storage_size : Int) -
                  (nd.block_size : Int) * (nd.n : Int)
                local_blocks := List.replicate nd.n false
                total_data_loss_events :=
                  nd.total_data_loss_events + 1 })).pending ++ [Ev.recover x]
    simp
  · intro p hp
    have hpB : p ∈ (sB.nodes x).remote_blocks_held := by rw [hrbB]; exact hp
    have hne := (hcond p hpB).2.1
    have hfr : (processEv s (Ev.fail x)).nodes p.1 = sC.nodes p.1 := by
      show (updNode sC x (fun nd =>
        { nd with remote_blocks_held := []
                  free_space := (nd.storage_size : Int) -
                    (nd.block_size : Int) * (nd.n : Int)
                  local_blocks := List.replicate nd.n false
                  total_data_loss_events :=
                    nd.total_data_loss_events + 1 })).nodes p.1 = _
      rw [updNode_nodes_ne _ _ _ _ hne]
    rw [hfr]
    exact hnone3 p hpB

/-- A point update by a function that keeps the `failed` flag keeps every
node's `failed` flag. -/
theorem updNode_failed_pres (S : Sim) (i : Nat) (f : Node → Node)
    (hf : ∀ nd, (f nd).failed = nd.failed) (j : Nat) :
    ((updNode S i f).nodes j).failed = (S.nodes j).failed := by
  rw [updNode_nodes]
  split
  · rename_i h
    subst h
    rw [hf]
  · rfl

/-- `disconnect` keeps every node's `failed` flag. -/
theorem disconnect_failed (s : Sim) (x j : Nat) :
    ((disconnect s x).nodes j).failed = (s.nodes j).failed := by
  rw [Node.core_failed (disconnect_core s x j), updNode_nodes]
  split
  · rename_i h
    subst h
    rfl
  · rfl

/-- The owner loop of `Fail.process` keeps every node's `failed` flag. -/
theorem failLoop_failed (todo : List (Nat × Nat)) :
    ∀ (s : Sim) (j : Nat),
      ((failLoop s todo).nodes j).failed = (s.nodes j).failed := by
  induction todo with
  | nil => intro s j; rfl
  | cons hd rest ih =>
    obtain ⟨o, b⟩ := hd
    intro s j
    simp only [failLoop]
    rw [ih]
    split
    · rw [Node.core_failed (snu_core _ o j), updNode_nodes]
      split
      · rename_i h
        subst h
        rfl
      · rfl
    · rw [updNode_nodes]
      split
      · rename_i h
        subst h
        rfl
      · rfl

/-- `Online.process` on an already-online or failed node is a no-op, and so is
the body run by `Recover.process`. -/
theorem onlineBody_noop (s : Sim) (x : Nat)
    (hg : (s.nodes x).online = true ∨ (s.nodes x).failed = true) :
    onlineBody s x = s := by
  rw [onlineBody, if_pos hg]

/-- `Offline.process` on a failed or already-offline node is a no-op. -/
theorem processEv_offline_noop (s : Sim) (x : Nat)
    (hg : (s.nodes x).failed = true ∨ (s.nodes x).online = false) :
    processEv s (Ev.offline x) = s := by
  simp only [processEv]
  rw [if_pos hg]

/-- `Online.process` / `Recover.process` do not touch any node's block
vectors. -/
theorem onlineBody_nodeframe (s : Sim) (x j : Nat) :
    ((onlineBody s x).nodes j).local_blocks = (s.nodes j).local_blocks ∧
    ((onlineBody s x).nodes j).backed_up_blocks =
      (s.nodes j).backed_up_blocks := by
  rw [onlineBody]
  by_cases hg : (s.nodes x).online = true ∨ (s.nodes x).failed = true
  · rw [if_pos hg]
    exact ⟨rfl, rfl⟩
  · rw [if_neg hg]
    have hc := (snd_core (schedule_next_upload
      (updNode s x (fun nd => { nd with online := true })) x) x j).trans
      (snu_core (updNode s x (fun nd => { nd with online := true })) x j)
    have hup : (updNode s x (fun nd => { nd with online := true })).nodes j =
        if j = x then { s.nodes x with online := true } else s.nodes j :=
      updNode_nodes s x _ j
    constructor
    · refine (Node.core_local hc).trans ?_
      rw [hup]
      split
      · rename_i h
        subst h
        rfl
      · rfl
    · refine (Node.core_backed hc).trans ?_
      rw [hup]
      split
      · rename_i h
        subst h
        rfl
      · rfl

/-- `Recover.process` does not touch the node's block vectors. -/
theorem recover_nodeframe (s : Sim) (B : Nat) :
    ((processEv s (Ev.recover B)).nodes B).local_blocks =
      (s.nodes B).local_blocks ∧
    ((processEv s (Ev.recover B)).nodes B).backed_up_blocks =
      (s.nodes B).backed_up_blocks := by
  have hon := onlineBody_nodeframe
    (updNode s B (fun nd => { nd with failed := false })) B B
  have hupl : ((updNode s B (fun nd =>
      { nd with failed := false })).nodes B).local_blocks =
      (s.nodes B).local_blocks := by
    rw [updNode_nodes_self]
  have hupb : ((updNode s B (fun nd =>
      { nd with failed := false })).nodes B).backed_up_blocks =
      (s.nodes B).backed_up_blocks := by
    rw [updNode_nodes_self]
  constructor
  · show ((onlineBody (updNode s B (fun nd =>
      { nd with failed := false })) B).nodes B).local_blocks = _
    rw [hon.1, hupl]
  · show ((onlineBody (updNode s B (fun nd =>
      { nd with failed := false })) B).nodes B).backed_up_blocks = _
    rw [hon.2, hupb]

/-- No event other than a `Recover` clears a set `failed` flag. -/
theorem failed_stable (s : Sim) (x : Nat) (e : Ev)
    (hf : (s.nodes x).failed = true) (hne : ∀ y, e ≠ Ev.recover y) :
    ((processEv s e).nodes x).failed = true := by
  cases e with
  | online y =>
    show ((onlineBody s y).nodes x).failed = true
    rw [onlineBody]
    by_cases hg : (s.nodes y).online = true ∨ (s.nodes y).failed = true
    · rw [if_pos hg]
      exact hf
    · rw [if_neg hg]
      have hc := (snd_core (schedule_next_upload
        (updNode s y (fun nd => { nd with online := true })) y) y x).trans
        (snu_core (updNode s y (fun nd => { nd with online := true })) y x)
      refine ((Node.core_failed hc).trans ?_).trans hf
      exact updNode_failed_pres s y
        (fun nd => { nd with online := true }) (fun nd => rfl) x
  | offline y =>
    simp only [processEv]
    by_cases hg : (s.nodes y).failed = true ∨ (s.nodes y).online = false
    · rw [if_pos hg]
      exact hf
    · rw [if_neg hg]
      show ((disconnect s y).nodes x).failed = true
      rw [disconnect_failed]
      exact hf
  | fail y =>
    show ((updNode (failLoop (updNode (disconnect s y) y (fun nd =>
      { nd with failed := true
                total_data_loss_events := nd.total_data_loss_events + 1
                local_blocks := List.replicate nd.n false }))
        ((updNode (disconnect s y) y (fun nd =>
          { nd with failed := true
                    total_data_loss_events := nd.total_data_loss_events + 1
                    local_blocks :=
                      List.replicate nd.n false })).nodes y).remote_blocks_held)
      y (fun nd =>
        { nd with remote_blocks_held := []
                  free_space := (nd.storage_size : Int) -
                    (nd.block_size : Int) * (nd.n : Int)
                  local_blocks := List.replicate nd.n false
                  total_data_loss_events :=
                    nd.total_data_loss_events + 1 })).nodes x).failed = true
    rw [updNode_nodes]
    split
    · rename_i hxy
      show ((failLoop _ _).nodes y).failed = true
      rw [failLoop_failed, updNode_nodes_self]
    · rename_i hxy
      rw [failLoop_failed, updNode_nodes_ne _ _ _ _ hxy, disconnect_failed]
      exact hf
  | recover y => exact absurd rfl (hne y)
  | transferComplete tid =>
    by_cases hcanc : (getT s tid).canceled = true
    · rw [processEv_tc_canceled _ _ hcanc]
      exact hf
    · have hcanc2 : (getT s tid).canceled = false := by
        cases hb : (getT s tid).canceled
        · rfl
        · exact absurd hb hcanc
      cases hrest : (getT s tid).restore with
      | true =>
        rw [processEv_tc_restore _ _ hcanc2 hrest]
        refine (Node.core_failed ((snd_core _ _ x).trans (snu_core _ _ x))).trans
          ?_ |>.trans hf
        refine (updNode_failed_pres _ _ _ (by intro nd; rfl) x).trans ?_
        refine (updNode_failed_pres _ _ _ (by intro nd; rfl) x).trans ?_
        exact updNode_failed_pres _ _ _ (by intro nd; rfl) x
      | false =>
        rw [processEv_tc_backup _ _ hcanc2 hrest]
        refine (Node.core_failed ((snd_core _ _ x).trans (snu_core _ _ x))).trans
          ?_ |>.trans hf
        refine (updNode_failed_pres _ _ _ (by intro nd; rfl) x).trans ?_
        refine (updNode_failed_pres _ _ _ (by intro nd; rfl) x).trans ?_
        refine (updNode_failed_pres _ _ _ (by intro nd; rfl) x).trans ?_
        exact updNode_failed_pres _ _ _ (by intro nd; rfl) x

/-! Spec-side model of the upload-selection policy, written from the spec's
wording; `find?` renders "the first element, in order, satisfying ...". -/

/-- "P is online, `P.current_download` absent and `P.local_blocks[block_id]`
false". -/
def specRestorePred (s : Sim) (pb : Nat × Nat) : Bool :=
  (s.nodes pb.1).online &&
    ((s.nodes pb.1).current_download == none) &&
    ((s.nodes pb.1).local_blocks.getD pb.2 true == false)

/-- "U's first locally-present, not-yet-backed-up block". -/
def specBackupBlock (nd : Node) : Option Nat :=
  (List.range nd.n).find? (fun i =>
    nd.local_blocks.getD i false && (nd.backed_up_blocks.getD i none == none))

/-- "P ≠ U, online, holds no block of U, no current download, and free_space ≥
U.block_size". -/
def specPeerPred (s : Sim) (u p : Nat) : Bool :=
  (p != u) && (s.nodes p).online &&
    (List.lookup u (s.nodes p).remote_blocks_held == none) &&
    ((s.nodes p).current_download == none) &&
    decide (((s.nodes u).block_size : Int) ≤ (s.nodes p).free_space)

/-- The transfer the spec's upload-selection policy picks: a restore from the
held-blocks scan if one exists, else a backup of the first unbacked block to
the first acceptable peer. -/
def specUploadChoice (s : Sim) (u : Nat) : Option (Nat × Nat × Bool) :=
  match (s.nodes u).remote_blocks_held.find? (specRestorePred s) with
  | some (p, b) => some (p, b, true)
  | none =>
    match specBackupBlock (s.nodes u) with
    | none => none
    | some bid =>
      match (List.range s.count).find? (specPeerPred s u) with
      | none => none
      | some p => some (p, bid, false)

theorem uploadRestoreScan_eq_find (s : Sim) (l : List (Nat × Nat)) :
    uploadRestoreScan s l = l.find? (specRestorePred s) := by
  induction l with
  | nil => rfl
  | cons hd tl ih =>
    obtain ⟨p, b⟩ := hd
    simp only [uploadRestoreScan, List.find?]
    by_cases h : (s.nodes p).online = true ∧
        (s.nodes p).current_download = none ∧
        (s.nodes p).local_blocks.getD b true = false
    · rw [if_pos h]
      have hp : specRestorePred s (p, b) = true := by
        have e2 : ((s.nodes p).current_download == none) = true :=
          beq_iff_eq.mpr h.2.1
        have e3 : ((s.nodes p).local_blocks.getD b true == false) = true :=
          beq_iff_eq.mpr h.2.2
        rw [specRestorePred]
        show ((s.nodes p).online && ((s.nodes p).current_download == none) &&
          ((s.nodes p).local_blocks.getD b true == false)) = true
        rw [h.1, e2, e3]
        rfl
      rw [hp]
    · rw [if_neg h]
      have hp : specRestorePred s (p, b) = false := by
        cases hb2 : specRestorePred s (p, b) with
        | false => rfl
        | true =>
          exfalso
          apply h
          rw [specRestorePred] at hb2
          have h3 := Bool.and_eq_true_iff.mp hb2
          have h4 := Bool.and_eq_true_iff.mp h3.1
          exact ⟨h4.1, beq_iff_eq.mp h4.2, beq_iff_eq.mp h3.2⟩
      rw [hp]
      exact ih

theorem findBackupBlock_eq_find (ls : List Bool) :
    ∀ (ps : List (Option Nat)) (i : Nat), ls.length = ps.length →
    findBackupBlock i ls ps =
      ((List.range ls.length).find? (fun j =>
        ls.getD j false && (ps.getD j none == none))).map (fun j => j + i) := by
  induction ls with
  | nil =>
    intro ps i h
    rfl
  | cons a ls ih =>
    intro ps i h
    cases ps with
    | nil => exact absurd h (by simp)
    | cons p ps =>
      simp only [findBackupBlock]
      rw [show (a :: ls).length = ls.length + 1 from rfl,
        List.range_succ_eq_map]
      simp only [List.find?]
      have hsc : ((a :: ls).getD 0 false && ((p :: ps).getD 0 none == none)) =
          (a && (p == none)) := rfl
      by_cases hc : a = true ∧ p = none
      · rw [if_pos hc, hsc,
          show (a && (p == none)) = true by rw [hc.1, hc.2]; rfl]
        show some i = some (0 + i)
        rw [Nat.zero_add]
      · rw [if_neg hc]
        have hp : (a && (p == none)) = false := by
          cases hb2 : (a && (p == none)) with
          | false => rfl
          | true =>
            exfalso
            apply hc
            have h3 := Bool.and_eq_true_iff.mp hb2
            exact ⟨h3.1, beq_iff_eq.mp h3.2⟩
        rw [hsc, hp]
        rw [List.find?_map]
        have hlen : ls.length = ps.length := by simpa using h
        rw [ih ps (i + 1) hlen]
        have hcomp : (List.range ls.length).find?
            ((fun j => (a :: ls).getD j false && ((p :: ps).getD j none == none))
              ∘ Nat.succ) =
            (List.range ls.length).find? (fun j =>
              ls.getD j false && (ps.getD j none == none)) := rfl
        rw [hcomp]
        cases hF : (List.range ls.length).find? (fun j =>
            ls.getD j false && (ps.getD j none == none)) with
        | none => rfl
        | some j =>
          show some (j + (i + 1)) = some (j + 1 + i)
          exact congrArg some (by omega)

theorem find_block_eq_spec (nd : Node)
    (hl : nd.local_blocks.length = nd.n)
    (hb : nd.backed_up_blocks.length = nd.n) :
    nd.find_block_to_back_up = specBackupBlock nd := by
  rw [Node.find_block_to_back_up,
    findBackupBlock_eq_find nd.local_blocks nd.backed_up_blocks 0
      (by rw [hl, hb]),
    specBackupBlock, hl]
  cases hF : (List.range nd.n).find? (fun j =>
      nd.local_blocks.getD j false && (nd.backed_up_blocks.getD j none == none))
    with
  | none => rfl
  | some j =>
    show some (j + 0) = some j
    rw [Nat.add_zero]

theorem uploadPeerScan_eq_find (s : Sim) (u : Nat) (backed : List (Option Nat))
    (l : List Nat)
    (hiff : ∀ p ∈ l, (some p ∈ backed ↔
      List.lookup u (s.nodes p).remote_blocks_held ≠ none)) :
    uploadPeerScan s u backed (s.nodes u).block_size l =
      l.find? (specPeerPred s u) := by
  induction l with
  | nil => rfl
  | cons p rest ih =>
    simp only [uploadPeerScan, List.find?]
    have hiffp := hiff p (List.mem_cons_self p rest)
    by_cases h : p ≠ u ∧ (s.nodes p).online = true ∧ some p ∉ backed ∧
        (s.nodes p).current_download = none ∧
        ((s.nodes u).block_size : Int) ≤ (s.nodes p).free_space
    · rw [if_pos h]
      have hlk : List.lookup u (s.nodes p).remote_blocks_held = none := by
        by_contra hcont
        exact h.2.2.1 (hiffp.mpr hcont)
      have hp : specPeerPred s u p = true := by
        have e1 : (p != u) = true := bne_iff_ne.mpr h.1
        have e2 : (List.lookup u (s.nodes p).remote_blocks_held == none) =
            true := beq_iff_eq.mpr hlk
        have e3 : ((s.nodes p).current_download == none) = true :=
          beq_iff_eq.mpr h.2.2.2.1
        have e4 : decide (((s.nodes u).block_size : Int) ≤
            (s.nodes p).free_space) = true := decide_eq_true h.2.2.2.2
        rw [specPeerPred, e1, e2, e3, e4, h.2.1]
        rfl
      rw [hp]
    · rw [if_neg h]
      have hp : specPeerPred s u p = false := by
        cases hb2 : specPeerPred s u p with
        | false => rfl
        | true =>
          exfalso
          apply h
          rw [specPeerPred] at hb2
          have h3 := Bool.and_eq_true_iff.mp hb2
          have h4 := Bool.and_eq_true_iff.mp h3.1
          have h5 := Bool.and_eq_true_iff.mp h4.1
          have h6 := Bool.and_eq_true_iff.mp h5.1
          refine ⟨bne_iff_ne.mp h6.1, h6.2, ?_, beq_iff_eq.mp h4.2,
            of_decide_eq_true h3.2⟩
          intro hmem
          exact (hiffp.mp hmem) (beq_iff_eq.mp h5.2)
      rw [hp]
      exact ih (fun q hq => hiff q (List.mem_cons_of_mem _ hq))

/-- On an invariant state, the code's upload selection performs exactly the
spec's policy. -/
theorem snu_eq_spec {s : Sim} (u : Nat) (h : Inv s) (hu : u < s.count)
    (hcu : (s.nodes u).current_upload = none) :
    schedule_next_upload s u =
      (match specUploadChoice s u with
       | some (p, b, r) => schedule_transfer s u p b r
       | none => s) := by
  have hiff : ∀ p ∈ List.range s.count,
      (some p ∈ (s.nodes u).backed_up_blocks ↔
        List.lookup u (s.nodes p).remote_blocks_held ≠ none) := by
    intro p hp
    have hpc : p < s.count := List.mem_range.mp hp
    constructor
    · intro hmem
      obtain ⟨i, hi, hgi⟩ := List.mem_iff_getElem.mp hmem
      have hgd : (s.nodes u).backed_up_blocks.getD i none = some p := by
        rw [List.getD_eq_getElem _ _ hi]
        exact hgi
      have hw := h.backedWf u hu i p hgd
      rw [hw.2.2]
      simp
    · intro hlk
      cases hlkc : List.lookup u (s.nodes p).remote_blocks_held with
      | none => exact absurd hlkc hlk
      | some b =>
        have hmem2 : (u, b) ∈ (s.nodes p).remote_blocks_held :=
          mem_of_lookup_eq_some _ _ _ hlkc
        have hbk := h.rbhBacked p hpc (fun hff => hff) (u, b) hmem2
        exact mem_of_getD_some _ _ _ hbk
  rw [schedule_next_upload, if_neg (fun hcont => hcont hcu), specUploadChoice,
    uploadRestoreScan_eq_find]
  cases hR : (s.nodes u).remote_blocks_held.find? (specRestorePred s) with
  | some pb =>
    obtain ⟨p, b⟩ := pb
    rfl
  | none =>
    rw [find_block_eq_spec (s.nodes u) (h.wfLocalLen u hu) (h.wfBackedLen u hu)]
    cases hB : specBackupBlock (s.nodes u) with
    | none => rfl
    | some bid =>
      rw [uploadPeerScan_eq_find s u (s.nodes u).backed_up_blocks
        (List.range s.count) hiff]
      cases hP : (List.range s.count).find? (specPeerPred s u) with
      | none => rfl
      | some p => rfl

/-! The claim theorems. -/

/-- C1: the spec says a `Fail` increments the failing node's
`data_loss_events` by exactly one; the code increments it twice (once when
marking the node failed, once more in the final reset), as this reachable
three-node input shows: node 0's counter goes from 0 to 2 on one `Fail`. -/
theorem C1_fail_double_increment :
    Reachable (initSim traceCfgs) (initSim traceCfgs) ∧
    ((initSim traceCfgs).nodes 0).total_data_loss_events = 0 ∧
    ((processEv (initSim traceCfgs) (Ev.fail 0)).nodes
      0).total_data_loss_events = 2 :=
  ⟨Relation.ReflTransGen.refl, by decide, by decide⟩

/-- C2: in every reachable state, a `backed_up_blocks` entry naming peer `P`
is mirrored by `P.remote_blocks_held` mapping the owner to that index. -/
theorem C2_backed_consistent {cfgs : List NodeCfg} {s : Sim}
    (hok : ∀ c ∈ cfgs, NodeCfg.ok c) (hr : Reachable (initSim cfgs) s)
    (X : Nat) (hX : X < s.count) (i P : Nat)
    (hget : (s.nodes X).backed_up_blocks.getD i none = some P) :
    List.lookup X (s.nodes P).remote_blocks_held = some i :=
  ((inv_reachable hok hr).backedWf X hX i P hget).2.2

theorem C2_backed_consistent_witness :
    ((∀ c ∈ traceCfgs, NodeCfg.ok c) ∧ 0 < exS.count ∧
      (exS.nodes 0).backed_up_blocks.getD 0 none = some 1) ∧
    List.lookup 0 (exS.nodes 1).remote_blocks_held = some 0 :=
  ⟨⟨by decide, by decide, by decide⟩,
    C2_backed_consistent traceCfgs_ok reachable_exS 0 (by decide) 0 1
      (by decide)⟩

/-- C3 (counterexample): the spec's formula charges held blocks at the
holder's `block_size`; the code charges them at the owner's.  In the
reachable state `exS`, storage node 1 (block size 0) holds one unit-size
block of node 0 and its `free_space` is 0, not the 1 the spec's formula
gives. -/
theorem C3_spec_formula_counterexample :
    Reachable (initSim traceCfgs) exS ∧ 1 < exS.count ∧
    (exS.nodes 1).free_space ≠
      ((exS.nodes 1).storage_size : Int) -
        ((exS.nodes 1).block_size : Int) * ((exS.nodes 1).n : Int) -
        ((exS.nodes 1).block_size : Int) *
          ((exS.nodes 1).remote_blocks_held.length : Int) :=
  ⟨reachable_exS, by decide, by decide⟩

/-- C3 (amended): in every reachable state, `free_space` equals
`storage_size − block_size·n` minus the sum of the owners' block sizes over
`remote_blocks_held`, and is non-negative. -/
theorem C3_free_space_amended {cfgs : List NodeCfg} {s : Sim}
    (hok : ∀ c ∈ cfgs, NodeCfg.ok c) (hr : Reachable (initSim cfgs) s)
    (X : Nat) (hX : X < s.count) :
    (s.nodes X).free_space = ((s.nodes X).storage_size : Int) -
      ((s.nodes X).block_size : Int) * ((s.nodes X).n : Int) -
      heldSize s (s.nodes X).remote_blocks_held ∧
    0 ≤ (s.nodes X).free_space :=
  ⟨(inv_reachable hok hr).fsEq X hX, (inv_reachable hok hr).fsNonneg X hX⟩

theorem C3_free_space_amended_witness :
    ((∀ c ∈ traceCfgs, NodeCfg.ok c) ∧ 1 < exS.count) ∧
    ((exS.nodes 1).free_space = ((exS.nodes 1).storage_size : Int) -
        ((exS.nodes 1).block_size : Int) * ((exS.nodes 1).n : Int) -
        heldSize exS (exS.nodes 1).remote_blocks_held ∧
      0 ≤ (exS.nodes 1).free_space) :=
  ⟨⟨by decide, by decide⟩,
    C3_free_space_amended traceCfgs_ok reachable_exS 1 (by decide)⟩

/-- C4: on every reachable state, for an online node with no in-flight
upload, the code's upload selection computes exactly the spec's policy: the
first qualifying restore from `remote_blocks_held` in insertion order,
otherwise the first unbacked local block offered to the first acceptable peer
in arena order, otherwise nothing. -/
theorem C4_upload_selection {cfgs : List NodeCfg} {s : Sim}
    (hok : ∀ c ∈ cfgs, NodeCfg.ok c) (hr : Reachable (initSim cfgs) s)
    (u : Nat) (hu : u < s.count) (_hon : (s.nodes u).online = true)
    (hcu : (s.nodes u).current_upload = none) :
    schedule_next_upload s u =
      (match specUploadChoice s u with
       | some (p, b, r) => schedule_transfer s u p b r
       | none => s) :=
  snu_eq_spec u (inv_reachable hok hr) hu hcu

theorem C4_upload_selection_witness :
    ((∀ c ∈ traceCfgs, NodeCfg.ok c) ∧ 0 < exS.count ∧
      (exS.nodes 0).online = true ∧ (exS.nodes 0).current_upload = none) ∧
    schedule_next_upload exS 0 =
      (match specUploadChoice exS 0 with
       | some (p, b, r) => schedule_transfer exS 0 p b r
       | none => exS) :=
  ⟨⟨by decide, by decide, by decide, by decide⟩,
    C4_upload_selection traceCfgs_ok reachable_exS 0 (by decide) (by decide)
      (by decide)⟩

/-- C5: completing a live restore sets the downloader's block present,
increments `restores_made`, and increments `data_recovered` exactly when the
block count after the update equals `k`. -/
theorem C5_restore_completion (s : Sim) (tid : Nat)
    (hcanc : (getT s tid).canceled = false)
    (hrest : (getT s tid).restore = true) :
    ((processEv s (Ev.transferComplete tid)).nodes
        (getT s tid).downloader).local_blocks =
      (s.nodes (getT s tid).downloader).local_blocks.set
        (getT s tid).block_id true ∧
    ((processEv s (Ev.transferComplete tid)).nodes
        (getT s tid).downloader).total_restores_made =
      (s.nodes (getT s tid).downloader).total_restores_made + 1 ∧
    ((processEv s (Ev.transferComplete tid)).nodes
        (getT s tid).downloader).total_data_recovered =
      (if ((s.nodes (getT s tid).downloader).local_blocks.set
            (getT s tid).block_id true).count true =
          (s.nodes (getT s tid).downloader).k
       then (s.nodes (getT s tid).downloader).total_data_recovered + 1
       else (s.nodes (getT s tid).downloader).total_data_recovered) := by
  rw [processEv_tc_restore s tid hcanc hrest]
  set D := (getT s tid).downloader with hD
  set U := (getT s tid).uploader with hU
  set fres : Node → Node := (fun nd =>
    let lb := nd.local_blocks.set (getT s tid).block_id true
    { nd with local_blocks := lb
              total_restores_made := nd.total_restores_made + 1
              total_data_recovered :=
                if lb.count true = nd.k
                then nd.total_data_recovered + 1
                else nd.total_data_recovered }) with hfres
  set E1 := updNode s D fres with hE1
  set E2 := updNode E1 D (fun nd => { nd with current_download := none })
    with hE2
  set E3 := updNode E2 U (fun nd => { nd with current_upload := none })
    with hE3
  have hcore : ((schedule_next_download (schedule_next_upload E3 U)
      D).nodes D).core = (E1.nodes D).core := by
    refine (snd_core _ D D).trans ((snu_core _ U D).trans ?_)
    refine (updNode_core_pres E2 U
      (fun nd => { nd with current_upload := none }) (fun nd => rfl) D).trans ?_
    exact updNode_core_pres E1 D
      (fun nd => { nd with current_download := none }) (fun nd => rfl) D
  have hE1D : E1.nodes D = fres (s.nodes D) := by
    rw [hE1, updNode_nodes_self]
  refine ⟨?_, ?_, ?_⟩
  · rw [Node.core_local hcore, hE1D]
  · rw [Node.core_restores hcore, hE1D]
  · rw [Node.core_recovered hcore, hE1D]

theorem C5_restore_completion_witness :
    ((getT exFR 2).canceled = false ∧ (getT exFR 2).restore = true) ∧
    (((processEv exFR (Ev.transferComplete 2)).nodes
        (getT exFR 2).downloader).local_blocks =
      (exFR.nodes (getT exFR 2).downloader).local_blocks.set
        (getT exFR 2).block_id true ∧
    ((processEv exFR (Ev.transferComplete 2)).nodes
        (getT exFR 2).downloader).total_restores_made =
      (exFR.nodes (getT exFR 2).downloader).total_restores_made + 1 ∧
    ((processEv exFR (Ev.transferComplete 2)).nodes
        (getT exFR 2).downloader).total_data_recovered =
      (if ((exFR.nodes (getT exFR 2).downloader).local_blocks.set
            (getT exFR 2).block_id true).count true =
          (exFR.nodes (getT exFR 2).downloader).k
       then (exFR.nodes (getT exFR 2).downloader).total_data_recovered + 1
       else (exFR.nodes (getT exFR 2).downloader).total_data_recovered)) :=
  ⟨⟨by decide, by decide⟩,
    C5_restore_completion exFR 2 (by decide) (by decide)⟩

/-- C6: a transfer completion whose `canceled` flag is set is a pure no-op:
the whole simulator state is returned unchanged. -/
theorem C6_canceled_noop (s : Sim) (tid : Nat)
    (hcanc : (getT s tid).canceled = true) :
    processEv s (Ev.transferComplete tid) = s :=
  processEv_tc_canceled s tid hcanc

theorem C6_canceled_noop_witness :
    (getT (initSim traceCfgs) 0).canceled = true ∧
    processEv (initSim traceCfgs) (Ev.transferComplete 0) =
      initSim traceCfgs :=
  ⟨by decide, C6_canceled_noop (initSim traceCfgs) 0 (by decide)⟩

/-- C7: `Fail.process` wipes the failing node's local blocks, clears every
owner's back reference to a block it held, empties `remote_blocks_held`,
resets `free_space` to `storage_size − block_size·n`, and schedules the
node's `Recover`. -/
theorem C7_fail_process {cfgs : List NodeCfg} {s : Sim}
    (hok : ∀ c ∈ cfgs, NodeCfg.ok c) (hr : Reachable (initSim cfgs) s)
    (B : Nat) (hB : B < s.count) :
    ((processEv s (Ev.fail B)).nodes B).local_blocks =
      List.replicate (s.nodes B).n false ∧
    (∀ p ∈ (s.nodes B).remote_blocks_held,
      ((processEv s (Ev.fail B)).nodes p.1).backed_up_blocks.getD p.2 none =
        none) ∧
    ((processEv s (Ev.fail B)).nodes B).remote_blocks_held = [] ∧
    ((processEv s (Ev.fail B)).nodes B).free_space =
      ((s.nodes B).storage_size : Int) -
        ((s.nodes B).block_size : Int) * ((s.nodes B).n : Int) ∧
    Ev.recover B ∈ (processEv s (Ev.fail B)).pending := by
  obtain ⟨h1, h2, h3, h4, h5, h6, h7, h8⟩ :=
    fail_effect B (inv_reachable hok hr) hB
  exact ⟨h1, h8, h2, h3, h7⟩

theorem C7_fail_process_witness :
    ((∀ c ∈ traceCfgs, NodeCfg.ok c) ∧ 1 < exS.count) ∧
    (((processEv exS (Ev.fail 1)).nodes 1).local_blocks =
        List.replicate (exS.nodes 1).n false ∧
      (∀ p ∈ (exS.nodes 1).remote_blocks_held,
        ((processEv exS (Ev.fail 1)).nodes p.1).backed_up_blocks.getD p.2
          none = none) ∧
      ((processEv exS (Ev.fail 1)).nodes 1).remote_blocks_held = [] ∧
      ((processEv exS (Ev.fail 1)).nodes 1).free_space =
        ((exS.nodes 1).storage_size : Int) -
          ((exS.nodes 1).block_size : Int) * ((exS.nodes 1).n : Int) ∧
      Ev.recover 1 ∈ (processEv exS (Ev.fail 1)).pending) :=
  ⟨⟨by decide, by decide⟩,
    C7_fail_process traceCfgs_ok reachable_exS 1 (by decide)⟩

/-- C8 (counterexample): after node 0's `Fail` is immediately followed by its
`Recover` in the reachable run `exFR`, its `backed_up_blocks[0]` still names
peer 1 — `Fail.process` never clears the failing node's own back references,
so they are not "all absent" as claimed. -/
theorem C8_backed_persist_counterexample :
    Reachable (initSim traceCfgs) exFR ∧
    (exFR.nodes 0).backed_up_blocks.getD 0 none = some 1 :=
  ⟨reachable_exFR, by decide⟩

/-- C8 (amended): a `Fail` immediately followed by the matching `Recover`
leaves the node's local blocks all false and its `backed_up_blocks` exactly
as they were before the failure. -/
theorem C8_fail_recover_amended {cfgs : List NodeCfg} {s : Sim}
    (hok : ∀ c ∈ cfgs, NodeCfg.ok c) (hr : Reachable (initSim cfgs) s)
    (B : Nat) (hB : B < s.count) :
    ((stepSim (stepSim s (Ev.fail B)) (Ev.recover B)).nodes B).local_blocks =
      List.replicate (s.nodes B).n false ∧
    ((stepSim (stepSim s (Ev.fail B)) (Ev.recover B)).nodes
        B).backed_up_blocks = (s.nodes B).backed_up_blocks := by
  have hpop : Inv (popEv s (Ev.fail B)) :=
    popEv_nontc_sinv _ (inv_reachable hok hr) (fun tid hc => by cases hc)
  have hBp : B < (popEv s (Ev.fail B)).count := hB
  obtain ⟨f1, f2, f3, f4, f5, f6, f7, f8⟩ := fail_effect B hpop hBp
  have hrec := recover_nodeframe
    (popEv (stepSim s (Ev.fail B)) (Ev.recover B)) B
  constructor
  · refine hrec.1.trans ?_
    show ((stepSim s (Ev.fail B)).nodes B).local_blocks = _
    exact f1
  · refine hrec.2.trans ?_
    show ((stepSim s (Ev.fail B)).nodes B).backed_up_blocks = _
    exact f4

theorem C8_fail_recover_amended_witness :
    ((∀ c ∈ traceCfgs, NodeCfg.ok c) ∧ 0 < exS.count) ∧
    (((stepSim (stepSim exS (Ev.fail 0)) (Ev.recover 0)).nodes
        0).local_blocks = List.replicate (exS.nodes 0).n false ∧
      ((stepSim (stepSim exS (Ev.fail 0)) (Ev.recover 0)).nodes
        0).backed_up_blocks = (exS.nodes 0).backed_up_blocks) :=
  ⟨⟨by decide, by decide⟩,
    C8_fail_recover_amended traceCfgs_ok reachable_exS 0 (by decide)⟩

/-- C9 (counterexample): in the reachable state `exS`, both of node 0's
blocks have exactly one remote copy, so the claim's per-block reading counts
2 vulnerable blocks, yet the summary reports 0 (it counts per-owner holders,
which are 2 here). -/
theorem C9_per_block_counterexample :
    Reachable (initSim traceCfgs) exS ∧
    vulnerable_blocks exS = 0 ∧ vulnerableClaimCount exS = 2 :=
  ⟨reachable_exS, by decide, by decide⟩

/-- C9 (amended): the summary counts a backed-up block as vulnerable exactly
when exactly one peer holds at least one block of its owner (a per-owner,
not per-block, criterion); on the symmetric three-node state of the claim's
scenario the figure is indeed 6. -/
theorem C9_vulnerable_amended :
    (∀ s : Sim, vulnerable_blocks s = amendedVulnCount s) ∧
    vulnerable_blocks threeNodeState = 6 :=
  ⟨vulnerable_blocks_eq_amended, by decide⟩

/-- C10: `Online.process` and `Offline.process` are no-ops on a failed node,
and no event other than that node's `Recover` clears its `failed` flag. -/
theorem C10_failed_frozen (s : Sim) (x : Nat) (e : Ev)
    (hf : (s.nodes x).failed = true) (hne : ∀ y, e ≠ Ev.recover y) :
    processEv s (Ev.online x) = s ∧
    processEv s (Ev.offline x) = s ∧
    ((processEv s e).nodes x).failed = true :=
  ⟨onlineBody_noop s x (Or.inr hf), processEv_offline_noop s x (Or.inl hf),
    failed_stable s x e hf hne⟩

theorem C10_failed_frozen_witness :
    (((stepSim exS (Ev.fail 0)).nodes 0).failed = true ∧
      (∀ y, Ev.fail 0 ≠ Ev.recover y)) ∧
    (processEv (stepSim exS (Ev.fail 0)) (Ev.online 0) =
        stepSim exS (Ev.fail 0) ∧
      processEv (stepSim exS (Ev.fail 0)) (Ev.offline 0) =
        stepSim exS (Ev.fail 0) ∧
      ((processEv (stepSim exS (Ev.fail 0)) (Ev.fail 0)).nodes 0).failed =
        true) :=
  ⟨⟨by decide, fun y hc => Ev.noConfusion hc⟩,
    C10_failed_frozen (stepSim exS (Ev.fail 0)) 0 (Ev.fail 0) (by decide)
      (fun y hc => Ev.noConfusion hc)⟩

end P2P
